import Mathlib

/-!
Skip list (`DataStructure/SkipList.cc`).

A shallow embedding of the class template `SkipList<ValT>`.

* The free store is a list of slots; a pointer is `Option Nat` (`none` is `nullptr`),
  `new` appends a slot and `delete` empties it.
* Every operation returns `Option`: `none` stands for undefined behaviour
  (dereferencing a null or deleted pointer, indexing a vector out of range) or for a
  `while` loop that did not finish within the given fuel.
* `getRandomLevel()` draws from a random engine, so the drawn level is an explicit
  argument of `insert`.
* `std::hash<ValT>` and `std::numeric_limits<ValT>` belong to the standard library and are
  parameters of the development (`ValueTraits`); `std::size_t` is taken to be 64 bits wide.

The file has three parts: the embedding of the source; the vocabulary of the invariant
(`WF`, the search on lists `walk` / `descend` / `locate`, `Reachable`) with the proof that
the pointer program refines the search on lists and preserves the invariant; and the
properties of every reachable state, followed by the operations on concrete inputs.
The second source file, the climbing-stairs exercise, is embedded in the namespace
`ClimbingStairs`, after the definitions for the skip list.

Two findings shape many statements below.  A value is `Searchable` when its key differs
from the key of `mNil` or it equals the value of `mNil`; for any other value the loops of
`getPredecessor` and `find` step onto `mNil` and dereference its null forward pointer
(`getPredecessor_unsearchable`).  And `getRandomLevel` can return 0, in which case `insert`
builds a node without forward pointers and links it nowhere.
-/

namespace SkipList

/-- The value `std::numeric_limits<key_type>::max()` for the 64-bit `std::size_t`. -/
def keyMax : Nat := 2 ^ 64 - 1

/-- What the class template needs from `ValT`: `std::hash<ValT>` and
`std::numeric_limits<ValT>::min()` / `max()`. -/
structure ValueTraits (V : Type) where
  hash : V → Nat
  minValue : V
  maxValue : V

/-- The call `mHasher(value)`: a `std::size_t`. -/
def mHasher {V : Type} (T : ValueTraits V) (value : V) : Nat :=
  T.hash value % (keyMax + 1)

/-- The struct `node_type`: `key`, `value` and the vector `indexes` of forward pointers. -/
structure node_type (V : Type) where
  key : Nat
  value : V
  indexes : List (Option Nat)
deriving DecidableEq

/-- The free store together with the two data members `mHead` and `mNil`. -/
structure State (V : Type) where
  heap : List (Option (node_type V))
  mHead : Option Nat
  mNil : Option Nat
deriving DecidableEq

/-- The constant `mMaxLevel = 16`. -/
def mMaxLevel : Nat := 16

/-- Dereference of the address `a`: the node in that slot, unless it was deleted. -/
def State.node {V : Type} (s : State V) (a : Nat) : Option (node_type V) :=
  (s.heap.get? a).join

/-- The expression `node->indexes[i]` for the address `node`; `none` when the node is gone
or `i` is out of range, `some none` when the stored pointer is null. -/
def State.index {V : Type} (s : State V) (a i : Nat) : Option (Option Nat) :=
  (s.node a).bind fun n => n.indexes.get? i

/-- The assignment `node->indexes[i] = p`. -/
def State.setIndex {V : Type} (s : State V) (a i : Nat) (p : Option Nat) : Option (State V) :=
  (s.node a).bind fun n =>
    if i < n.indexes.length then
      some { s with heap := s.heap.set a (some { n with indexes := n.indexes.set i p }) }
    else none

/-- The expression `new node_type(key, value, level)`: the new state and the address. -/
def State.alloc {V : Type} (s : State V) (key : Nat) (value : V) (level : Nat) :
    State V × Nat :=
  ({ s with heap := s.heap ++ [some ⟨key, value, List.replicate level none⟩] }, s.heap.length)

/-- The statement `delete node`. -/
def State.free {V : Type} (s : State V) (a : Nat) : Option (State V) :=
  (s.node a).bind fun _ => some { s with heap := s.heap.set a none }

/-- The default constructor `SkipList()` on a fresh free store: `mHead` at address 0 and `mNil`
at address 1, every forward pointer of `mHead` set to `mNil`, those of `mNil` left null. -/
def empty {V : Type} (T : ValueTraits V) : State V :=
  { heap := [some ⟨0, T.minValue, List.replicate mMaxLevel (some 1)⟩,
             some ⟨keyMax, T.maxValue, List.replicate mMaxLevel none⟩],
    mHead := some 0,
    mNil := some 1 }

/-- The member `getNodeLevel(node)`: `node->indexes.size()`. -/
def getNodeLevel {V : Type} (s : State V) (a : Nat) : Option Nat :=
  (s.node a).map fun n => n.indexes.length

/-- The range of `getRandomLevel()`: a sample of
`std::binomial_distribution<size_type>(mMaxLevel-1, mProbability)` lies in `[0, mMaxLevel-1]`. -/
def isRandomLevel (level : Nat) : Prop := level ≤ mMaxLevel - 1

instance (level : Nat) : Decidable (isRandomLevel level) := by
  unfold isRandomLevel; infer_instance

/-- The inner `while` loop of `getPredecessor` and `find` at index `j = i-1`:
while the node behind `node->indexes[j]` has a smaller key, or the same key and another
value, step onto it.  Returns the node at which the loop stops. -/
def advance {V : Type} [DecidableEq V] (s : State V) (key : Nat) (value : V) (j : Nat) :
    Nat → Nat → Option Nat
  | 0, _ => none
  | fuel + 1, node =>
    (s.index node j).bind fun p => p.bind fun next => (s.node next).bind fun m =>
      if m.key < key ∨ (m.key = key ∧ m.value ≠ value) then advance s key value j fuel next
      else some node

/-- The `for (i = getNodeLevel(mHead); i > 0; --i)` loop of `getPredecessor`,
with `result[i-1] = node` after the inner loop. -/
def getPredecessorLoop {V : Type} [DecidableEq V] (s : State V) (key : Nat) (value : V)
    (fuel : Nat) : Nat → Nat → List (Option Nat) → Option (List (Option Nat))
  | 0, _, result => some result
  | i + 1, node, result =>
    (advance s key value i fuel node).bind fun node1 =>
      if i < result.length then
        getPredecessorLoop s key value fuel i node1 (result.set i (some node1))
      else none

/-- The member `getPredecessor(value)`. -/
def getPredecessor {V : Type} [DecidableEq V] (T : ValueTraits V) (fuel : Nat) (s : State V)
    (value : V) : Option (List (Option Nat)) :=
  s.mHead.bind fun head => (getNodeLevel s head).bind fun n =>
    getPredecessorLoop s (mHasher T value) value fuel n head (List.replicate n none)

/-- The `for (i = 0; i < level; ++i)` loop of `insert`, started at index `i` with `k`
rounds left: `node->indexes[i] = preds[i]->indexes[i]; preds[i]->indexes[i] = node`. -/
def insertLoop {V : Type} (preds : List (Option Nat)) (node : Nat) :
    Nat → Nat → State V → Option (State V)
  | 0, _, s => some s
  | k + 1, i, s =>
    (preds.get? i).bind fun p => p.bind fun pred => (s.index pred i).bind fun next =>
      (s.setIndex node i next).bind fun s1 => (s1.setIndex pred i (some node)).bind fun s2 =>
        insertLoop preds node k (i + 1) s2

/-- The member `insert(value)`, with `level` the value drawn by `getRandomLevel()`. -/
def insert {V : Type} [DecidableEq V] (T : ValueTraits V) (fuel : Nat) (s : State V)
    (value : V) (level : Nat) : Option (State V) :=
  (getPredecessor T fuel s value).bind fun preds =>
    let (s1, node) := s.alloc (mHasher T value) value level
    insertLoop preds node level 0 s1

/-- The `for (i = 0; i < getNodeLevel(node); ++i)` loop of `erase`, started at index `i`
with `k` rounds left: `preds[i]->indexes[i] = node->indexes[i]`. -/
def eraseLoop {V : Type} (preds : List (Option Nat)) (node : Nat) :
    Nat → Nat → State V → Option (State V)
  | 0, _, s => some s
  | k + 1, i, s =>
    (preds.get? i).bind fun p => p.bind fun pred => (s.index node i).bind fun next =>
      (s.setIndex pred i next).bind fun s1 => eraseLoop preds node k (i + 1) s1

/-- The member `erase(value)`. -/
def erase {V : Type} [DecidableEq V] (T : ValueTraits V) (fuel : Nat) (s : State V)
    (value : V) : Option (State V) :=
  (getPredecessor T fuel s value).bind fun preds =>
    (preds.get? 0).bind fun p0 => p0.bind fun pred0 => (s.index pred0 0).bind fun node =>
      match node with
      | none => some s
      | some a =>
        if some a = s.mNil then some s
        else (s.node a).bind fun n =>
          if n.value ≠ value then some s
          else (eraseLoop preds a n.indexes.length 0 s).bind fun s1 => s1.free a

/-- The `for` loop of `find`: the descent of `getPredecessor` without the result vector. -/
def findLoop {V : Type} [DecidableEq V] (s : State V) (key : Nat) (value : V) (fuel : Nat) :
    Nat → Nat → Option Nat
  | 0, node => some node
  | i + 1, node => (advance s key value i fuel node).bind fun node1 =>
      findLoop s key value fuel i node1

/-- The member `find(value)`: `some (some value)` is a present result, `some none` is
`std::nullopt`. -/
def find {V : Type} [DecidableEq V] (T : ValueTraits V) (fuel : Nat) (s : State V)
    (value : V) : Option (Option V) :=
  s.mHead.bind fun head => (getNodeLevel s head).bind fun n =>
    (findLoop s (mHasher T value) value fuel n head).bind fun node =>
      (s.index node 0).bind fun p =>
        match p with
        | none => some none
        | some a =>
          if some a = s.mNil then some none
          else (s.node a).bind fun m => if m.value = value then some (some value) else some none

/-- One line of the output of `operator<<`: key, value and level of a node. -/
structure Entry (V : Type) where
  key : Nat
  value : V
  level : Nat
deriving DecidableEq

/-- The `while (node != nullptr && node != list.mNil)` loop of `operator<<`. -/
def traverseLoop {V : Type} (s : State V) : Nat → Option Nat → Option (List (Entry V))
  | 0, _ => none
  | _ + 1, none => some []
  | fuel + 1, some a =>
    if some a = s.mNil then some []
    else (s.node a).bind fun n => (n.indexes.get? 0).bind fun next =>
      (traverseLoop s fuel next).map fun rest => ⟨n.key, n.value, n.indexes.length⟩ :: rest

/-- The friend `operator<<`: the entries printed, in order. -/
def traversal {V : Type} (fuel : Nat) (s : State V) : Option (List (Entry V)) :=
  s.mHead.bind fun head => (s.index head 0).bind fun first => traverseLoop s fuel first

/-- The instance `SkipList<int>`: `std::hash<int>` converts the value to `std::size_t`,
and the limits are `INT_MIN` and `INT_MAX`. -/
def intTraits : ValueTraits Int :=
  { hash := fun v => (v % 2 ^ 64).toNat, minValue := -2 ^ 31, maxValue := 2 ^ 31 - 1 }

/-- The constructor `SkipList(const std::initializer_list<value_type>&)`, continued from the
state `s`: one `insert` per value, each with the level drawn for it. -/
def insertAll {V : Type} [DecidableEq V] (T : ValueTraits V) (fuel : Nat) :
    State V → List (V × Nat) → Option (State V)
  | s, [] => some s
  | s, (value, level) :: rest => (insert T fuel s value level).bind fun s1 =>
      insertAll T fuel s1 rest

/-- The instance `SkipList<std::optional<int>>`, a value type with a hash collision:
`std::hash<std::optional<int>>` (libstdc++) is the hash of the contained `int`, and the fixed
number `(size_t)-3333` for `std::nullopt`, so `std::nullopt` and `-3333` have one key.  The
primary template of `std::numeric_limits` gives `std::nullopt` for both limits. -/
def optionalIntTraits : ValueTraits (Option Int) :=
  { hash := fun v => match v with
      | some x => intTraits.hash x
      | none => intTraits.hash (-3333),
    minValue := none, maxValue := none }

/-- A list like the one built in `main`, for `SkipList<int>`: the values 1 to 5 inserted in
that order, with one possible outcome of the five level draws. -/
def sample : Option (State Int) :=
  insertAll intTraits 8 (empty intTraits) [(1, 1), (2, 3), (3, 1), (4, 2), (5, 1)]

/-! ## Vocabulary of the invariant -/

/-- Key, value and level count of the node at `a`. -/
def State.info {V : Type} (s : State V) (a : Nat) : Option (Nat × V × Nat) :=
  (s.node a).map fun n => (n.key, n.value, n.indexes.length)

/-- Level count of the node at `a` (0 when there is none). -/
def State.level {V : Type} (s : State V) (a : Nat) : Nat :=
  match s.info a with
  | some (_, _, l) => l
  | none => 0

/-- Key of the node at `a` (0 when there is none). -/
def State.keyOf {V : Type} (s : State V) (a : Nat) : Nat :=
  match s.info a with
  | some (k, _, _) => k
  | none => 0

/-- The node at `b` takes part in level `j`. -/
def above {V : Type} (s : State V) (j : Nat) (b : Nat) : Bool :=
  decide (j < s.level b)

/-- The test of the search loop on the node at `b`: smaller key, or same key and another
value. -/
def passes {V : Type} [DecidableEq V] (s : State V) (key : Nat) (value : V) (b : Nat) : Bool :=
  match s.info b with
  | some (k, v, _) => decide (k < key ∨ (k = key ∧ v ≠ value))
  | none => false

/-- The level-`j` forward pointers lead from `a` through the addresses of the list, in
order, and then to `mNil` (address 1). -/
def Linked {V : Type} (s : State V) (j : Nat) : Nat → List Nat → Prop
  | a, [] => s.index a j = some (some 1)
  | a, b :: bs => s.index a j = some (some b) ∧ Linked s j b bs

/-- Last element of `c :: M`. -/
def lastFrom : Nat → List Nat → Nat
  | c, [] => c
  | _, b :: bs => lastFrom b bs

/-- One level of the search on the list `B` of the nodes ahead: `f` tells which nodes take
part in the level, `p` which of them the loop steps onto.  The result splits `B` into the part
left behind (ending with the node the loop stops at) and the part still ahead. -/
def walk (f p : Nat → Bool) : List Nat → List Nat × List Nat
  | [] => ([], [])
  | b :: bs =>
    if f b then
      if p b then (b :: (walk f p bs).1, (walk f p bs).2) else ([], b :: bs)
    else if (walk f p bs).1 = [] then ([], b :: bs)
    else (b :: (walk f p bs).1, (walk f p bs).2)

/-- The descent through the levels `i-1, ..., 0`, started with `A` behind and `B` ahead. -/
def descend (f : Nat → Nat → Bool) (p : Nat → Bool) :
    Nat → List Nat → List Nat → List Nat × List Nat
  | 0, A, B => (A, B)
  | i + 1, A, B => descend f p i (A ++ (walk (f i) p B).1) (walk (f i) p B).2

/-- A value the search loops can look for: its key is not the key of `mNil`, or it is the
value stored in `mNil`. -/
def Searchable {V : Type} (T : ValueTraits V) (value : V) : Prop :=
  mHasher T value ≠ keyMax ∨ value = T.maxValue

/-- The nodes ahead at level `j` start with one the loop does not step onto. -/
def HeadStops (g p : Nat → Bool) (B : List Nat) : Prop :=
  ∀ b, (B.filter g).head? = some b → p b = false

/-- The lines `operator<<` prints for the nodes at the addresses of `L`. -/
def entries {V : Type} (s : State V) (L : List Nat) : List (Entry V) :=
  L.filterMap fun a => (s.info a).map fun x => ⟨x.1, x.2.1, x.2.2⟩

/-- Well-formedness of the state, with `L` the addresses of the stored nodes in level-0
order: the sentinels sit at the addresses 0 and 1, every stored node has between 1 and
`mMaxLevel` forward pointers and the key of its value, no node occurs twice, the level-`j`
pointers chain exactly the nodes of `L` that have more than `j` levels, in the order of `L`,
from `mHead` to `mNil`, the forward pointers of `mNil` are null, and the keys along `L` never
decrease. -/
structure WF {V : Type} (T : ValueTraits V) (s : State V) (L : List Nat) : Prop where
  head : s.mHead = some 0
  nil : s.mNil = some 1
  headNode : ∃ v, s.info 0 = some (0, v, mMaxLevel)
  nilNode : ∃ l, s.info 1 = some (keyMax, T.maxValue, l)
  nodup : L.Nodup
  nilLinks : ∀ j, j < mMaxLevel → s.index 1 j = some none
  nodes : ∀ a ∈ L, 2 ≤ a ∧ ∃ k v l, s.info a = some (k, v, l) ∧ 1 ≤ l ∧ l ≤ mMaxLevel ∧
    k = mHasher T v ∧ Searchable T v
  linked : ∀ j, j < mMaxLevel → Linked s j 0 (L.filter (above s j))
  sorted : L.Pairwise fun a b => s.keyOf a ≤ s.keyOf b

/-- Where the search for `value` ends on the list `L` of stored nodes: the nodes behind the
final position and the nodes ahead of it. -/
@[irreducible]
def locate {V : Type} [DecidableEq V] (s : State V) (key : Nat) (value : V) (L : List Nat) :
    List Nat × List Nat :=
  descend (above s) (passes s key value) mMaxLevel [] L

/-- The address stored in `preds[j]` (0 when there is none). -/
def predAt (preds : List (Option Nat)) (j : Nat) : Nat :=
  ((preds.get? j).join).getD 0

/-- The node `erase(value)` removes and `find(value)` reports: the first node ahead of the
final position of the search, provided it stores the value. -/
def victim {V : Type} [DecidableEq V] (s : State V) (key : Nat) (value : V) (L : List Nat) :
    Option Nat :=
  (locate s key value L).2.head?.bind fun b =>
    (s.info b).bind fun x => if x.2.1 = value then some b else none

/-- The states of the list: the one left by the default constructor, and those reached from
it by calls of `insert` (with a level `getRandomLevel` can draw) and `erase` that have an
outcome. -/
inductive Reachable {V : Type} [DecidableEq V] (T : ValueTraits V) : State V → Prop
  | empty : Reachable T (empty T)
  | insert (s s1 : State V) (fuel : Nat) (value : V) (level : Nat) :
      Reachable T s → isRandomLevel level → insert T fuel s value level = some s1 →
      Reachable T s1
  | erase (s s1 : State V) (fuel : Nat) (value : V) :
      Reachable T s → erase T fuel s value = some s1 → Reachable T s1

/-- The move constructor `SkipList(SkipList&& other)` over one free store: the new object
(first component) takes `mHead` and `mNil` of `other`, and `other` (second component) is
left with both pointers null. -/
def moveConstruct {V : Type} (other : State V) : State V × State V :=
  ({ heap := other.heap, mHead := other.mHead, mNil := other.mNil },
   { heap := other.heap, mHead := none, mNil := none })

/-- The destructor from the pointer `node` on: `while (node != nullptr &&
node->indexes[0] != nullptr) { tmp = node; node = node->indexes[0]; delete tmp; }
delete node;`. -/
def destroyLoop {V : Type} : Nat → State V → Option Nat → Option (State V)
  | 0, _, _ => none
  | _ + 1, s, none => some s
  | fuel + 1, s, some a =>
    (s.index a 0).bind fun next =>
      match next with
      | none => s.free a
      | some b => (s.free a).bind fun s1 => destroyLoop fuel s1 (some b)

/-- The destructor `~SkipList()`. -/
def destroy {V : Type} (fuel : Nat) (s : State V) : Option (State V) :=
  destroyLoop fuel s s.mHead

/-- The node at an address can be reached from `mHead` along forward pointers of any
levels. -/
inductive Reaches {V : Type} (s : State V) : Nat → Prop
  | head (a : Nat) : s.mHead = some a → Reaches s a
  | step (a b j : Nat) : Reaches s a → s.index a j = some (some b) → Reaches s b

/-- The node at an address lies on the level-`i` chain that starts at `mHead`. -/
inductive OnChain {V : Type} (s : State V) (i : Nat) : Nat → Prop
  | head (a : Nat) : s.mHead = some a → OnChain s i a
  | next (a b : Nat) : OnChain s i a → s.index a i = some (some b) → OnChain s i b

/-- The value of `i - 1`, and of `i` after `--i`, for an `unsigned int` `i`. -/
def decrement (i : Nat) : Nat := (i + (2 ^ 32 - 1)) % 2 ^ 32

/-- The `for` loop of `getPredecessor` once more, with its counter `i` kept as the
`unsigned int` of the source (`i-1` and `--i` taken modulo 2^32), bounded by a number of
rounds, and with the indices `i-1` it uses recorded in order. -/
def getPredecessorTrace {V : Type} [DecidableEq V] (s : State V) (key : Nat) (value : V)
    (fuel : Nat) : Nat → Nat → Nat → List (Option Nat) → List Nat →
      Option (List (Option Nat) × List Nat)
  | 0, _, _, _, _ => none
  | rounds + 1, i, node, result, used =>
    if 0 < i then
      (advance s key value (decrement i) fuel node).bind fun node1 =>
        if decrement i < result.length then
          getPredecessorTrace s key value fuel rounds (decrement i) node1
            (result.set (decrement i) (some node1)) (used ++ [decrement i])
        else none
    else some (result, used)

/-- The member `getPredecessor(value)` with the loop in the form of `getPredecessorTrace`:
besides the predecessors it yields the level indices the loop used, in order. -/
def getPredecessorTraced {V : Type} [DecidableEq V] (T : ValueTraits V) (fuel rounds : Nat)
    (s : State V) (value : V) : Option (List (Option Nat) × List Nat) :=
  s.mHead.bind fun head => (getNodeLevel s head).bind fun n =>
    getPredecessorTrace s (mHasher T value) value fuel rounds n head (List.replicate n none) []

/-- The `SkipList<int>` that holds the one value 7 in a node of level 2 (at address 2). -/
def listOfSeven : State Int :=
  { heap := [some ⟨0, -2 ^ 31, some 2 :: some 2 :: List.replicate 14 (some 1)⟩,
             some ⟨keyMax, 2 ^ 31 - 1, List.replicate 16 none⟩,
             some ⟨7, 7, [some 1, some 1]⟩],
    mHead := some 0,
    mNil := some 1 }

/-- The state `listOfSeven` after `erase(7)`: the slot of the node is released. -/
def listOfSevenErased : State Int :=
  { heap := [some ⟨0, -2 ^ 31, List.replicate 16 (some 1)⟩,
             some ⟨keyMax, 2 ^ 31 - 1, List.replicate 16 none⟩,
             none],
    mHead := some 0,
    mNil := some 1 }

/-- The state that `sample` yields: the list holding 1 to 5, with nodes of the levels 1, 3,
1, 2 and 1 (the empty list stands in, should `sample` have no outcome). -/
def sampleState : State Int := sample.getD (empty intTraits)

/-- The state `sampleState` after `erase(2)`, which removes the node of level 3
(`sampleState` itself stands in, should the call have no outcome). -/
def sampleErased : State Int := (erase intTraits 8 sampleState 2).getD sampleState

end SkipList

/-!
Climbing stairs (`Algorithm/LeetCode/DP/070.ClimbingStairs.cc`).

The file defines `int climbStairs(int n)` twice: with two rolling variables, and with a
table.  `int` is the 32-bit two's-complement type; an addition that leaves its range is
undefined behaviour in C++ and is taken modulo 2^32 here (`wrap32`).  A `for` loop gets
fuel, and `none` stands for a loop that did not finish within it, for an access outside
the table, or for a table that cannot be constructed.
-/

namespace ClimbingStairs

/-- Reduction of an integer to the range of `int`, modulo 2^32. -/
def wrap32 (x : Int) : Int := (x + 2 ^ 31) % 2 ^ 32 - 2 ^ 31

/-- The value `INT_MAX`. -/
def INT_MAX : Int := 2 ^ 31 - 1

/-- The loop `for (int i = 3; i <= n; ++i)` of the first `climbStairs`, entered with the
current `i`, `one_before`, `two_before` and `ways`. -/
def scanLoop (n : Int) : Nat → Int → Int → Int → Int → Option Int
  | 0, _, _, _, _ => none
  | fuel + 1, i, one_before, two_before, ways =>
    if i ≤ n then
      scanLoop n fuel (wrap32 (i + 1)) (wrap32 (one_before + two_before)) one_before
        (wrap32 (one_before + two_before))
    else some ways

/-- The first `climbStairs`: O(1) space. -/
def climbStairs (fuel : Nat) (n : Int) : Option Int :=
  if n ≤ 0 then some 0
  else if n = 1 then some 1
  else if n = 2 then some 2
  else scanLoop n fuel 3 2 1 0

/-- The expression `vector<int> steps(count)`: `count` zeros.  A negative `int` converts to
a `size_type` beyond `max_size()`, for which the constructor throws. -/
def makeSteps (count : Int) : Option (List Int) :=
  if 0 ≤ count then some (List.replicate count.toNat 0) else none

/-- The read `steps[i]` with an `int` index. -/
def readStep (steps : List Int) (i : Int) : Option Int :=
  if 0 ≤ i then steps.get? i.toNat else none

/-- The write `steps[i] = x` with an `int` index. -/
def writeStep (steps : List Int) (i : Int) (x : Int) : Option (List Int) :=
  if 0 ≤ i ∧ i.toNat < steps.length then some (steps.set i.toNat x) else none

/-- The loop `for (int i = 3; i <= n; ++i) steps[i] = steps[i-1] + steps[i-2]` of the second
`climbStairs`. -/
def tableLoop (n : Int) : Nat → Int → List Int → Option (List Int)
  | 0, _, _ => none
  | fuel + 1, i, steps =>
    if i ≤ n then
      (readStep steps (i - 1)).bind fun a => (readStep steps (i - 2)).bind fun b =>
        (writeStep steps i (wrap32 (a + b))).bind fun steps1 =>
          tableLoop n fuel (wrap32 (i + 1)) steps1
    else some steps

/-- The second `climbStairs`: a table of `n+1` entries. -/
def climbStairsTable (fuel : Nat) (n : Int) : Option Int :=
  if n ≤ 0 then some 0
  else if n = 1 then some 1
  else if n = 2 then some 2
  else
    (makeSteps (wrap32 (n + 1))).bind fun steps0 =>
      (writeStep steps0 1 1).bind fun steps1 => (writeStep steps1 2 2).bind fun steps2 =>
        (tableLoop n fuel 3 steps2).bind fun steps => readStep steps n

/-- The sequences of steps of size 1 or 2 that climb `n` stairs, each listed once. -/
def sequences : Nat → List (List Nat)
  | 0 => [[]]
  | 1 => [[1]]
  | n + 2 => (sequences (n + 1)).map (fun l => 1 :: l) ++ (sequences n).map (fun l => 2 :: l)

/-- Two consecutive numbers of the sequence the loops compute, started at `(1, 1)`: each
further number is the sum of the two before it, reduced to `int`. -/
def waysPair : Nat → Int × Int
  | 0 => (1, 1)
  | n + 1 => ((waysPair n).2, wrap32 ((waysPair n).2 + (waysPair n).1))

/-- The numbers the loops compute: `ways 1 = 1`, `ways 2 = 2`, and each further one the sum
of the two before it, reduced to `int`. -/
def ways (n : Nat) : Int := (waysPair n).1

end ClimbingStairs

namespace SkipList

/-! ## The free store -/

theorem node_lt {V : Type} {s : State V} {a : Nat} {n : node_type V} (h : s.node a = some n) :
    a < s.heap.length := by
  unfold State.node at h
  by_contra hc
  rw [List.get?_eq_none.mpr (by omega)] at h
  simp at h

theorem node_set {V : Type} (s : State V) (a b : Nat) (x : Option (node_type V)) :
    State.node { s with heap := s.heap.set a x } b =
      if b = a ∧ a < s.heap.length then x else s.node b := by
  unfold State.node
  by_cases hb : b = a
  · subst hb
    by_cases hl : b < s.heap.length
    · simp [hl]
    · have h1 : s.heap.length ≤ b := by omega
      simp [hl, List.getElem?_eq_none h1, List.getElem?_eq_none (by simpa using h1 : (s.heap.set b x).length ≤ b)]
  · simp [hb, List.getElem?_set_ne (Ne.symm hb)]

theorem index_eq_some {V : Type} {s : State V} {a i : Nat} {q : Option Nat} (h : s.index a i = some q) :
    ∃ n, s.node a = some n ∧ n.indexes.get? i = some q ∧ i < n.indexes.length := by
  unfold State.index at h
  cases hn : s.node a with
  | none => simp [hn] at h
  | some n =>
    simp only [hn, Option.some_bind] at h
    refine ⟨n, rfl, h, ?_⟩
    rw [List.get?_eq_some] at h
    exact h.1

theorem setIndex_some {V : Type} {s : State V} {a i : Nat} {q : Option Nat} (p : Option Nat)
    (h : s.index a i = some q) : ∃ s1, s.setIndex a i p = some s1 := by
  obtain ⟨n, hn, -, hi⟩ := index_eq_some h
  simp only [State.setIndex, hn, Option.some_bind, hi, if_true]
  exact ⟨_, rfl⟩

theorem setIndex_spec {V : Type} {s s1 : State V} {a i : Nat} {p : Option Nat}
    (h : s.setIndex a i p = some s1) :
    s1.mHead = s.mHead ∧ s1.mNil = s.mNil ∧ s1.heap.length = s.heap.length ∧
    (∀ b, s1.info b = s.info b) ∧
    (∀ b j, s1.index b j = if b = a ∧ j = i then some p else s.index b j) := by
  unfold State.setIndex at h
  cases hn : s.node a with
  | none => simp [hn] at h
  | some n =>
    simp only [hn, Option.some_bind] at h
    split at h
    · rename_i hi
      simp only [Option.some.injEq] at h
      subst h
      have ha : a < s.heap.length := node_lt hn
      refine ⟨rfl, rfl, by simp, ?_, ?_⟩
      · intro b
        unfold State.info
        rw [node_set]
        by_cases hb : b = a
        · subst hb
          simp [hn, ha]
        · simp [hb]
      · intro b j
        unfold State.index
        rw [node_set]
        by_cases hb : b = a
        · subst hb
          by_cases hj : j = i
          · subst hj
            simp [ha, hi]
          · simp [ha, hn, hj, List.getElem?_set_ne (Ne.symm hj)]
        · simp [hb]
    · simp at h

theorem node_append {V : Type} (s : State V) (x : Option (node_type V)) (b : Nat) :
    State.node { s with heap := s.heap ++ [x] } b =
      if b = s.heap.length then x else s.node b := by
  unfold State.node
  by_cases hb : b = s.heap.length
  · subst hb
    simp
  · rcases Nat.lt_or_gt_of_ne hb with h | h
    · simp [hb, List.getElem?_append_left h]
    · have h1 : (s.heap ++ [x]).length ≤ b := by simp; omega
      simp [hb, List.getElem?_eq_none h1, List.getElem?_eq_none (by omega : s.heap.length ≤ b)]

theorem alloc_spec {V : Type} (s : State V) (k : Nat) (v : V) (l : Nat) :
    (s.alloc k v l).2 = s.heap.length ∧ (s.alloc k v l).1.mHead = s.mHead ∧
    (s.alloc k v l).1.mNil = s.mNil ∧ (s.alloc k v l).1.heap.length = s.heap.length + 1 ∧
    (∀ b, (s.alloc k v l).1.info b = if b = s.heap.length then some (k, v, l) else s.info b) ∧
    (∀ b j, (s.alloc k v l).1.index b j =
      if b = s.heap.length then (if j < l then some none else none) else s.index b j) := by
  refine ⟨rfl, rfl, rfl, by simp [State.alloc], ?_, ?_⟩
  · intro b
    unfold State.info State.alloc
    rw [node_append]
    by_cases hb : b = s.heap.length
    · simp [hb]
    · simp [hb]
  · intro b j
    unfold State.index State.alloc
    rw [node_append]
    by_cases hb : b = s.heap.length
    · by_cases hj : j < l
      · simp [hb, hj, List.getElem?_replicate]
      · simp [hb, hj, List.getElem?_replicate]
    · simp [hb]

theorem free_spec {V : Type} {s : State V} {a : Nat} (h : (s.node a).isSome) :
    ∃ s1, s.free a = some s1 ∧ s1.mHead = s.mHead ∧ s1.mNil = s.mNil ∧
      s1.heap.length = s.heap.length ∧
      (∀ b, s1.info b = if b = a then none else s.info b) ∧
      (∀ b j, s1.index b j = if b = a then none else s.index b j) := by
  obtain ⟨n, hn⟩ := Option.isSome_iff_exists.mp h
  have ha := node_lt hn
  refine ⟨{ s with heap := s.heap.set a none }, by simp [State.free, hn], rfl, rfl, by simp,
    ?_, ?_⟩
  · intro b
    unfold State.info
    rw [node_set]
    by_cases hb : b = a
    · simp [hb, ha]
    · simp [hb]
  · intro b j
    unfold State.index
    rw [node_set]
    by_cases hb : b = a
    · simp [hb, ha]
    · simp [hb]


/-! ## One level of the search, on lists -/

theorem lastFrom_append (c : Nat) (M N : List Nat) :
    lastFrom c (M ++ N) = lastFrom (lastFrom c M) N := by
  induction M generalizing c with
  | nil => rfl
  | cons b bs ih => exact ih b

theorem lastFrom_mem (c : Nat) (M : List Nat) : lastFrom c M = c ∧ M = [] ∨ lastFrom c M ∈ M := by
  induction M generalizing c with
  | nil => exact Or.inl ⟨rfl, rfl⟩
  | cons b bs ih =>
    right
    rcases ih b with ⟨h, -⟩ | h
    · simp [lastFrom, h]
    · simp [lastFrom, h]

theorem walk_append (f p : Nat → Bool) (B : List Nat) :
    (walk f p B).1 ++ (walk f p B).2 = B := by
  induction B with
  | nil => rfl
  | cons b bs ih =>
    unfold walk
    split_ifs <;> simp [ih]

/-- The part left behind is empty or ends with a node of the level that the loop stepped
onto. -/
theorem walk_last (f p : Nat → Bool) (B : List Nat) (c : Nat) :
    (walk f p B).1 = [] ∨
      (f (lastFrom c (walk f p B).1) = true ∧ p (lastFrom c (walk f p B).1) = true) := by
  induction B generalizing c with
  | nil => left; rfl
  | cons b bs ih =>
    unfold walk
    split_ifs with h1 h2 h3
    · right
      rcases ih b with h | h
      · simp [h, lastFrom, h1, h2]
      · simpa [lastFrom] using h
    · left; rfl
    · left; rfl
    · right
      rcases ih b with h | h
      · exact absurd h h3
      · simpa [lastFrom] using h

theorem walk_pass (f p : Nat → Bool) (B : List Nat) :
    ∀ x ∈ (walk f p B).1, f x = true → p x = true := by
  induction B with
  | nil => intro x hx; simp [walk] at hx
  | cons b bs ih =>
    unfold walk
    split_ifs with h1 h2 h3
    · intro x hx hf
      rcases List.mem_cons.mp hx with h | h
      · subst h; exact h2
      · exact ih x h hf
    · intro x hx; simp at hx
    · intro x hx; simp at hx
    · intro x hx hf
      rcases List.mem_cons.mp hx with h | h
      · subst h; exact absurd hf h1
      · exact ih x h hf

theorem walk_headStops (f p : Nat → Bool) (B : List Nat) :
    HeadStops f p (walk f p B).2 := by
  induction B with
  | nil => intro b hb; simp [walk] at hb
  | cons b bs ih =>
    unfold walk
    split_ifs with h1 h2 h3
    · exact ih
    · intro x hx
      simp [List.filter_cons, h1] at hx
      subst hx; simpa using h2
    · intro x hx
      have hbs : (walk f p bs).2 = bs := by
        have := walk_append f p bs
        rw [h3] at this; simpa using this
      rw [← hbs] at hx
      simp only [List.filter_cons, h1] at hx
      exact ih x (by simpa using hx)
    · exact ih

theorem walk_filter_nil (f g p : Nat → Bool) (B : List Nat) (hg : ∀ x, g x = true → f x = true)
    (hs : HeadStops g p B) : (walk f p B).1.filter g = [] := by
  have hB := walk_append f p B
  have hp := walk_pass f p B
  cases hM : (walk f p B).1.filter g with
  | nil => rfl
  | cons x xs =>
    exfalso
    have hx : x ∈ (walk f p B).1.filter g := by rw [hM]; simp
    rw [List.mem_filter] at hx
    have h1 := hp x hx.1 (hg x hx.2)
    have h2 : (B.filter g).head? = some x := by
      rw [← hB, List.filter_append, hM]; rfl
    rw [hs x h2] at h1
    exact Bool.noConfusion h1

theorem walk_cons_pass (f p : Nat → Bool) (b : Nat) (bs : List Nat) (h1 : f b = true)
    (h2 : p b = true) : walk f p (b :: bs) = (b :: (walk f p bs).1, (walk f p bs).2) := by
  rw [walk]; simp [h1, h2]

theorem walk_cons_stop (f p : Nat → Bool) (b : Nat) (bs : List Nat) (h1 : f b = true)
    (h2 : p b = false) : walk f p (b :: bs) = ([], b :: bs) := by
  rw [walk]; simp [h1, h2]

theorem walk_cons_skip (f p : Nat → Bool) (b : Nat) (bs : List Nat) (h1 : f b = false) :
    walk f p (b :: bs) = if (walk f p bs).1 = [] then ([], b :: bs)
      else (b :: (walk f p bs).1, (walk f p bs).2) := by
  rw [walk]; simp [h1]

theorem lastFrom_walk_skip (f p : Nat → Bool) (b c : Nat) (bs : List Nat) (h1 : f b = false) :
    lastFrom c (walk f p (b :: bs)).1 = lastFrom c (walk f p bs).1 := by
  rw [walk_cons_skip f p b bs h1]
  split_ifs with h
  · rw [h]
  · cases hw : (walk f p bs).1 with
    | nil => exact absurd hw h
    | cons x xs => rfl

/-! ## The descent, on lists -/

theorem lastFrom_cons_ne_nil (c d : Nat) (M : List Nat) (h : M ≠ []) :
    lastFrom c M = lastFrom d M := by
  cases M with
  | nil => exact absurd rfl h
  | cons b bs => rfl

theorem lastFrom_filter (f : Nat → Bool) (c : Nat) (A : List Nat)
    (h : A ≠ [] → f (lastFrom c A) = true) : lastFrom c (A.filter f) = lastFrom c A := by
  induction A generalizing c with
  | nil => rfl
  | cons b bs ih =>
    have hb : bs ≠ [] → f (lastFrom b bs) = true := fun _ => h (by simp)
    cases hf : f b with
    | true =>
      rw [List.filter_cons_of_pos hf]
      exact ih b hb
    | false =>
      rw [List.filter_cons_of_neg (by simp [hf])]
      cases bs with
      | nil =>
        have := h (by simp)
        simp only [lastFrom] at this
        rw [hf] at this
        exact Bool.noConfusion this
      | cons x xs =>
        rw [ih c (fun _ => hb (by simp))]
        rfl

theorem HeadStops_of_filter_nil (g p : Nat → Bool) (M B : List Nat) (hM : M.filter g = [])
    (h : HeadStops g p (M ++ B)) : HeadStops g p B := by
  intro b hb
  apply h b
  rw [List.filter_append, hM]
  exact hb

/-- The descent on lists: what is behind at the end extends what was behind at the start
by nodes below the levels already visited, and at every level the nodes ahead start with
one the loop does not step onto. -/
theorem descend_spec (f : Nat → Nat → Bool) (p : Nat → Bool) (N : Nat)
    (hmono : ∀ j k x, j ≤ k → f k x = true → f j x = true) :
    ∀ (i : Nat) (A B : List Nat), (∀ j, i ≤ j → j < N → HeadStops (f j) p B) →
      (descend f p i A B).1 ++ (descend f p i A B).2 = A ++ B ∧
      (∀ j, j < N → HeadStops (f j) p (descend f p i A B).2) ∧
      (∀ j, i ≤ j → j < N → (descend f p i A B).1.filter (f j) = A.filter (f j)) := by
  intro i
  induction i with
  | zero =>
    intro A B h
    exact ⟨rfl, fun j hj => h j (Nat.zero_le _) hj, fun _ _ _ => rfl⟩
  | succ i ih =>
    intro A B h
    have hB := walk_append (f i) p B
    have hnil : ∀ j, i + 1 ≤ j → j < N → (walk (f i) p B).1.filter (f j) = [] :=
      fun j h1 h2 => walk_filter_nil (f i) (f j) p B
        (fun x hx => hmono i j x (by omega) hx) (h j h1 h2)
    have h1 : ∀ j, i ≤ j → j < N → HeadStops (f j) p (walk (f i) p B).2 := by
      intro j hij hj
      rcases Nat.eq_or_lt_of_le hij with he | hlt
      · subst he; exact walk_headStops (f i) p B
      · apply HeadStops_of_filter_nil (f j) p _ _ (hnil j hlt hj)
        rw [hB]
        exact h j hlt hj
    obtain ⟨e1, e2, e3⟩ := ih (A ++ (walk (f i) p B).1) (walk (f i) p B).2 h1
    refine ⟨?_, e2, ?_⟩
    · rw [descend, e1, List.append_assoc, hB]
    · intro j hij hj
      rw [descend, e3 j (by omega) hj, List.filter_append, hnil j hij hj, List.append_nil]

theorem walk_headStops_all (f : Nat → Nat → Bool) (p : Nat → Bool) (N i : Nat) (B : List Nat)
    (hmono : ∀ j k x, j ≤ k → f k x = true → f j x = true)
    (h : ∀ j, i + 1 ≤ j → j < N → HeadStops (f j) p B) :
    ∀ j, i ≤ j → j < N → HeadStops (f j) p (walk (f i) p B).2 := by
  intro j hij hj
  rcases Nat.eq_or_lt_of_le hij with he | hlt
  · subst he; exact walk_headStops (f i) p B
  · apply HeadStops_of_filter_nil (f j) p (walk (f i) p B).1
    · exact walk_filter_nil (f i) (f j) p B (fun x hx => hmono i j x (by omega) hx) (h j hlt hj)
    · rw [walk_append]; exact h j hlt hj

theorem descend_last (f : Nat → Nat → Bool) (p : Nat → Bool) :
    ∀ (i : Nat) (A B : List Nat), (A = [] ∨ p (lastFrom 0 A) = true) →
      ((descend f p i A B).1 = [] ∨ p (lastFrom 0 (descend f p i A B).1) = true) := by
  intro i
  induction i with
  | zero => intro A B h; exact h
  | succ i ih =>
    intro A B h
    rw [descend]
    apply ih
    rcases walk_last (f i) p B (lastFrom 0 A) with hw | hw
    · rw [hw, List.append_nil]; exact h
    · right
      rw [lastFrom_append]; exact hw.2


theorem walk_of_headStops (f p : Nat → Bool) (R : List Nat) (h : HeadStops f p R) :
    walk f p R = ([], R) := by
  induction R with
  | nil => rfl
  | cons b bs ih =>
    cases hf : f b with
    | true =>
      have hp : p b = false := h b (by rw [List.filter_cons_of_pos hf]; rfl)
      exact walk_cons_stop f p b bs hf hp
    | false =>
      have h1 : HeadStops f p bs := by
        intro x hx
        apply h x
        rw [List.filter_cons_of_neg (by simp [hf])]
        exact hx
      rw [walk_cons_skip f p b bs hf, ih h1, if_pos rfl]

/-- The conditions that determine the outcome of `walk`. -/
theorem walk_of_props (f p : Nat → Bool) (R : List Nat) (hR : HeadStops f p R) :
    ∀ (W : List Nat), (∀ x ∈ W, f x = true → p x = true) →
      (W = [] ∨ f (lastFrom 0 W) = true) → walk f p (W ++ R) = (W, R) := by
  intro W
  induction W with
  | nil => intro _ _; exact walk_of_headStops f p R hR
  | cons b bs ih =>
    intro hpass hlast
    have hlast1 : bs = [] ∨ f (lastFrom 0 bs) = true := by
      cases bs with
      | nil => exact Or.inl rfl
      | cons c cs =>
        right
        rcases hlast with h | h
        · exact absurd h (by simp)
        · exact h
    have hrec := ih (fun x hx => hpass x (List.mem_cons_of_mem _ hx)) hlast1
    cases hf : f b with
    | true =>
      rw [List.cons_append, walk_cons_pass f p b _ hf (hpass b (List.mem_cons_self _ _) hf),
        hrec]
    | false =>
      rw [List.cons_append, walk_cons_skip f p b _ hf, hrec]
      cases bs with
      | nil =>
        rcases hlast with h | h
        · exact absurd h (by simp)
        · simp only [lastFrom] at h
          rw [hf] at h
          exact Bool.noConfusion h
      | cons c cs => rw [if_neg (by simp)]

theorem headStops_insert (f f1 p p1 : Nat → Bool) (n : Nat) (M B : List Nat)
    (hn : p1 n = false) (hag : ∀ x ∈ M ++ B, f1 x = f x ∧ p1 x = p x)
    (h : HeadStops f p (M ++ B)) : HeadStops f1 p1 (M ++ n :: B) := by
  have hfM : M.filter f1 = M.filter f :=
    List.filter_congr fun x hx => (hag x (List.mem_append_left _ hx)).1
  have hfB : B.filter f1 = B.filter f :=
    List.filter_congr fun x hx => (hag x (List.mem_append_right _ hx)).1
  have hold : ∀ b, ((M ++ B).filter f).head? = some b → p1 b = false := by
    intro b hb
    have hmem : b ∈ M ++ B := List.mem_of_mem_filter (List.mem_of_mem_head? hb)
    rw [(hag b hmem).2]
    exact h b hb
  intro b hb
  rw [List.filter_append, hfM] at hb
  cases hM : M.filter f with
  | nil =>
    rw [hM, List.nil_append] at hb
    cases hfn : f1 n with
    | true =>
      rw [List.filter_cons_of_pos hfn] at hb
      cases hb
      exact hn
    | false =>
      rw [List.filter_cons_of_neg (by simp [hfn]), hfB] at hb
      apply hold b
      rw [List.filter_append, hM, List.nil_append]
      exact hb
  | cons y ys =>
    rw [hM] at hb
    apply hold b
    rw [List.filter_append, hM]
    exact hb

/-- The descent after a node `n` that stops the search has been placed at the final
position: it ends at the same position, with `n` first ahead. -/
theorem descend_insert (f f1 : Nat → Nat → Bool) (p p1 : Nat → Bool) (n : Nat)
    (hn : p1 n = false) :
    ∀ (i : Nat) (A0 B0 : List Nat), (∀ x ∈ B0, (∀ j, f1 j x = f j x) ∧ p1 x = p x) →
      ∃ M, (descend f p i A0 B0).1 = A0 ++ M ∧ B0 = M ++ (descend f p i A0 B0).2 ∧
        descend f1 p1 i A0 (M ++ n :: (descend f p i A0 B0).2)
          = ((descend f p i A0 B0).1, n :: (descend f p i A0 B0).2) := by
  intro i
  induction i with
  | zero =>
    intro A0 B0 _
    exact ⟨[], by simp [descend], by simp [descend], by simp [descend]⟩
  | succ i ih =>
    intro A0 B0 hag
    have hB := walk_append (f i) p B0
    have hagR : ∀ x ∈ (walk (f i) p B0).2, (∀ j, f1 j x = f j x) ∧ p1 x = p x := by
      intro x hx
      apply hag
      rw [← hB]; exact List.mem_append_right _ hx
    obtain ⟨M1, e1, e2, e3⟩ := ih (A0 ++ (walk (f i) p B0).1) (walk (f i) p B0).2 hagR
    refine ⟨(walk (f i) p B0).1 ++ M1, ?_, ?_, ?_⟩
    · rw [descend, e1, List.append_assoc]
    · rw [descend, List.append_assoc, ← e2, hB]
    · have hagW : ∀ x ∈ (walk (f i) p B0).1, (∀ j, f1 j x = f j x) ∧ p1 x = p x := by
        intro x hx
        apply hag
        rw [← hB]; exact List.mem_append_left _ hx
      have hstop : HeadStops (f1 i) p1
          (M1 ++ n :: (descend f p i (A0 ++ (walk (f i) p B0).1) (walk (f i) p B0).2).2) := by
        apply headStops_insert (f i) (f1 i) p p1 n M1 _ hn
        · intro x hx
          rw [← e2] at hx
          exact ⟨(hagR x hx).1 i, (hagR x hx).2⟩
        · rw [← e2]; exact walk_headStops (f i) p B0
      have hwalk := walk_of_props (f1 i) p1 _ hstop (walk (f i) p B0).1
        (fun x hx hfx => by
          rw [(hagW x hx).2]
          exact walk_pass (f i) p B0 x hx (by rw [← (hagW x hx).1 i]; exact hfx))
        (by
          by_cases hW : (walk (f i) p B0).1 = []
          · exact Or.inl hW
          · right
            have hmem : lastFrom 0 (walk (f i) p B0).1 ∈ (walk (f i) p B0).1 := by
              rcases lastFrom_mem 0 (walk (f i) p B0).1 with h1 | h1
              · exact absurd h1.2 hW
              · exact h1
            rcases walk_last (f i) p B0 0 with h | h
            · exact absurd h hW
            · rw [(hagW _ hmem).1 i]; exact h.1)
      rw [descend, descend, List.append_assoc, hwalk]
      exact e3

/-! ## The search loops -/

theorem mHasher_le {V : Type} (T : ValueTraits V) (v : V) : mHasher T v ≤ keyMax := by
  unfold mHasher
  have : T.hash v % (keyMax + 1) < keyMax + 1 := Nat.mod_lt _ (Nat.succ_pos _)
  omega

/-- The sentinel `mNil` stops the loop exactly for the searchable values. -/
theorem passes_nil {V : Type} [DecidableEq V] {T : ValueTraits V} {s : State V}
    {l : Nat} (v : V) (h1 : s.info 1 = some (keyMax, T.maxValue, l))
    (hs : Searchable T v) : passes s (mHasher T v) v 1 = false := by
  unfold passes
  rw [h1]
  have hle := mHasher_le T v
  simp only [decide_eq_false_iff_not]
  rintro (h | ⟨h, h2⟩)
  · omega
  · rcases hs with hs | hs
    · exact hs h.symm
    · exact h2 hs.symm

theorem advance_step {V : Type} [DecidableEq V] (s : State V) (key : Nat) (value : V)
    (j fuel c b : Nat) (hc : s.index c j = some (some b)) (hb : (s.node b).isSome) :
    advance s key value j (fuel + 1) c =
      if passes s key value b then advance s key value j fuel b else some c := by
  obtain ⟨m, hm⟩ := Option.isSome_iff_exists.mp hb
  rw [advance, hc]
  simp only [Option.some_bind, hm, passes, State.info, Option.map_some']
  by_cases h : m.key < key ∨ (m.key = key ∧ m.value ≠ value)
  · simp only [h, if_true, decide_True]
  · simp only [h, if_false, decide_False, Bool.false_eq_true]

/-- The pointer loop `advance` computes `walk`. -/
theorem advance_walk {V : Type} [DecidableEq V] (s : State V) (key : Nat) (value : V) (j : Nat)
    (hnil : (s.node 1).isSome) (hstop : passes s key value 1 = false) :
    ∀ (B : List Nat) (c fuel : Nat), (∀ b ∈ B, (s.node b).isSome) →
      Linked s j c (B.filter (above s j)) → B.length < fuel →
      advance s key value j fuel c
        = some (lastFrom c (walk (above s j) (passes s key value) B).1) := by
  intro B
  induction B with
  | nil =>
    intro c fuel _ hl hf
    obtain ⟨n, rfl⟩ : ∃ n, fuel = n + 1 := ⟨fuel - 1, by simp at hf; omega⟩
    simp only [List.filter_nil, Linked] at hl
    rw [advance_step s key value j n c 1 hl hnil, hstop]
    rfl
  | cons b bs ih =>
    intro c fuel hn hl hf
    obtain ⟨n, rfl⟩ : ∃ n, fuel = n + 1 := ⟨fuel - 1, by simp at hf; omega⟩
    have hn1 : ∀ x ∈ bs, (s.node x).isSome := fun x hx => hn x (List.mem_cons_of_mem _ hx)
    have hf1 : bs.length < n := by simp at hf; omega
    cases h1 : above s j b with
    | true =>
      rw [List.filter_cons_of_pos h1] at hl
      rw [advance_step s key value j n c b hl.1 (hn b (List.mem_cons_self _ _))]
      cases h2 : passes s key value b with
      | true =>
        rw [walk_cons_pass _ _ b bs h1 h2, if_pos rfl]
        exact ih b n hn1 hl.2 hf1
      | false =>
        rw [walk_cons_stop _ _ b bs h1 h2]
        rfl
    | false =>
      rw [List.filter_cons_of_neg (by simp [h1])] at hl
      rw [lastFrom_walk_skip _ _ b c bs h1]
      exact ih c (n + 1) hn1 hl (by omega)

theorem node_isSome_of_info {V : Type} {s : State V} {a : Nat} {x : Nat × V × Nat}
    (h : s.info a = some x) : (s.node a).isSome := by
  unfold State.info at h
  cases hn : s.node a with
  | none => rw [hn] at h; exact Option.noConfusion h
  | some n => rfl

theorem level_of_info {V : Type} {s : State V} {a k l : Nat} {v : V}
    (h : s.info a = some (k, v, l)) : s.level a = l := by
  unfold State.level; rw [h]

theorem above_mono {V : Type} (s : State V) (j k x : Nat) (hjk : j ≤ k)
    (h : above s k x = true) : above s j x = true := by
  unfold above at *
  simp only [decide_eq_true_eq] at *
  omega

theorem linked_split {V : Type} (s : State V) (j : Nat) (X Y : List Nat) (a : Nat)
    (h : Linked s j a (X ++ Y)) : Linked s j (lastFrom a X) Y := by
  induction X generalizing a with
  | nil => exact h
  | cons b bs ih => exact ih b h.2

/-- One round of the `for` loop of the search, on a well-formed state: with `A` behind and
`B` ahead, the `while` loop at index `i` ends on the last node of `A` extended by `walk`,
and that node has more than `i` levels. -/
theorem advance_level {V : Type} [DecidableEq V] {T : ValueTraits V} {s : State V}
    {L : List Nat} (wf : WF T s L) (v : V) (hs : Searchable T v) (fuel i : Nat) (A B : List Nat)
    (hL : L = A ++ B) (hi : i < mMaxLevel) (hc : i < s.level (lastFrom 0 A))
    (hf : L.length < fuel) :
    advance s (mHasher T v) v i fuel (lastFrom 0 A)
        = some (lastFrom 0 (A ++ (walk (above s i) (passes s (mHasher T v) v) B).1)) ∧
      i < s.level (lastFrom 0 (A ++ (walk (above s i) (passes s (mHasher T v) v) B).1)) := by
  obtain ⟨l, hnil⟩ := wf.nilNode
  have hA : A ≠ [] → above s i (lastFrom 0 A) = true := fun _ => by
    simpa [above] using hc
  have hlink : Linked s i (lastFrom 0 A) (B.filter (above s i)) := by
    have h := wf.linked i hi
    rw [hL, List.filter_append] at h
    have h2 := linked_split s i _ _ 0 h
    rwa [lastFrom_filter (above s i) 0 A hA] at h2
  have hB : ∀ b ∈ B, (s.node b).isSome := by
    intro b hb
    obtain ⟨-, k, w, l1, hinfo, -⟩ := wf.nodes b (by rw [hL]; exact List.mem_append_right _ hb)
    exact node_isSome_of_info hinfo
  have hlen : B.length < fuel := by
    rw [hL, List.length_append] at hf; omega
  rw [lastFrom_append]
  refine ⟨advance_walk s _ v i (node_isSome_of_info hnil) (passes_nil v hnil hs) B _ fuel hB
    hlink hlen, ?_⟩
  rcases walk_last (above s i) (passes s (mHasher T v) v) B (lastFrom 0 A) with h | h
  · rw [h]; exact hc
  · simpa [above] using h.1

theorem findLoop_descend {V : Type} [DecidableEq V] {T : ValueTraits V} {s : State V}
    {L : List Nat} (wf : WF T s L) (v : V) (hs : Searchable T v) (fuel : Nat)
    (hf : L.length < fuel) :
    ∀ (i : Nat) (A B : List Nat), L = A ++ B → i ≤ mMaxLevel → i ≤ s.level (lastFrom 0 A) →
      findLoop s (mHasher T v) v fuel i (lastFrom 0 A)
        = some (lastFrom 0 (descend (above s) (passes s (mHasher T v) v) i A B).1) := by
  intro i
  induction i with
  | zero => intro A B _ _ _; rfl
  | succ i ih =>
    intro A B hL hi hc
    obtain ⟨h1, h2⟩ := advance_level wf v hs fuel i A B hL (by omega) (by omega) hf
    rw [findLoop, h1, Option.some_bind, descend]
    exact ih _ _ (by rw [List.append_assoc, walk_append]; exact hL) (by omega) (by omega)

theorem getPredecessorLoop_descend {V : Type} [DecidableEq V] {T : ValueTraits V}
    {s : State V} {L : List Nat} (wf : WF T s L) (v : V) (hs : Searchable T v) (fuel : Nat)
    (hf : L.length < fuel) :
    ∀ (i : Nat) (A B : List Nat) (result : List (Option Nat)), L = A ++ B → i ≤ mMaxLevel →
      i ≤ s.level (lastFrom 0 A) → result.length = mMaxLevel →
      (∀ j, i ≤ j → j < mMaxLevel → HeadStops (above s j) (passes s (mHasher T v) v) B) →
      ∃ preds, getPredecessorLoop s (mHasher T v) v fuel i (lastFrom 0 A) result = some preds ∧
        preds.length = mMaxLevel ∧
        (∀ j, i ≤ j → preds.get? j = result.get? j) ∧
        (∀ j, j < i → preds.get? j = some (some (lastFrom 0
          ((descend (above s) (passes s (mHasher T v) v) i A B).1.filter (above s j))))) := by
  intro i
  induction i with
  | zero =>
    intro A B result _ _ _ hr _
    exact ⟨result, rfl, hr, fun _ _ => rfl, fun j hj => absurd hj (Nat.not_lt_zero j)⟩
  | succ i ih =>
    intro A B result hL hi hc hr hst
    obtain ⟨h1, h2⟩ := advance_level wf v hs fuel i A B hL (by omega) (by omega) hf
    have hst1 := walk_headStops_all (above s) (passes s (mHasher T v) v) mMaxLevel i B
      (above_mono s) hst
    obtain ⟨preds, e1, e2, e3, e4⟩ := ih (A ++ (walk (above s i) (passes s (mHasher T v) v) B).1)
      (walk (above s i) (passes s (mHasher T v) v) B).2
      (result.set i (some (lastFrom 0 (A ++ (walk (above s i) (passes s (mHasher T v) v) B).1))))
      (by rw [List.append_assoc, walk_append]; exact hL) (by omega) (by omega)
      (by rw [List.length_set]; exact hr) hst1
    refine ⟨preds, ?_, e2, ?_, ?_⟩
    · rw [getPredecessorLoop, h1, Option.some_bind, if_pos (by omega)]
      exact e1
    · intro j hj
      rw [e3 j (by omega), List.get?_eq_getElem?, List.get?_eq_getElem?,
        List.getElem?_set_ne (by omega)]
    · intro j hj
      rcases Nat.eq_or_lt_of_le (Nat.le_of_lt_succ hj) with he | hlt
      · subst he
        have hd := (descend_spec (above s) (passes s (mHasher T v) v) mMaxLevel (above_mono s) j
          (A ++ (walk (above s j) (passes s (mHasher T v) v) B).1)
          (walk (above s j) (passes s (mHasher T v) v) B).2 hst1).2.2 j (le_refl _) (by omega)
        rw [e3 j (le_refl _), descend, hd, List.get?_eq_getElem?,
          List.getElem?_set_self (by omega),
          lastFrom_filter (above s j) 0 _ (fun _ => by simpa [above] using h2)]
      · rw [descend]; exact e4 j hlt

theorem info_eq_some {V : Type} {s : State V} {a k l : Nat} {v : V}
    (h : s.info a = some (k, v, l)) :
    ∃ n, s.node a = some n ∧ n.key = k ∧ n.value = v ∧ n.indexes.length = l := by
  unfold State.info at h
  cases hn : s.node a with
  | none => rw [hn] at h; exact Option.noConfusion h
  | some n =>
    rw [hn] at h
    simp only [Option.map_some', Option.some.injEq, Prod.mk.injEq] at h
    exact ⟨n, rfl, h.1, h.2.1, h.2.2⟩

theorem linked_head {V : Type} (s : State V) (j a : Nat) (Y : List Nat)
    (h : Linked s j a Y) : s.index a j = some (some (Y.headD 1)) := by
  cases Y with
  | nil => exact h
  | cons b bs => exact h.1

theorem filter_above_zero {V : Type} {T : ValueTraits V} {s : State V} {L : List Nat}
    (wf : WF T s L) (X : List Nat) (hX : ∀ a ∈ X, a ∈ L) : X.filter (above s 0) = X := by
  rw [List.filter_eq_self]
  intro a ha
  obtain ⟨-, k, v, l, hinfo, h1, -⟩ := wf.nodes a (hX a ha)
  simp [above, level_of_info hinfo]
  omega

theorem level_head {V : Type} {T : ValueTraits V} {s : State V} {L : List Nat}
    (wf : WF T s L) : s.level 0 = mMaxLevel := by
  obtain ⟨v, h⟩ := wf.headNode
  exact level_of_info h

/-- On a well-formed state the level-`j` pointer of the last node of level `j` behind a
position leads to the first node of level `j` ahead of it, or to `mNil`. -/
theorem next_level {V : Type} {T : ValueTraits V} {s : State V} {L : List Nat}
    (wf : WF T s L) (A B : List Nat) (hL : L = A ++ B) (j : Nat) (hj : j < mMaxLevel) :
    Linked s j (lastFrom 0 (A.filter (above s j))) (B.filter (above s j)) := by
  have h := wf.linked j hj
  rw [hL, List.filter_append] at h
  exact linked_split s j _ _ 0 h

theorem mMaxLevel_pos : 0 < mMaxLevel := by decide

theorem locate_spec {V : Type} [DecidableEq V] (s : State V) (key : Nat) (v : V)
    (L : List Nat) :
    (locate s key v L).1 ++ (locate s key v L).2 = L ∧
    ∀ j, j < mMaxLevel → HeadStops (above s j) (passes s key v) (locate s key v L).2 := by
  have h := descend_spec (above s) (passes s key v) mMaxLevel (above_mono s) mMaxLevel [] L
    (fun j h1 h2 => absurd h2 (by omega))
  unfold locate
  exact ⟨h.1, h.2.1⟩

/-- What `find` returns on a well-formed state: present exactly when the first node ahead
of the final position stores the value. -/
theorem find_spec {V : Type} [DecidableEq V] {T : ValueTraits V} {s : State V}
    {L : List Nat} (wf : WF T s L) (v : V) (hs : Searchable T v) (fuel : Nat)
    (hf : L.length < fuel) :
    find T fuel s v = some ((locate s (mHasher T v) v L).2.head?.bind fun b =>
      (s.info b).bind fun x => if x.2.1 = v then some v else none) := by
  obtain ⟨hv, hhead⟩ := wf.headNode
  obtain ⟨hd, hn0, -, -, hlen⟩ := info_eq_some hhead
  have hloc := (locate_spec s (mHasher T v) v L).1
  have hloop : findLoop s (mHasher T v) v fuel mMaxLevel 0
      = some (lastFrom 0 (locate s (mHasher T v) v L).1) := by
    unfold locate
    exact findLoop_descend wf v hs fuel hf mMaxLevel [] L rfl (le_refl _)
      (by show mMaxLevel ≤ s.level 0; rw [level_head wf])
  have hnext := next_level wf (locate s (mHasher T v) v L).1 (locate s (mHasher T v) v L).2
    hloc.symm 0 mMaxLevel_pos
  rw [filter_above_zero wf _ (fun a ha => by rw [← hloc]; exact List.mem_append_left _ ha),
    filter_above_zero wf _ (fun a ha => by rw [← hloc]; exact List.mem_append_right _ ha)]
    at hnext
  have hidx := linked_head s 0 _ _ hnext
  unfold find
  rw [wf.head, Option.some_bind]
  simp only [getNodeLevel, hn0, Option.map_some', Option.some_bind, hlen]
  rw [hloop, Option.some_bind, hidx, Option.some_bind]
  cases hB : (locate s (mHasher T v) v L).2 with
  | nil => simp [wf.nil]
  | cons b bs =>
    have hb : b ∈ L := by rw [← hloc, hB]; simp
    obtain ⟨h2, k, w, l, hinfo, -⟩ := wf.nodes b hb
    obtain ⟨n, hn, -, hval, -⟩ := info_eq_some hinfo
    have hne : ¬ (some b = s.mNil) := by rw [wf.nil]; simp; omega
    simp only [List.headD_cons, hne, if_false, hn, Option.some_bind, List.head?_cons, hinfo, hval]
    split_ifs <;> rfl

/-- What `getPredecessor` returns on a well-formed state: one predecessor per level, the
last node of that level behind the final position (`mHead` when there is none). -/
theorem getPredecessor_spec {V : Type} [DecidableEq V] {T : ValueTraits V} {s : State V}
    {L : List Nat} (wf : WF T s L) (v : V) (hs : Searchable T v) (fuel : Nat)
    (hf : L.length < fuel) :
    ∃ preds, getPredecessor T fuel s v = some preds ∧ preds.length = mMaxLevel ∧
      ∀ j, j < mMaxLevel → preds.get? j = some (some (lastFrom 0
        ((locate s (mHasher T v) v L).1.filter (above s j)))) := by
  obtain ⟨hv, hhead⟩ := wf.headNode
  obtain ⟨hd, hn0, -, -, hlen⟩ := info_eq_some hhead
  obtain ⟨preds, e1, e2, -, e4⟩ := getPredecessorLoop_descend wf v hs fuel hf mMaxLevel [] L
    (List.replicate mMaxLevel none) rfl (le_refl _)
    (by show mMaxLevel ≤ s.level 0; rw [level_head wf]) (List.length_replicate _ _)
    (fun j h1 h2 => absurd h2 (by omega))
  refine ⟨preds, ?_, e2, ?_⟩
  · unfold getPredecessor
    rw [wf.head, Option.some_bind]
    simp only [getNodeLevel, hn0, Option.map_some', Option.some_bind, hlen]
    exact e1
  · unfold locate
    exact e4

/-! ## Keys around the final position -/

theorem passes_keyOf_le {V : Type} [DecidableEq V] (s : State V) (key : Nat) (v : V) (b : Nat)
    (h : passes s key v b = true) : s.keyOf b ≤ key := by
  unfold passes at h
  unfold State.keyOf
  cases hi : s.info b with
  | none => rw [hi] at h; exact Bool.noConfusion h
  | some x =>
    obtain ⟨k, w, l⟩ := x
    rw [hi] at h
    simp only [decide_eq_true_eq] at h
    rcases h with h | h
    · exact Nat.le_of_lt h
    · exact Nat.le_of_eq h.1

theorem stops_keyOf_ge {V : Type} [DecidableEq V] (s : State V) (key : Nat) (v : V) (b : Nat)
    (hb : (s.info b).isSome) (h : passes s key v b = false) : key ≤ s.keyOf b := by
  unfold passes at h
  unfold State.keyOf
  obtain ⟨⟨k, w, l⟩, hi⟩ := Option.isSome_iff_exists.mp hb
  rw [hi] at h ⊢
  simp only [decide_eq_false_iff_not, not_or] at h
  exact Nat.le_of_not_lt h.1

theorem pairwise_le_last (R : Nat → Nat → Prop) (c : Nat) (A : List Nat)
    (h : A.Pairwise R) (a : Nat) (ha : a ∈ A) : a = lastFrom c A ∨ R a (lastFrom c A) := by
  induction A generalizing c with
  | nil => simp at ha
  | cons b bs ih =>
    rw [List.pairwise_cons] at h
    rcases List.mem_cons.mp ha with hab | hab
    · subst hab
      rcases lastFrom_mem a bs with ⟨h1, -⟩ | h1
      · left; exact h1.symm
      · right; exact h.1 _ h1
    · exact ih b h.2 hab

/-- Every node behind the final position of the search has a key at most the key looked
for. -/
theorem locate_behind {V : Type} [DecidableEq V] {T : ValueTraits V} {s : State V}
    {L : List Nat} (wf : WF T s L) (key : Nat) (v : V) :
    ∀ a ∈ (locate s key v L).1, s.keyOf a ≤ key := by
  intro a ha
  obtain ⟨hloc, -⟩ := locate_spec s key v L
  have hlast : (locate s key v L).1 = [] ∨
      passes s key v (lastFrom 0 (locate s key v L).1) = true := by
    unfold locate
    exact descend_last (above s) (passes s key v) mMaxLevel [] L (Or.inl rfl)
  rcases hlast with h | h
  · rw [h] at ha; simp at ha
  · have hs := wf.sorted
    rw [← hloc] at hs
    have hle := passes_keyOf_le s key v _ h
    rcases pairwise_le_last _ 0 _ (List.pairwise_append.mp hs).1 a ha with h1 | h1
    · rw [h1]; exact hle
    · exact Nat.le_trans h1 hle

/-- Every node ahead of the final position of the search has a key at least the key looked
for. -/
theorem locate_ahead {V : Type} [DecidableEq V] {T : ValueTraits V} {s : State V}
    {L : List Nat} (wf : WF T s L) (key : Nat) (v : V) :
    ∀ b ∈ (locate s key v L).2, key ≤ s.keyOf b := by
  intro b hb
  obtain ⟨hloc, hst⟩ := locate_spec s key v L
  have h0 := hst 0 mMaxLevel_pos
  have hmem : ∀ x ∈ (locate s key v L).2, x ∈ L := fun x hx => by
    have := List.mem_append_right (locate s key v L).1 hx
    rwa [hloc] at this
  rw [HeadStops, filter_above_zero wf _ hmem] at h0
  have hs := wf.sorted
  rw [← hloc] at hs
  have hs2 := (List.pairwise_append.mp hs).2.1
  cases hB : (locate s key v L).2 with
  | nil => rw [hB] at hb; simp at hb
  | cons y ys =>
    rw [hB] at h0 hs2 hb
    have hy : y ∈ L := hmem y (by rw [hB]; simp)
    obtain ⟨-, k, w, l, hinfo, -⟩ := wf.nodes y hy
    have hge := stops_keyOf_ge s key v y (by rw [hinfo]; rfl) (h0 y rfl)
    rcases List.mem_cons.mp hb with h | h
    · rw [h]; exact hge
    · exact Nat.le_trans hge ((List.pairwise_cons.mp hs2).1 b h)

/-! ## The loops of `insert` and `erase` -/

theorem predAt_eq {preds : List (Option Nat)} {j a : Nat} (h : preds.get? j = some (some a)) :
    predAt preds j = a := by
  unfold predAt; rw [h]; rfl

/-- The splice loop of `insert`, as a whole: at each index `j` of the rounds it rewrites the
pointer of `preds[j]` to the new node and gives the new node the old pointer; nothing else
changes. -/
theorem insertLoop_spec {V : Type} (preds : List (Option Nat)) (node : Nat) :
    ∀ (k i : Nat) (s : State V),
      (∀ j, i ≤ j → j < i + k → preds.get? j = some (some (predAt preds j)) ∧
        predAt preds j ≠ node ∧ (s.index (predAt preds j) j).isSome ∧
        (s.index node j).isSome) →
      ∃ s1, insertLoop preds node k i s = some s1 ∧ s1.mHead = s.mHead ∧ s1.mNil = s.mNil ∧
        s1.heap.length = s.heap.length ∧ (∀ b, s1.info b = s.info b) ∧
        ∀ b j, s1.index b j =
          if i ≤ j ∧ j < i + k then
            (if b = predAt preds j then some (some node)
             else if b = node then s.index (predAt preds j) j else s.index b j)
          else s.index b j := by
  intro k
  induction k with
  | zero =>
    intro i s _
    refine ⟨s, rfl, rfl, rfl, rfl, fun _ => rfl, fun b j => ?_⟩
    rw [if_neg (by omega)]
  | succ k ih =>
    intro i s h
    obtain ⟨hp, hne, hq, hnode⟩ := h i (le_refl _) (by omega)
    obtain ⟨q, hq⟩ := Option.isSome_iff_exists.mp hq
    obtain ⟨q0, hq0⟩ := Option.isSome_iff_exists.mp hnode
    obtain ⟨s1, hs1⟩ := setIndex_some q hq0
    obtain ⟨a1, a2, a3, a4, a5⟩ := setIndex_spec hs1
    have hq1 : s1.index (predAt preds i) i = some q := by
      rw [a5, if_neg (fun hc => hne hc.1), hq]
    obtain ⟨s2, hs2⟩ := setIndex_some (some node) hq1
    obtain ⟨b1, b2, b3, b4, b5⟩ := setIndex_spec hs2
    have hidx : ∀ b j, j ≠ i → s2.index b j = s.index b j := by
      intro b j hj
      rw [b5, if_neg (fun hc => hj hc.2), a5, if_neg (fun hc => hj hc.2)]
    obtain ⟨s3, c0, c1, c2, c3, c4, c5⟩ := ih (i + 1) s2 (by
      intro j h1 h2
      obtain ⟨d1, d2, d3, d4⟩ := h j (by omega) (by omega)
      refine ⟨d1, d2, ?_, ?_⟩
      · rw [hidx _ j (by omega)]; exact d3
      · rw [hidx _ j (by omega)]; exact d4)
    refine ⟨s3, ?_, by rw [c1, b1, a1], by rw [c2, b2, a2], by rw [c3, b3, a3],
      fun b => by rw [c4, b4, a4], fun b j => ?_⟩
    · rw [insertLoop, hp]
      simp only [Option.some_bind, hq, hs1, hs2]
      exact c0
    · rw [c5]
      by_cases hj : j = i
      · subst hj
        have hr0 : ¬ (j + 1 ≤ j ∧ j < j + 1 + k) := by omega
        have hr1 : j ≤ j ∧ j < j + (k + 1) := by omega
        rw [if_neg hr0, if_pos hr1, b5, a5]
        by_cases hb : b = predAt preds j
        · simp [hb]
        · by_cases hb2 : b = node
          · simp [hb, hb2, hq]
          · simp [hb, hb2]
      · by_cases hr : i + 1 ≤ j ∧ j < i + 1 + k
        · have hr1 : i ≤ j ∧ j < i + (k + 1) := by omega
          rw [if_pos hr, if_pos hr1, hidx _ j hj, hidx _ j hj]
        · have hr1 : ¬ (i ≤ j ∧ j < i + (k + 1)) := by omega
          rw [if_neg hr, if_neg hr1, hidx _ j hj]

/-- The unlink loop of `erase`, as a whole: at each index `j` of the rounds it gives
`preds[j]` the pointer of the victim; nothing else changes. -/
theorem eraseLoop_spec {V : Type} (preds : List (Option Nat)) (node : Nat) :
    ∀ (k i : Nat) (s : State V),
      (∀ j, i ≤ j → j < i + k → preds.get? j = some (some (predAt preds j)) ∧
        predAt preds j ≠ node ∧ (s.index (predAt preds j) j).isSome ∧
        (s.index node j).isSome) →
      ∃ s1, eraseLoop preds node k i s = some s1 ∧ s1.mHead = s.mHead ∧ s1.mNil = s.mNil ∧
        s1.heap.length = s.heap.length ∧ (∀ b, s1.info b = s.info b) ∧
        ∀ b j, s1.index b j =
          if i ≤ j ∧ j < i + k ∧ b = predAt preds j then s.index node j else s.index b j := by
  intro k
  induction k with
  | zero =>
    intro i s _
    refine ⟨s, rfl, rfl, rfl, rfl, fun _ => rfl, fun b j => ?_⟩
    rw [if_neg (by omega)]
  | succ k ih =>
    intro i s h
    obtain ⟨hp, hne, hq, hnode⟩ := h i (le_refl _) (by omega)
    obtain ⟨q, hq⟩ := Option.isSome_iff_exists.mp hq
    obtain ⟨q0, hq0⟩ := Option.isSome_iff_exists.mp hnode
    obtain ⟨s1, hs1⟩ := setIndex_some q0 hq
    obtain ⟨a1, a2, a3, a4, a5⟩ := setIndex_spec hs1
    have hidx : ∀ b j, j ≠ i → s1.index b j = s.index b j := by
      intro b j hj
      rw [a5, if_neg (fun hc => hj hc.2)]
    obtain ⟨s3, c0, c1, c2, c3, c4, c5⟩ := ih (i + 1) s1 (by
      intro j h1 h2
      obtain ⟨d1, d2, d3, d4⟩ := h j (by omega) (by omega)
      refine ⟨d1, d2, ?_, ?_⟩
      · rw [hidx _ j (by omega)]; exact d3
      · rw [hidx _ j (by omega)]; exact d4)
    refine ⟨s3, ?_, by rw [c1, a1], by rw [c2, a2], by rw [c3, a3],
      fun b => by rw [c4, a4], fun b j => ?_⟩
    · rw [eraseLoop, hp]
      simp only [Option.some_bind, hq0, hs1]
      exact c0
    · rw [c5]
      by_cases hj : j = i
      · subst hj
        have hr0 : ¬ (j + 1 ≤ j ∧ j < j + 1 + k ∧ b = predAt preds j) := by omega
        rw [if_neg hr0, a5]
        by_cases hb : b = predAt preds j
        · simp [hb, hq0]
        · simp [hb]
      · rw [hidx _ j hj, hidx _ j hj]
        by_cases hr : i + 1 ≤ j ∧ j < i + 1 + k ∧ b = predAt preds j
        · have hr1 : i ≤ j ∧ j < i + (k + 1) ∧ b = predAt preds j := ⟨by omega, by omega, hr.2.2⟩
          rw [if_pos hr, if_pos hr1]
        · have hr1 : ¬ (i ≤ j ∧ j < i + (k + 1) ∧ b = predAt preds j) :=
            fun hc => hr ⟨by omega, by omega, hc.2.2⟩
          rw [if_neg hr, if_neg hr1]

/-! ## Chains under splicing -/

theorem linked_congr {V : Type} (s s1 : State V) (j : Nat) (Y : List Nat) (a : Nat)
    (h : Linked s j a Y) (he : ∀ x ∈ a :: Y, s1.index x j = s.index x j) : Linked s1 j a Y := by
  induction Y generalizing a with
  | nil =>
    show s1.index a j = some (some 1)
    rw [he a (by simp)]; exact h
  | cons b bs ih =>
    refine ⟨by rw [he a (by simp)]; exact h.1, ih b h.2 ?_⟩
    intro x hx
    exact he x (List.mem_cons_of_mem _ hx)

theorem lastFrom_mem_cons (c : Nat) (M : List Nat) : lastFrom c M ∈ c :: M := by
  rcases lastFrom_mem c M with ⟨h, -⟩ | h
  · rw [h]; simp
  · exact List.mem_cons_of_mem _ h

/-- Splicing a new node `n` in behind the last node of `X`. -/
theorem linked_insert {V : Type} (s s1 : State V) (j n : Nat) (Y : List Nat) :
    ∀ (X : List Nat) (a : Nat), (a :: (X ++ Y)).Nodup → n ∉ a :: (X ++ Y) →
      Linked s j a (X ++ Y) → s1.index (lastFrom a X) j = some (some n) →
      s1.index n j = s.index (lastFrom a X) j →
      (∀ x, x ≠ lastFrom a X → x ≠ n → s1.index x j = s.index x j) →
      Linked s1 j a (X ++ n :: Y) := by
  intro X
  induction X with
  | nil =>
    intro a hnd hn hl h1 h2 h3
    simp only [List.nil_append, lastFrom] at *
    refine ⟨h1, ?_⟩
    cases Y with
    | nil =>
      show s1.index n j = some (some 1)
      rw [h2]; exact hl
    | cons y ys =>
      refine ⟨by rw [h2]; exact hl.1, linked_congr s s1 j ys y hl.2 ?_⟩
      intro x hx
      apply h3
      · rintro rfl
        exact (List.nodup_cons.mp hnd).1 hx
      · rintro rfl
        exact hn (List.mem_cons_of_mem _ hx)
  | cons b bs ih =>
    intro a hnd hn hl h1 h2 h3
    simp only [List.cons_append, lastFrom] at *
    have hnd1 := List.nodup_cons.mp hnd
    refine ⟨?_, ih b hnd1.2 (fun hc => hn (List.mem_cons_of_mem _ hc)) hl.2 h1 h2 h3⟩
    rw [h3 a ?_ ?_]
    · exact hl.1
    · intro hc
      apply hnd1.1
      have := lastFrom_mem_cons b bs
      rw [← hc] at this
      rcases List.mem_cons.mp this with h | h
      · rw [h]; simp
      · exact List.mem_cons_of_mem _ (List.mem_append_left _ h)
    · rintro rfl
      exact hn (List.mem_cons_self _ _)

/-- Unlinking the node `b` that follows the last node of `X`. -/
theorem linked_erase {V : Type} (s s1 : State V) (j b : Nat) (Y : List Nat) :
    ∀ (X : List Nat) (a : Nat), (a :: (X ++ b :: Y)).Nodup →
      Linked s j a (X ++ b :: Y) → s1.index (lastFrom a X) j = s.index b j →
      (∀ x, x ≠ lastFrom a X → x ≠ b → s1.index x j = s.index x j) →
      Linked s1 j a (X ++ Y) := by
  intro X
  induction X with
  | nil =>
    intro a hnd hl h1 h3
    simp only [List.nil_append, lastFrom] at *
    have hnd1 := List.nodup_cons.mp hnd
    have hnd2 := List.nodup_cons.mp hnd1.2
    cases Y with
    | nil =>
      show s1.index a j = some (some 1)
      rw [h1]; exact hl.2
    | cons y ys =>
      refine ⟨by rw [h1]; exact hl.2.1, linked_congr s s1 j ys y hl.2.2 ?_⟩
      intro x hx
      apply h3
      · rintro rfl
        exact hnd1.1 (List.mem_cons_of_mem _ hx)
      · rintro rfl
        exact hnd2.1 hx
  | cons c cs ih =>
    intro a hnd hl h1 h3
    simp only [List.cons_append, lastFrom] at *
    have hnd1 := List.nodup_cons.mp hnd
    refine ⟨?_, ih c hnd1.2 hl.2 h1 h3⟩
    rw [h3 a ?_ ?_]
    · exact hl.1
    · intro hc
      apply hnd1.1
      have := lastFrom_mem_cons c cs
      rw [← hc] at this
      rcases List.mem_cons.mp this with h | h
      · rw [h]; simp
      · exact List.mem_cons_of_mem _ (List.mem_append_left _ h)
    · rintro rfl
      apply hnd1.1
      simp

/-! ## `insert` on well-formed states -/

theorem info_lt {V : Type} {s : State V} {a : Nat} {x : Nat × V × Nat}
    (h : s.info a = some x) : a < s.heap.length := by
  obtain ⟨n, hn⟩ := Option.isSome_iff_exists.mp (node_isSome_of_info h)
  exact node_lt hn

theorem wf_lt {V : Type} {T : ValueTraits V} {s : State V} {L : List Nat} (wf : WF T s L)
    (a : Nat) (ha : a ∈ 0 :: 1 :: L) : a < s.heap.length := by
  rcases List.mem_cons.mp ha with h | h
  · obtain ⟨v, hv⟩ := wf.headNode
    rw [h]; exact info_lt hv
  · rcases List.mem_cons.mp h with h | h
    · obtain ⟨l, hl⟩ := wf.nilNode
      rw [h]; exact info_lt hl
    · obtain ⟨-, k, v, l, hinfo, -⟩ := wf.nodes a h
      exact info_lt hinfo

theorem filter_sublist_mem (f : Nat → Bool) (c : Nat) (A : List Nat) :
    lastFrom c (A.filter f) ∈ c :: A := by
  rcases List.mem_cons.mp (lastFrom_mem_cons c (A.filter f)) with h | h
  · rw [h]; simp
  · exact List.mem_cons_of_mem _ (List.mem_of_mem_filter h)

/-- The predecessor of level `j` is `mHead` or a stored node behind the final position. -/
theorem pred_mem {V : Type} [DecidableEq V] (s : State V) (key : Nat) (v : V) (L : List Nat)
    (j : Nat) : lastFrom 0 ((locate s key v L).1.filter (above s j)) ∈ 0 :: (locate s key v L).1 :=
  filter_sublist_mem _ _ _

/-- The run of `insert` on a well-formed state: it succeeds, and the new state differs from
the old one by the new node at address `heap.length` and, at each level below the drawn one,
by the pointer of the predecessor. -/
theorem insert_run {V : Type} [DecidableEq V] {T : ValueTraits V} {s : State V}
    {L : List Nat} (wf : WF T s L) (v : V) (hs : Searchable T v) (fuel : Nat)
    (hf : L.length < fuel) (level : Nat) (hlev : level ≤ mMaxLevel) :
    ∃ s1, insert T fuel s v level = some s1 ∧ s1.mHead = s.mHead ∧ s1.mNil = s.mNil ∧
      s1.heap.length = s.heap.length + 1 ∧
      (∀ b, s1.info b = if b = s.heap.length then some (mHasher T v, v, level) else s.info b) ∧
      ∀ b j, s1.index b j =
        if j < level then
          (if b = lastFrom 0 ((locate s (mHasher T v) v L).1.filter (above s j))
            then some (some s.heap.length)
           else if b = s.heap.length
            then s.index (lastFrom 0 ((locate s (mHasher T v) v L).1.filter (above s j))) j
           else s.index b j)
        else (if b = s.heap.length then none else s.index b j) := by
  obtain ⟨preds, hp1, hp2, hp3⟩ := getPredecessor_spec wf v hs fuel hf
  obtain ⟨hloc, -⟩ := locate_spec s (mHasher T v) v L
  obtain ⟨a1, a2, a3, a4, a5, a6⟩ := alloc_spec s (mHasher T v) v level
  have hpred : ∀ j, j < mMaxLevel →
      predAt preds j = lastFrom 0 ((locate s (mHasher T v) v L).1.filter (above s j)) :=
    fun j hj => predAt_eq (hp3 j hj)
  have hplt : ∀ j, lastFrom 0 ((locate s (mHasher T v) v L).1.filter (above s j))
      < s.heap.length := by
    intro j
    apply wf_lt wf
    rcases List.mem_cons.mp (pred_mem s (mHasher T v) v L j) with h | h
    · rw [h]; simp
    · refine List.mem_cons_of_mem _ (List.mem_cons_of_mem _ ?_)
      have h1 := List.mem_append_left (locate s (mHasher T v) v L).2 h
      rwa [hloc] at h1
  obtain ⟨s1, c0, c1, c2, c3, c4, c5⟩ := insertLoop_spec preds s.heap.length level 0
    (s.alloc (mHasher T v) v level).1 (by
      intro j _ hj
      have hj1 : j < mMaxLevel := by omega
      rw [hpred j hj1]
      refine ⟨hp3 j hj1, Nat.ne_of_lt (hplt j), ?_, ?_⟩
      · rw [a6, if_neg (Nat.ne_of_lt (hplt j))]
        have h := linked_head s j _ _
          (next_level wf (locate s (mHasher T v) v L).1 (locate s (mHasher T v) v L).2
            hloc.symm j hj1)
        rw [h]; rfl
      · rw [a6, if_pos rfl, if_pos (by omega)]; rfl)
  refine ⟨s1, ?_, by rw [c1, a2], by rw [c2, a3], by rw [c3, a4], fun b => by rw [c4, a5],
    fun b j => ?_⟩
  · unfold insert
    rw [hp1, Option.some_bind]
    exact c0
  · rw [c5]
    by_cases hj : j < level
    · have hr : 0 ≤ j ∧ j < 0 + level := by omega
      rw [if_pos hr, if_pos hj, hpred j (by omega), a6, a6,
        if_neg (Nat.ne_of_lt (hplt j))]
      by_cases hb : b = lastFrom 0 ((locate s (mHasher T v) v L).1.filter (above s j))
      · rw [if_pos hb, if_pos hb]
      · rw [if_neg hb, if_neg hb]
        by_cases hb2 : b = s.heap.length
        · rw [if_pos hb2, if_pos hb2]
        · rw [if_neg hb2, if_neg hb2, if_neg hb2]
    · have hr : ¬ (0 ≤ j ∧ j < 0 + level) := by omega
      rw [if_neg hr, if_neg hj, a6]
      by_cases hb2 : b = s.heap.length
      · rw [if_pos hb2, if_pos hb2, if_neg hj]
      · rw [if_neg hb2, if_neg hb2]

theorem above_congr {V : Type} (s s1 : State V) (j a : Nat) (h : s1.info a = s.info a) :
    above s1 j a = above s j a := by
  unfold above State.level; rw [h]

theorem keyOf_congr {V : Type} (s s1 : State V) (a : Nat) (h : s1.info a = s.info a) :
    s1.keyOf a = s.keyOf a := by
  unfold State.keyOf; rw [h]

theorem filter_above_congr {V : Type} (s s1 : State V) (j : Nat) (X : List Nat)
    (h : ∀ a ∈ X, s1.info a = s.info a) : X.filter (above s1 j) = X.filter (above s j) :=
  List.filter_congr fun a ha => above_congr s s1 j a (h a ha)

theorem wf_nodup_head {V : Type} {T : ValueTraits V} {s : State V} {L : List Nat}
    (wf : WF T s L) : (0 :: L).Nodup := by
  refine List.nodup_cons.mpr ⟨fun h => ?_, wf.nodup⟩
  have := (wf.nodes 0 h).1
  omega

/-- A state that differs from a well-formed one as `insert` prescribes, with the new node
placed between nodes of smaller-or-equal and greater-or-equal keys, is well-formed. -/
theorem wf_insert {V : Type} {T : ValueTraits V} {s s1 : State V} {L : List Nat}
    (wf : WF T s L) (A B : List Nat) (hL : A ++ B = L) (v : V) (level : Nat)
    (hlev : level ≤ mMaxLevel) (hsv : Searchable T v)
    (hA : ∀ a ∈ A, s.keyOf a ≤ mHasher T v)
    (hB : ∀ b ∈ B, mHasher T v ≤ s.keyOf b)
    (h1 : s1.mHead = s.mHead) (h2 : s1.mNil = s.mNil)
    (h3 : ∀ b, s1.info b = if b = s.heap.length then some (mHasher T v, v, level) else s.info b)
    (h4 : ∀ b j, s1.index b j =
        if j < level then
          (if b = lastFrom 0 (A.filter (above s j)) then some (some s.heap.length)
           else if b = s.heap.length then s.index (lastFrom 0 (A.filter (above s j))) j
           else s.index b j)
        else (if b = s.heap.length then none else s.index b j)) :
    WF T s1 (if level = 0 then L else A ++ s.heap.length :: B) := by
  have hlt : ∀ a ∈ 0 :: 1 :: L, a ≠ s.heap.length := fun a ha => Nat.ne_of_lt (wf_lt wf a ha)
  have hLlt : ∀ a ∈ L, a ≠ s.heap.length := fun a ha =>
    hlt a (List.mem_cons_of_mem _ (List.mem_cons_of_mem _ ha))
  have hinfo : ∀ a ∈ 0 :: 1 :: L, s1.info a = s.info a := fun a ha => by
    rw [h3, if_neg (hlt a ha)]
  have hinfoL : ∀ a ∈ L, s1.info a = s.info a := fun a ha =>
    hinfo a (List.mem_cons_of_mem _ (List.mem_cons_of_mem _ ha))
  have hnew : s1.info s.heap.length = some (mHasher T v, v, level) := by rw [h3, if_pos rfl]
  have hAL : ∀ a ∈ A, a ∈ L := fun a ha => by rw [← hL]; exact List.mem_append_left _ ha
  have hBL : ∀ a ∈ B, a ∈ L := fun a ha => by rw [← hL]; exact List.mem_append_right _ ha
  have hfA : ∀ j, A.filter (above s1 j) = A.filter (above s j) := fun j =>
    filter_above_congr s s1 j A fun a ha => hinfoL a (hAL a ha)
  have hfB : ∀ j, B.filter (above s1 j) = B.filter (above s j) := fun j =>
    filter_above_congr s s1 j B fun a ha => hinfoL a (hBL a ha)
  have hnd := wf_nodup_head wf
  have hnL : s.heap.length ∉ 0 :: L := fun h => by
    rcases List.mem_cons.mp h with h | h
    · exact hlt 0 (by simp) h.symm
    · exact hLlt _ h rfl
  have hhead : ∃ w, s1.info 0 = some (0, w, mMaxLevel) := by
    obtain ⟨w, hw⟩ := wf.headNode
    exact ⟨w, by rw [hinfo 0 (by simp)]; exact hw⟩
  have hnil : ∃ l, s1.info 1 = some (keyMax, T.maxValue, l) := by
    obtain ⟨l, hl⟩ := wf.nilNode
    exact ⟨l, by rw [hinfo 1 (by simp)]; exact hl⟩
  have hnodes : ∀ a ∈ L, 2 ≤ a ∧ ∃ k w l, s1.info a = some (k, w, l) ∧ 1 ≤ l ∧
      l ≤ mMaxLevel ∧ k = mHasher T w ∧ Searchable T w := fun a ha => by
    rw [hinfoL a ha]; exact wf.nodes a ha
  have hold : ∀ j, level ≤ j → ∀ X a, (∀ x ∈ a :: X, x ≠ s.heap.length) →
      Linked s j a X → Linked s1 j a X := by
    intro j hj X a hX hl
    apply linked_congr s s1 j X a hl
    intro x hx
    rw [h4, if_neg (by omega), if_neg (hX x hx)]
  have hnl : ∀ j, j < mMaxLevel → s1.index 1 j = some none := by
    intro j hj
    have h1n : (1 : Nat) ≠ s.heap.length := hlt 1 (by simp)
    have h1p : (1 : Nat) ≠ lastFrom 0 (A.filter (above s j)) := by
      intro hc
      rcases List.mem_cons.mp (filter_sublist_mem (above s j) 0 A) with h | h
      · omega
      · have := (wf.nodes _ (hAL _ h)).1
        omega
    rw [h4, if_neg h1p, if_neg h1n, if_neg h1n]
    simp only [ite_self]
    exact wf.nilLinks j hj
  by_cases h0 : level = 0
  · rw [if_pos h0]
    refine ⟨by rw [h1]; exact wf.head, by rw [h2]; exact wf.nil, hhead, hnil, wf.nodup,
      hnl, hnodes, fun j hj => ?_, ?_⟩
    · rw [filter_above_congr s s1 j L hinfoL]
      apply hold j (by omega) _ 0 _ (wf.linked j hj)
      intro x hx
      rcases List.mem_cons.mp hx with h | h
      · rw [h]; exact hlt 0 (by simp)
      · exact hLlt x (List.mem_of_mem_filter h)
    · refine wf.sorted.imp_of_mem ?_
      intro a b ha hb hab
      rw [keyOf_congr s s1 a (hinfoL a ha), keyOf_congr s s1 b (hinfoL b hb)]
      exact hab
  · rw [if_neg h0]
    have hkn : s1.keyOf s.heap.length = mHasher T v := by
      unfold State.keyOf; rw [hnew]
    have habove : ∀ j, above s1 j s.heap.length = decide (j < level) := by
      intro j; unfold above; rw [level_of_info hnew]
    refine ⟨by rw [h1]; exact wf.head, by rw [h2]; exact wf.nil, hhead, hnil, ?_, hnl, ?_,
      fun j hj => ?_, ?_⟩
    · rw [List.nodup_middle, hL]
      exact List.nodup_cons.mpr ⟨fun h => hLlt _ h rfl, wf.nodup⟩
    · intro a ha
      rcases List.mem_append.mp ha with h | h
      · exact hnodes a (hAL a h)
      · rcases List.mem_cons.mp h with h | h
        · rw [h]
          have := wf_lt wf 1 (by simp)
          exact ⟨by omega, _, _, _, hnew, by omega, hlev, rfl, hsv⟩
        · exact hnodes a (hBL a h)
    · have hl := wf.linked j hj
      rw [← hL, List.filter_append] at hl
      rw [List.filter_append, hfA]
      by_cases hjl : j < level
      · rw [List.filter_cons_of_pos (by rw [habove]; simpa using hjl), hfB]
        have hsub : ∀ x ∈ 0 :: (A.filter (above s j) ++ B.filter (above s j)), x ∈ 0 :: L := by
          intro x hx
          rcases List.mem_cons.mp hx with h | h
          · rw [h]; simp
          · rw [← List.filter_append, hL] at h
            exact List.mem_cons_of_mem _ (List.mem_of_mem_filter h)
        apply linked_insert s s1 j s.heap.length _ _ 0 _ (fun h => hnL (hsub _ h)) hl
        · rw [h4, if_pos hjl, if_pos rfl]
        · rw [h4, if_pos hjl, if_neg, if_pos rfl]
          intro hc
          apply hnL
          rw [hc]
          rcases List.mem_cons.mp (filter_sublist_mem (above s j) 0 A) with h | h
          · rw [h]; simp
          · exact List.mem_cons_of_mem _ (hAL _ h)
        · intro x hx1 hx2
          rw [h4, if_pos hjl, if_neg hx1, if_neg hx2]
        · rw [← List.filter_append, hL]
          exact List.nodup_cons.mpr ⟨fun h => (List.nodup_cons.mp hnd).1 (List.mem_of_mem_filter h),
            wf.nodup.filter _⟩
      · rw [List.filter_cons_of_neg (by rw [habove]; simpa using hjl), hfB]
        apply hold j (by omega) _ 0 _ hl
        intro x hx
        rcases List.mem_cons.mp hx with h | h
        · rw [h]; exact hlt 0 (by simp)
        · rw [← List.filter_append, hL] at h
          exact hLlt x (List.mem_of_mem_filter h)
    · have hs := wf.sorted
      rw [← hL, List.pairwise_append] at hs
      have hkA : ∀ a ∈ A, s1.keyOf a = s.keyOf a := fun a ha =>
        keyOf_congr s s1 a (hinfoL a (hAL a ha))
      have hkB : ∀ a ∈ B, s1.keyOf a = s.keyOf a := fun a ha =>
        keyOf_congr s s1 a (hinfoL a (hBL a ha))
      rw [List.pairwise_append]
      refine ⟨hs.1.imp_of_mem fun {a b} ha hb hab => by rw [hkA a ha, hkA b hb]; exact hab,
        List.pairwise_cons.mpr ⟨fun b hb => by rw [hkn, hkB b hb]; exact hB b hb,
          hs.2.1.imp_of_mem fun {a b} ha hb hab => by rw [hkB a ha, hkB b hb]; exact hab⟩, ?_⟩
      intro a ha b hb
      rw [hkA a ha]
      rcases List.mem_cons.mp hb with h | h
      · rw [h, hkn]; exact hA a ha
      · rw [hkB b h]; exact hs.2.2 a ha b h

/-- The effect of `insert` on a well-formed state: it succeeds; with drawn level 0 the stored
nodes are the same, otherwise the new node (at address `heap.length`) enters at the final
position of the search; the outcome is well-formed again. -/
theorem insert_spec {V : Type} [DecidableEq V] {T : ValueTraits V} {s : State V}
    {L : List Nat} (wf : WF T s L) (v : V) (hs : Searchable T v) (fuel : Nat)
    (hf : L.length < fuel) (level : Nat) (hlev : level ≤ mMaxLevel) :
    ∃ s1, insert T fuel s v level = some s1 ∧
      WF T s1 (if level = 0 then L else
        (locate s (mHasher T v) v L).1 ++ s.heap.length :: (locate s (mHasher T v) v L).2) ∧
      s1.heap.length = s.heap.length + 1 ∧
      ∀ b, s1.info b = if b = s.heap.length then some (mHasher T v, v, level) else s.info b := by
  obtain ⟨s1, e0, e1, e2, e3, e4, e5⟩ := insert_run wf v hs fuel hf level hlev
  exact ⟨s1, e0, wf_insert wf _ _ (locate_spec s (mHasher T v) v L).1 v level hlev hs
    (locate_behind wf _ v) (locate_ahead wf _ v) e1 e2 e4 e5, e3, e4⟩

/-! ## `erase` on well-formed states -/

/-- A state that differs from a well-formed one as `erase` prescribes for the victim `b`
(first node ahead of the final position) is well-formed on the remaining nodes. -/
theorem wf_erase {V : Type} {T : ValueTraits V} {s s1 : State V} {L : List Nat}
    (wf : WF T s L) (A B : List Nat) (b : Nat) (hL : A ++ b :: B = L)
    (h1 : s1.mHead = s.mHead) (h2 : s1.mNil = s.mNil)
    (h3 : ∀ a, s1.info a = if a = b then none else s.info a)
    (h4 : ∀ a j, s1.index a j =
        if a = b then none
        else if j < s.level b ∧ a = lastFrom 0 (A.filter (above s j)) then s.index b j
        else s.index a j) :
    WF T s1 (A ++ B) := by
  have hnd := wf_nodup_head wf
  rw [← hL] at hnd
  have hb_notin : b ∉ 0 :: (A ++ B) := fun h => by
    have h5 : (b :: 0 :: (A ++ B)).Nodup := by
      have := List.nodup_middle.mp (show ((0 :: A) ++ b :: B).Nodup from hnd)
      simpa using this
    exact (List.nodup_cons.mp h5).1 h
  have hsubL : ∀ a ∈ A ++ B, a ∈ L := fun a ha => by
    rw [← hL]
    rcases List.mem_append.mp ha with h | h
    · exact List.mem_append_left _ h
    · exact List.mem_append_right _ (List.mem_cons_of_mem _ h)
  have hne : ∀ a ∈ 0 :: (A ++ B), a ≠ b := fun a ha hc => hb_notin (hc ▸ ha)
  have hbL : b ∈ L := by rw [← hL]; simp
  have hb2 := (wf.nodes b hbL).1
  have hinfo : ∀ a, a ≠ b → s1.info a = s.info a := fun a ha => by rw [h3, if_neg ha]
  have hinfoL : ∀ a ∈ A ++ B, s1.info a = s.info a := fun a ha =>
    hinfo a (hne a (List.mem_cons_of_mem _ ha))
  have hsub : (A ++ B).Sublist L := by
    rw [← hL]
    exact List.Sublist.append (List.Sublist.refl A) (List.sublist_cons_self b B)
  refine ⟨by rw [h1]; exact wf.head, by rw [h2]; exact wf.nil, ?_, ?_, wf.nodup.sublist hsub,
    fun j hj => ?_,
    fun a ha => by rw [hinfoL a ha]; exact wf.nodes a (hsubL a ha), fun j hj => ?_, ?_⟩
  · obtain ⟨w, hw⟩ := wf.headNode
    exact ⟨w, by rw [hinfo 0 (by omega)]; exact hw⟩
  · obtain ⟨l, hl⟩ := wf.nilNode
    exact ⟨l, by rw [hinfo 1 (by omega)]; exact hl⟩
  · have h1p : (1 : Nat) ≠ lastFrom 0 (A.filter (above s j)) := by
      intro hc
      rcases List.mem_cons.mp (filter_sublist_mem (above s j) 0 A) with h | h
      · omega
      · have := (wf.nodes _ (hsubL _ (List.mem_append_left _ h))).1
        omega
    rw [h4, if_neg (by omega), if_neg (fun hc => h1p hc.2)]
    exact wf.nilLinks j hj
  · rw [filter_above_congr s s1 j (A ++ B) hinfoL, List.filter_append]
    have hl := wf.linked j hj
    rw [← hL, List.filter_append] at hl
    have hmem : ∀ x ∈ 0 :: (A.filter (above s j) ++ B.filter (above s j)), x ≠ b := by
      intro x hx
      apply hne
      rcases List.mem_cons.mp hx with h | h
      · rw [h]; simp
      · rw [← List.filter_append] at h
        exact List.mem_cons_of_mem _ (List.mem_of_mem_filter h)
    by_cases hjl : j < s.level b
    · rw [List.filter_cons_of_pos (by simpa [above] using hjl)] at hl
      have hpne : lastFrom 0 (A.filter (above s j)) ≠ b := by
        apply hne
        rcases List.mem_cons.mp (filter_sublist_mem (above s j) 0 A) with h | h
        · rw [h]; simp
        · exact List.mem_cons_of_mem _ (List.mem_append_left _ h)
      apply linked_erase s s1 j b _ _ 0 _ hl
      · rw [h4, if_neg hpne, if_pos ⟨hjl, rfl⟩]
      · intro x hx1 hx2
        rw [h4, if_neg hx2, if_neg (fun hc => hx1 hc.2)]
      · have h6 : (0 :: A ++ b :: B).Sublist (0 :: A ++ b :: B) := List.Sublist.refl _
        have h7 : ((0 :: A).filter (above s j) ++ (b :: B).filter (above s j)).Nodup := by
          rw [← List.filter_append]; exact hnd.filter _
        have h8 : (0 :: (A.filter (above s j) ++ b :: B.filter (above s j))).Sublist
            (0 :: (A ++ b :: B)) := by
          apply List.Sublist.cons₂
          apply List.Sublist.append (List.filter_sublist _)
          exact List.Sublist.cons₂ _ (List.filter_sublist _)
        exact hnd.sublist h8
    · rw [List.filter_cons_of_neg (by simpa [above] using hjl)] at hl
      apply linked_congr s s1 j _ 0 hl
      intro x hx
      rw [h4, if_neg (hmem x hx), if_neg (fun hc => hjl hc.1)]
  · have hs := wf.sorted.sublist hsub
    refine hs.imp_of_mem ?_
    intro a c ha hc hac
    rw [keyOf_congr s s1 a (hinfoL a ha), keyOf_congr s s1 c (hinfoL c hc)]
    exact hac

theorem index_isSome_of_level {V : Type} {s : State V} {a j : Nat} (h : j < s.level a) :
    (s.index a j).isSome := by
  unfold State.level State.info at h
  unfold State.index
  cases hn : s.node a with
  | none => rw [hn] at h; simp at h
  | some n =>
    rw [hn] at h
    simp only [Option.map_some'] at h
    simp only [Option.some_bind]
    rw [List.get?_eq_getElem?, List.getElem?_eq_getElem h]
    rfl

/-- The first pointer read by `erase` and `find` after the descent: the level-0 pointer of
the level-0 predecessor leads to the first node ahead, or to `mNil`. -/
theorem next_zero {V : Type} [DecidableEq V] {T : ValueTraits V} {s : State V} {L : List Nat}
    (wf : WF T s L) (key : Nat) (v : V) :
    s.index (lastFrom 0 ((locate s key v L).1.filter (above s 0))) 0
      = some (some ((locate s key v L).2.headD 1)) := by
  have hloc := (locate_spec s key v L).1
  have hnext := next_level wf _ _ hloc.symm 0 mMaxLevel_pos
  rw [filter_above_zero wf (locate s key v L).2
    (fun a ha => by rw [← hloc]; exact List.mem_append_right _ ha)] at hnext
  exact linked_head s 0 _ _ hnext

/-- The effect of `erase` on a well-formed state: it succeeds; without a victim the state is
unchanged, otherwise the victim leaves the stored nodes, its slot is released, and the
outcome is well-formed again. -/
theorem erase_spec {V : Type} [DecidableEq V] {T : ValueTraits V} {s : State V}
    {L : List Nat} (wf : WF T s L) (v : V) (hs : Searchable T v) (fuel : Nat)
    (hf : L.length < fuel) :
    ∃ s1, erase T fuel s v = some s1 ∧
      (victim s (mHasher T v) v L = none → s1 = s) ∧
      (∀ b, victim s (mHasher T v) v L = some b →
        WF T s1 (L.erase b) ∧ ∀ a, s1.info a = if a = b then none else s.info a) := by
  obtain ⟨preds, hp1, hp2, hp3⟩ := getPredecessor_spec wf v hs fuel hf
  obtain ⟨hloc, -⟩ := locate_spec s (mHasher T v) v L
  have hidx := next_zero wf (mHasher T v) v
  have hpred : ∀ j, j < mMaxLevel →
      predAt preds j = lastFrom 0 ((locate s (mHasher T v) v L).1.filter (above s j)) :=
    fun j hj => predAt_eq (hp3 j hj)
  unfold erase
  rw [hp1, Option.some_bind, hp3 0 mMaxLevel_pos]
  simp only [Option.some_bind, hidx]
  unfold victim
  cases hB : (locate s (mHasher T v) v L).2 with
  | nil =>
    refine ⟨s, by simp [wf.nil], fun _ => rfl, fun b hb => ?_⟩
    simp at hb
  | cons b bs =>
    rw [hB] at hloc
    have hbL : b ∈ L := by rw [← hloc]; simp
    obtain ⟨hb2, k, w, l, hinfo, hl1, hl2, -⟩ := wf.nodes b hbL
    obtain ⟨n, hn, -, hval, hlen⟩ := info_eq_some hinfo
    have hne : ¬ (some b = s.mNil) := by rw [wf.nil]; simp; omega
    simp only [List.headD_cons, hne, if_false, hn, Option.some_bind, List.head?_cons, hinfo,
      hval]
    by_cases hwv : w = v
    · have hlev : s.level b = l := level_of_info hinfo
      have hnd := wf_nodup_head wf
      rw [← hloc] at hnd
      have hpne : ∀ j, lastFrom 0 ((locate s (mHasher T v) v L).1.filter (above s j)) ≠ b := by
        intro j hc
        have h5 : (b :: 0 :: ((locate s (mHasher T v) v L).1 ++ bs)).Nodup := by
          have := List.nodup_middle.mp
            (show ((0 :: (locate s (mHasher T v) v L).1) ++ b :: bs).Nodup from hnd)
          simpa using this
        apply (List.nodup_cons.mp h5).1
        rw [← hc]
        rcases List.mem_cons.mp (pred_mem s (mHasher T v) v L j) with h | h
        · rw [h]; simp
        · exact List.mem_cons_of_mem _ (List.mem_append_left _ h)
      obtain ⟨s1, c0, c1, c2, c3, c4, c5⟩ := eraseLoop_spec preds b l 0 s (by
        intro j _ hj
        have hj1 : j < mMaxLevel := by omega
        rw [hpred j hj1]
        refine ⟨hp3 j hj1, hpne j, ?_, index_isSome_of_level (by omega)⟩
        have h := linked_head s j _ _
          (next_level wf (locate s (mHasher T v) v L).1 (b :: bs) hloc.symm j hj1)
        rw [h]; rfl)
      obtain ⟨s2, d0, d1, d2, d3, d4, d5⟩ := free_spec
        (show (s1.node b).isSome from node_isSome_of_info (by rw [c4]; exact hinfo))
      have hinfo2 : ∀ a, s2.info a = if a = b then none else s.info a := by
        intro a; rw [d4, c4]
      have hwf : WF T s2 ((locate s (mHasher T v) v L).1 ++ bs) := by
        apply wf_erase wf _ _ b hloc (by rw [d1, c1]) (by rw [d2, c2]) hinfo2
        intro a j
        rw [d5, c5]
        by_cases hab : a = b
        · rw [if_pos hab, if_pos hab]
        · rw [if_neg hab, if_neg hab]
          by_cases hj : j < l
          · have hj1 : j < mMaxLevel := by omega
            rw [hpred j hj1, hlev]
            by_cases hap : a = lastFrom 0 ((locate s (mHasher T v) v L).1.filter (above s j))
            · rw [if_pos ⟨Nat.zero_le _, by omega, hap⟩, if_pos ⟨hj, hap⟩]
            · rw [if_neg (fun hc => hap hc.2.2), if_neg (fun hc => hap hc.2)]
          · rw [if_neg (fun hc => hj (by omega)), if_neg (fun hc => hj (hlev ▸ hc.1))]
      have herase : L.erase b = (locate s (mHasher T v) v L).1 ++ bs := by
        have hnotin : b ∉ (locate s (mHasher T v) v L).1 := by
          intro hc
          have h5 := (List.nodup_cons.mp hnd).2
          rw [List.nodup_append] at h5
          exact h5.2.2 hc (List.mem_cons_self _ _)
        have h6 : ((locate s (mHasher T v) v L).1 ++ b :: bs).erase b
            = (locate s (mHasher T v) v L).1 ++ bs := by
          rw [List.erase_append_right _ hnotin, List.erase_cons_head]
        rwa [hloc] at h6
      refine ⟨s2, ?_, ?_, ?_⟩
      · simp only [hwv, ne_eq, not_true_eq_false, if_false, hlen, c0, Option.some_bind, d0]
      · intro hc; simp [hwv] at hc
      · intro a ha
        simp only [hwv, if_true, Option.some_bind, Option.some.injEq] at ha
        subst ha
        rw [herase]
        exact ⟨hwf, hinfo2⟩
    · refine ⟨s, ?_, fun _ => rfl, ?_⟩
      · simp [hwv]
      · intro a ha; simp [hwv] at ha

/-! ## The constructor and `operator<<` -/

/-- The default constructor yields a well-formed state without stored nodes. -/
theorem empty_wf {V : Type} (T : ValueTraits V) : WF T (empty T) [] := by
  refine ⟨rfl, rfl, ⟨T.minValue, ?_⟩, ⟨mMaxLevel, ?_⟩, List.nodup_nil, fun j hj => ?_,
    fun a ha => absurd ha (List.not_mem_nil a), fun j hj => ?_, List.Pairwise.nil⟩
  · simp [State.info, State.node, empty]
  · simp [State.info, State.node, empty]
  · simp [State.index, State.node, empty, List.getElem?_replicate, hj]
  · show (empty T).index 0 j = some (some 1)
    simp [State.index, State.node, empty, List.getElem?_replicate, hj]

theorem traverseLoop_spec {V : Type} {T : ValueTraits V} {s : State V} {L : List Nat}
    (wf : WF T s L) :
    ∀ (Y : List Nat) (a fuel : Nat), (∀ y ∈ Y, y ∈ L) → Linked s 0 a Y → Y.length < fuel →
      traverseLoop s fuel (some (Y.headD 1)) = some (entries s Y) := by
  intro Y
  induction Y with
  | nil =>
    intro a fuel _ _ hf
    obtain ⟨n, rfl⟩ : ∃ n, fuel = n + 1 := ⟨fuel - 1, by simp at hf; omega⟩
    simp [traverseLoop, wf.nil, entries]
  | cons y ys ih =>
    intro a fuel hY hl hf
    obtain ⟨n, rfl⟩ : ∃ n, fuel = n + 1 := ⟨fuel - 1, by simp at hf; omega⟩
    obtain ⟨h2, k, w, l, hinfo, -⟩ := wf.nodes y (hY y (List.mem_cons_self _ _))
    obtain ⟨m, hm, hk, hw, hlen⟩ := info_eq_some hinfo
    have hne : ¬ (some y = s.mNil) := by rw [wf.nil]; simp; omega
    have hnext : m.indexes.get? 0 = some (some (ys.headD 1)) := by
      have h := linked_head s 0 y ys hl.2
      unfold State.index at h
      rw [hm] at h
      exact h
    have hrec := ih y n (fun x hx => hY x (List.mem_cons_of_mem _ hx)) hl.2
      (by simp at hf; omega)
    simp only [List.headD_cons, traverseLoop, hne, if_false, hm, Option.some_bind, hnext, hrec,
      Option.map_some', entries, List.filterMap_cons, hinfo, hk, hw, hlen]

/-- What `operator<<` prints on a well-formed state: the entries of the stored nodes, in the
order of `L`. -/
theorem traversal_spec {V : Type} {T : ValueTraits V} {s : State V} {L : List Nat}
    (wf : WF T s L) (fuel : Nat) (hf : L.length < fuel) :
    traversal fuel s = some (entries s L) := by
  have hl := wf.linked 0 mMaxLevel_pos
  rw [filter_above_zero wf L (fun a ha => ha)] at hl
  unfold traversal
  rw [wf.head, Option.some_bind, linked_head s 0 0 L hl, Option.some_bind]
  exact traverseLoop_spec wf L 0 fuel (fun y hy => hy) hl hf

/-! ## Fuel -/

theorem advance_mono {V : Type} [DecidableEq V] (s : State V) (key : Nat) (value : V)
    (j d : Nat) : ∀ (fuel c r : Nat), advance s key value j fuel c = some r →
      advance s key value j (fuel + d) c = some r := by
  intro fuel
  induction fuel with
  | zero => intro c r h; exact Option.noConfusion h
  | succ n ih =>
    intro c r h
    rw [Nat.add_right_comm]
    rw [advance] at h ⊢
    cases hi : s.index c j with
    | none => rw [hi] at h; exact Option.noConfusion h
    | some p =>
      cases p with
      | none => rw [hi] at h; exact Option.noConfusion h
      | some next =>
        cases hm : s.node next with
        | none => rw [hi] at h; simp [hm] at h
        | some m =>
          rw [hi] at h
          simp only [Option.some_bind, hm] at h ⊢
          split_ifs at h ⊢ with hc
          · exact ih next r h
          · exact h

theorem getPredecessorLoop_mono {V : Type} [DecidableEq V] (s : State V) (key : Nat)
    (value : V) (fuel d : Nat) : ∀ (i c : Nat) (result preds : List (Option Nat)),
      getPredecessorLoop s key value fuel i c result = some preds →
      getPredecessorLoop s key value (fuel + d) i c result = some preds := by
  intro i
  induction i with
  | zero => intro c result preds h; exact h
  | succ i ih =>
    intro c result preds h
    rw [getPredecessorLoop] at h ⊢
    cases ha : advance s key value i fuel c with
    | none => rw [ha] at h; exact Option.noConfusion h
    | some c1 =>
      rw [ha] at h
      rw [advance_mono s key value i d fuel c c1 ha]
      simp only [Option.some_bind] at h ⊢
      split_ifs at h ⊢ with hc
      · exact ih c1 _ preds h

theorem getPredecessor_mono {V : Type} [DecidableEq V] (T : ValueTraits V) (s : State V)
    (value : V) (fuel d : Nat) (preds : List (Option Nat))
    (h : getPredecessor T fuel s value = some preds) :
    getPredecessor T (fuel + d) s value = some preds := by
  unfold getPredecessor at h ⊢
  cases hh : s.mHead with
  | none => rw [hh] at h; exact Option.noConfusion h
  | some head =>
    rw [hh] at h
    cases hn : getNodeLevel s head with
    | none => simp [hn] at h
    | some n =>
      simp only [Option.some_bind, hn] at h ⊢
      exact getPredecessorLoop_mono s _ value fuel d n head _ preds h

/-- More fuel does not change the outcome of `insert`. -/
theorem insert_mono {V : Type} [DecidableEq V] (T : ValueTraits V) (s s1 : State V)
    (value : V) (level fuel d : Nat) (h : insert T fuel s value level = some s1) :
    insert T (fuel + d) s value level = some s1 := by
  unfold insert at h ⊢
  cases hp : getPredecessor T fuel s value with
  | none => rw [hp] at h; exact Option.noConfusion h
  | some preds =>
    rw [hp] at h
    rw [getPredecessor_mono T s value fuel d preds hp]
    exact h

/-- More fuel does not change the outcome of `erase`. -/
theorem erase_mono {V : Type} [DecidableEq V] (T : ValueTraits V) (s s1 : State V)
    (value : V) (fuel d : Nat) (h : erase T fuel s value = some s1) :
    erase T (fuel + d) s value = some s1 := by
  unfold erase at h ⊢
  cases hp : getPredecessor T fuel s value with
  | none => rw [hp] at h; exact Option.noConfusion h
  | some preds =>
    rw [hp] at h
    rw [getPredecessor_mono T s value fuel d preds hp]
    exact h

theorem advance_onto_nil {V : Type} [DecidableEq V] (s : State V) (key : Nat) (value : V)
    (j : Nat) (hnil : (s.node 1).isSome) (hpass : passes s key value 1 = true)
    (hnull : s.index 1 j = some none) :
    ∀ (Y : List Nat) (c fuel : Nat),
      (∀ y ∈ Y, (s.node y).isSome ∧ passes s key value y = true) → Linked s j c Y →
      advance s key value j fuel c = none := by
  have hone : ∀ fuel, advance s key value j fuel 1 = none := by
    intro fuel
    cases fuel with
    | zero => rfl
    | succ n => rw [advance, hnull]; rfl
  intro Y
  induction Y with
  | nil =>
    intro c fuel _ hl
    cases fuel with
    | zero => rfl
    | succ n =>
      rw [advance_step s key value j n c 1 hl hnil, hpass, if_pos rfl]
      exact hone n
  | cons y ys ih =>
    intro c fuel hY hl
    cases fuel with
    | zero => rfl
    | succ n =>
      obtain ⟨h1, h2⟩ := hY y (List.mem_cons_self _ _)
      rw [advance_step s key value j n c y hl.1 h1, h2, if_pos rfl]
      exact ih y n (fun x hx => hY x (List.mem_cons_of_mem _ hx)) hl.2

/-- On a well-formed state, `getPredecessor` of a value that is not searchable (key of
`mNil`, another value) has no outcome: the top-level loop steps onto `mNil` and reads its
null forward pointer. -/
theorem getPredecessor_unsearchable {V : Type} [DecidableEq V] {T : ValueTraits V}
    {s : State V} {L : List Nat} (wf : WF T s L) (v : V) (hs : ¬ Searchable T v)
    (fuel : Nat) : getPredecessor T fuel s v = none := by
  unfold Searchable at hs
  simp only [not_or, not_not] at hs
  obtain ⟨hk, hv⟩ := hs
  obtain ⟨w, hhead⟩ := wf.headNode
  obtain ⟨hd, hn0, -, -, hlen⟩ := info_eq_some hhead
  obtain ⟨l, hnil⟩ := wf.nilNode
  have hpnil : passes s (mHasher T v) v 1 = true := by
    unfold passes
    rw [hnil, hk, decide_eq_true_eq]
    exact Or.inr ⟨rfl, fun h => hv h.symm⟩
  have hpL : ∀ y ∈ L, (s.node y).isSome ∧ passes s (mHasher T v) v y = true := by
    intro y hy
    obtain ⟨-, k, u, l1, hinfo, -, -, hku, hsu⟩ := wf.nodes y hy
    refine ⟨node_isSome_of_info hinfo, ?_⟩
    unfold passes
    rw [hinfo, hk, decide_eq_true_eq]
    have hle := mHasher_le T u
    rcases Nat.lt_or_ge k keyMax with h | h
    · exact Or.inl h
    · right
      have hke : k = keyMax := by omega
      refine ⟨hke, fun h => ?_⟩
      rcases hsu with h1 | h1
      · exact h1 (by rw [← hku, hke])
      · exact hv (by rw [← h, h1])
  have hadv := advance_onto_nil s (mHasher T v) v (mMaxLevel - 1) (node_isSome_of_info hnil)
    hpnil (wf.nilLinks _ (by decide)) _ 0 fuel
    (fun y hy => hpL y (List.mem_of_mem_filter hy)) (wf.linked _ (by decide))
  have hloop : ∀ result, getPredecessorLoop s (mHasher T v) v fuel mMaxLevel 0 result
      = none := by
    intro result
    show getPredecessorLoop s (mHasher T v) v fuel ((mMaxLevel - 1) + 1) 0 result = none
    rw [getPredecessorLoop, hadv]
    rfl
  unfold getPredecessor
  rw [wf.head, Option.some_bind]
  simp only [getNodeLevel, hn0, Option.map_some', Option.some_bind, hlen]
  exact hloop _

/-! ## Reachable states -/

theorem insertLoop_bound {V : Type} (preds : List (Option Nat)) (node : Nat) :
    ∀ (k i : Nat) (s s1 : State V), insertLoop preds node k i s = some s1 → k = 0 ∨
      i + k ≤ preds.length := by
  intro k
  induction k with
  | zero => intro i s s1 _; exact Or.inl rfl
  | succ k ih =>
    intro i s s1 h
    right
    rw [insertLoop] at h
    cases hp : preds.get? i with
    | none => rw [hp] at h; exact Option.noConfusion h
    | some p =>
      have hi : i < preds.length := (List.get?_eq_some.mp hp).1
      rw [hp] at h
      cases p with
      | none => exact Option.noConfusion h
      | some pred =>
        simp only [Option.some_bind] at h
        cases hx : s.index pred i with
        | none => rw [hx] at h; exact Option.noConfusion h
        | some next =>
          rw [hx] at h
          simp only [Option.some_bind] at h
          cases hs1 : s.setIndex node i next with
          | none => rw [hs1] at h; exact Option.noConfusion h
          | some s2 =>
            rw [hs1] at h
            simp only [Option.some_bind] at h
            cases hs2 : s2.setIndex pred i (some node) with
            | none => rw [hs2] at h; exact Option.noConfusion h
            | some s3 =>
              rw [hs2] at h
              simp only [Option.some_bind] at h
              rcases ih (i + 1) s3 s1 h with h0 | h0
              · omega
              · omega

/-- An `insert` that has an outcome on a well-formed state was given a searchable value and
a level of at most `mMaxLevel`, and its outcome is the one described by `insert_spec`. -/
theorem insert_some_wf {V : Type} [DecidableEq V] {T : ValueTraits V} {s s1 : State V}
    {L : List Nat} (wf : WF T s L) (v : V) (fuel level : Nat)
    (h : insert T fuel s v level = some s1) :
    Searchable T v ∧ level ≤ mMaxLevel ∧
      WF T s1 (if level = 0 then L else
        (locate s (mHasher T v) v L).1 ++ s.heap.length :: (locate s (mHasher T v) v L).2) ∧
      s1.heap.length = s.heap.length + 1 ∧
      ∀ b, s1.info b = if b = s.heap.length then some (mHasher T v, v, level) else s.info b := by
  have hs : Searchable T v := by
    by_contra hc
    unfold insert at h
    rw [getPredecessor_unsearchable wf v hc fuel] at h
    exact Option.noConfusion h
  have hmono := insert_mono T s s1 v level fuel (L.length + 1) h
  have hlev : level ≤ mMaxLevel := by
    obtain ⟨preds, hp1, hp2, -⟩ := getPredecessor_spec wf v hs (fuel + (L.length + 1))
      (by omega)
    unfold insert at hmono
    rw [hp1, Option.some_bind] at hmono
    rcases insertLoop_bound preds _ level 0 _ s1 hmono with h0 | h0
    · omega
    · omega
  obtain ⟨s2, e0, e1, e2, e3⟩ := insert_spec wf v hs (fuel + (L.length + 1)) (by omega)
    level hlev
  rw [hmono] at e0
  cases e0
  exact ⟨hs, hlev, e1, e2, e3⟩

/-- An `erase` that has an outcome on a well-formed state was given a searchable value, and
its outcome is the one described by `erase_spec`. -/
theorem erase_some_wf {V : Type} [DecidableEq V] {T : ValueTraits V} {s s1 : State V}
    {L : List Nat} (wf : WF T s L) (v : V) (fuel : Nat)
    (h : erase T fuel s v = some s1) :
    Searchable T v ∧ (victim s (mHasher T v) v L = none → s1 = s) ∧
      (∀ b, victim s (mHasher T v) v L = some b →
        WF T s1 (L.erase b) ∧ ∀ a, s1.info a = if a = b then none else s.info a) := by
  have hs : Searchable T v := by
    by_contra hc
    unfold erase at h
    rw [getPredecessor_unsearchable wf v hc fuel] at h
    exact Option.noConfusion h
  have hmono := erase_mono T s s1 v fuel (L.length + 1) h
  obtain ⟨s2, e0, e1, e2⟩ := erase_spec wf v hs (fuel + (L.length + 1)) (by omega)
  rw [hmono] at e0
  cases e0
  exact ⟨hs, e1, e2⟩

/-- Every reachable state is well-formed. -/
theorem reachable_wf {V : Type} [DecidableEq V] (T : ValueTraits V) (s : State V)
    (h : Reachable T s) : ∃ L, WF T s L := by
  induction h with
  | empty => exact ⟨[], empty_wf T⟩
  | insert s s1 fuel value level _ _ hins ih =>
    obtain ⟨L, wf⟩ := ih
    exact ⟨_, (insert_some_wf wf value fuel level hins).2.2.1⟩
  | erase s s1 fuel value _ her ih =>
    obtain ⟨L, wf⟩ := ih
    obtain ⟨-, e1, e2⟩ := erase_some_wf wf value fuel her
    cases hv : victim s (mHasher T value) value L with
    | none => rw [e1 hv]; exact ⟨L, wf⟩
    | some b => exact ⟨_, (e2 b hv).1⟩

/-! ## Entries of the traversal -/

/-- The stored nodes fit between the sentinels and the end of the free store. -/
theorem wf_length {V : Type} {T : ValueTraits V} {s : State V} {L : List Nat}
    (wf : WF T s L) : L.length + 2 ≤ s.heap.length := by
  have hsub : L.toFinset ⊆ Finset.Ico 2 s.heap.length := by
    intro a ha
    rw [List.mem_toFinset] at ha
    rw [Finset.mem_Ico]
    exact ⟨(wf.nodes a ha).1, wf_lt wf a (by simp [ha])⟩
  have hcard := Finset.card_le_card hsub
  rw [List.toFinset_card_of_nodup wf.nodup, Nat.card_Ico] at hcard
  have h1 := wf_lt wf 1 (by simp)
  omega

theorem entries_append {V : Type} (s : State V) (X Y : List Nat) :
    entries s (X ++ Y) = entries s X ++ entries s Y := by
  unfold entries; rw [List.filterMap_append]

theorem entries_cons {V : Type} (s : State V) (a : Nat) (X : List Nat) (k l : Nat) (v : V)
    (h : s.info a = some (k, v, l)) : entries s (a :: X) = ⟨k, v, l⟩ :: entries s X := by
  unfold entries; rw [List.filterMap_cons, h]; rfl

theorem entries_congr {V : Type} (s s1 : State V) (X : List Nat)
    (h : ∀ a ∈ X, s1.info a = s.info a) : entries s1 X = entries s X := by
  induction X with
  | nil => rfl
  | cons a X ih =>
    unfold entries at *
    rw [List.filterMap_cons, List.filterMap_cons, h a (List.mem_cons_self _ _),
      ih (fun b hb => h b (List.mem_cons_of_mem _ hb))]

theorem mem_entries {V : Type} (s : State V) (X : List Nat) (a k l : Nat) (v : V)
    (ha : a ∈ X) (h : s.info a = some (k, v, l)) : (⟨k, v, l⟩ : Entry V) ∈ entries s X := by
  unfold entries
  rw [List.mem_filterMap]
  exact ⟨a, ha, by rw [h]; rfl⟩

theorem entries_keys {V : Type} {T : ValueTraits V} {s : State V} {L : List Nat}
    (wf : WF T s L) (X : List Nat) (hX : ∀ a ∈ X, a ∈ L) :
    (entries s X).map Entry.key = X.map s.keyOf := by
  induction X with
  | nil => rfl
  | cons a X ih =>
    obtain ⟨-, k, v, l, hinfo, -⟩ := wf.nodes a (hX a (List.mem_cons_self _ _))
    rw [entries_cons s a X k l v hinfo, List.map_cons, List.map_cons,
      ih (fun b hb => hX b (List.mem_cons_of_mem _ hb))]
    unfold State.keyOf
    rw [hinfo]

theorem entries_length {V : Type} {T : ValueTraits V} {s : State V} {L : List Nat}
    (wf : WF T s L) : (entries s L).length = L.length := by
  have h := congrArg List.length (entries_keys wf L (fun a ha => ha))
  simpa using h

/-- The victim, when there is one, is a stored node that holds the value; the stored nodes
split around it at the final position of the search. -/
theorem victim_some {V : Type} [DecidableEq V] {s : State V} {key : Nat} {v : V}
    {L : List Nat} {b : Nat} (h : victim s key v L = some b) :
    ∃ B k l, (locate s key v L).2 = b :: B ∧ (locate s key v L).1 ++ b :: B = L ∧
      s.info b = some (k, v, l) := by
  unfold victim at h
  have hloc := (locate_spec s key v L).1
  cases hB : (locate s key v L).2 with
  | nil => rw [hB] at h; exact Option.noConfusion h
  | cons y ys =>
    rw [hB] at h hloc
    simp only [List.head?_cons, Option.some_bind] at h
    cases hi : s.info y with
    | none => rw [hi] at h; exact Option.noConfusion h
    | some x =>
      obtain ⟨k, w, l⟩ := x
      rw [hi] at h
      simp only [Option.some_bind] at h
      split_ifs at h with hw
      cases h
      subst hw
      exact ⟨ys, k, l, rfl, hloc, hi⟩

theorem victim_none_of_not_stored {V : Type} [DecidableEq V] {s : State V}
    {L : List Nat} (key : Nat) (v : V)
    (h : ∀ e ∈ entries s L, e.value ≠ v) : victim s key v L = none := by
  cases hv : victim s key v L with
  | none => rfl
  | some b =>
    obtain ⟨B, k, l, -, hL, hinfo⟩ := victim_some hv
    exact absurd rfl (h _ (mem_entries s L b k l v (by rw [← hL]; simp) hinfo))

/-- The result of `find` in terms of the victim. -/
theorem find_victim {V : Type} [DecidableEq V] {T : ValueTraits V} {s : State V}
    {L : List Nat} (wf : WF T s L) (v : V) (hs : Searchable T v) (fuel : Nat)
    (hf : L.length < fuel) :
    find T fuel s v = some ((victim s (mHasher T v) v L).map fun _ => v) := by
  rw [find_spec wf v hs fuel hf]
  unfold victim
  cases (locate s (mHasher T v) v L).2.head? with
  | none => rfl
  | some b =>
    simp only [Option.some_bind]
    cases hi : s.info b with
    | none => rfl
    | some x =>
      simp only [Option.some_bind]
      split_ifs <;> rfl

/-! ## The search after `insert` -/

theorem passes_congr {V : Type} [DecidableEq V] (s s1 : State V) (key : Nat) (v : V) (a : Nat)
    (h : s1.info a = s.info a) : passes s1 key v a = passes s key v a := by
  unfold passes; rw [h]

/-- After `insert(v)` with a positive level, the search for `v` ends where it ended before,
now with the new node first ahead. -/
theorem locate_insert {V : Type} [DecidableEq V] {T : ValueTraits V} {s s1 : State V}
    {L : List Nat} (wf : WF T s L) (v : V) (level : Nat)
    (hinfo : ∀ b, s1.info b =
      if b = s.heap.length then some (mHasher T v, v, level) else s.info b) :
    locate s1 (mHasher T v) v
        ((locate s (mHasher T v) v L).1 ++ s.heap.length :: (locate s (mHasher T v) v L).2)
      = ((locate s (mHasher T v) v L).1, s.heap.length :: (locate s (mHasher T v) v L).2) := by
  have hstop : passes s1 (mHasher T v) v s.heap.length = false := by
    unfold passes
    rw [hinfo, if_pos rfl]
    simp
  have hag : ∀ x ∈ L, (∀ j, above s1 j x = above s j x) ∧
      passes s1 (mHasher T v) v x = passes s (mHasher T v) v x := by
    intro x hx
    have hne : x ≠ s.heap.length := Nat.ne_of_lt (wf_lt wf x (by simp [hx]))
    have hi : s1.info x = s.info x := by rw [hinfo, if_neg hne]
    exact ⟨fun j => above_congr s s1 j x hi, passes_congr s s1 _ v x hi⟩
  obtain ⟨M, e1, e2, e3⟩ := descend_insert (above s) (above s1) (passes s (mHasher T v) v)
    (passes s1 (mHasher T v) v) s.heap.length hstop mMaxLevel [] L hag
  unfold locate
  rw [List.nil_append] at e1
  rw [← e1] at e3
  exact e3


/-! ## Properties of every reachable state -/

/-- On every reachable state the traversal is defined and lists the entries in
non-decreasing key order. -/
theorem traversal_sorted {V : Type} [DecidableEq V] (T : ValueTraits V) (s : State V)
    (h : Reachable T s) (fuel : Nat) (hf : s.heap.length ≤ fuel) :
    ∃ out, traversal fuel s = some out ∧ (out.map Entry.key).Pairwise (· ≤ ·) := by
  obtain ⟨L, wf⟩ := reachable_wf T s h
  have hlen := wf_length wf
  refine ⟨entries s L, traversal_spec wf fuel (by omega), ?_⟩
  rw [entries_keys wf L (fun a ha => ha), List.pairwise_map]
  exact wf.sorted

/-- On every reachable state, `find` of a searchable value that no entry of the traversal
stores returns `std::nullopt`. -/
theorem find_absent_of_not_stored {V : Type} [DecidableEq V] (T : ValueTraits V) (s : State V)
    (h : Reachable T s) (v : V) (hs : Searchable T v) (fuel : Nat)
    (hf : s.heap.length ≤ fuel) :
    ∃ out, traversal fuel s = some out ∧
      ((∀ e ∈ out, e.value ≠ v) → find T fuel s v = some none) := by
  obtain ⟨L, wf⟩ := reachable_wf T s h
  have hlen := wf_length wf
  refine ⟨entries s L, traversal_spec wf fuel (by omega), fun hv => ?_⟩
  rw [find_victim wf v hs fuel (by omega), victim_none_of_not_stored _ v hv]
  rfl

/-- On every reachable state, `erase` of a searchable value that no entry of the traversal
stores returns the state unchanged. -/
theorem erase_noop_of_not_stored {V : Type} [DecidableEq V] (T : ValueTraits V) (s : State V)
    (h : Reachable T s) (v : V) (hs : Searchable T v) (fuel : Nat)
    (hf : s.heap.length ≤ fuel) :
    ∃ out, traversal fuel s = some out ∧
      ((∀ e ∈ out, e.value ≠ v) → erase T fuel s v = some s) := by
  obtain ⟨L, wf⟩ := reachable_wf T s h
  have hlen := wf_length wf
  refine ⟨entries s L, traversal_spec wf fuel (by omega), fun hv => ?_⟩
  obtain ⟨s1, e0, e1, -⟩ := erase_spec wf v hs fuel (by omega)
  rw [e0, e1 (victim_none_of_not_stored _ v hv)]

/-- On every reachable state, `erase` of a searchable value deletes at most one entry from
the traversal, one that stores the value, and leaves the other entries as they were. -/
theorem erase_traversal {V : Type} [DecidableEq V] (T : ValueTraits V) (s : State V)
    (h : Reachable T s) (v : V) (hs : Searchable T v) (fuel : Nat)
    (hf : s.heap.length ≤ fuel) :
    ∃ s1 out out1, erase T fuel s v = some s1 ∧ traversal fuel s = some out ∧
      traversal fuel s1 = some out1 ∧
      (out1 = out ∨ ∃ X e Y, out = X ++ e :: Y ∧ out1 = X ++ Y ∧ e.value = v) := by
  obtain ⟨L, wf⟩ := reachable_wf T s h
  have hlen := wf_length wf
  obtain ⟨s1, e0, e1, e2⟩ := erase_spec wf v hs fuel (by omega)
  cases hv : victim s (mHasher T v) v L with
  | none =>
    have := e1 hv
    subst this
    exact ⟨s1, entries s1 L, entries s1 L, e0, traversal_spec wf fuel (by omega),
      traversal_spec wf fuel (by omega), Or.inl rfl⟩
  | some b =>
    obtain ⟨wf1, hinfo1⟩ := e2 b hv
    obtain ⟨B, k, l, hB, hL, hinfo⟩ := victim_some hv
    have hnd := wf.nodup
    rw [← hL] at hnd
    have hnd1 := List.nodup_middle.mp hnd
    have hnb : ∀ a ∈ (locate s (mHasher T v) v L).1 ++ B, a ≠ b := fun a ha hc =>
      (List.nodup_cons.mp hnd1).1 (hc ▸ ha)
    have herase : L.erase b = (locate s (mHasher T v) v L).1 ++ B := by
      have h6 : ((locate s (mHasher T v) v L).1 ++ b :: B).erase b
          = (locate s (mHasher T v) v L).1 ++ B := by
        rw [List.erase_append_right _ (fun hc => hnb b (List.mem_append_left _ hc) rfl),
          List.erase_cons_head]
      rwa [hL] at h6
    have hlen1 : (L.erase b).length < fuel := by
      have := List.length_erase_le b L; omega
    refine ⟨s1, entries s L, entries s1 (L.erase b), e0, traversal_spec wf fuel (by omega),
      traversal_spec wf1 fuel hlen1, Or.inr ⟨entries s (locate s (mHasher T v) v L).1,
        ⟨k, v, l⟩, entries s B, ?_, ?_, rfl⟩⟩
    · conv_lhs => rw [← hL]
      rw [entries_append, entries_cons s b B k l v hinfo]
    · rw [herase, entries_congr s s1 _ (fun a ha => by rw [hinfo1, if_neg (hnb a ha)]),
        entries_append]

/-- On every reachable state whose traversal stores a searchable value at most once, `erase`
followed by `find` of that value returns `std::nullopt`. -/
theorem find_absent_after_erase {V : Type} [DecidableEq V] (T : ValueTraits V) (s : State V)
    (h : Reachable T s) (v : V) (hs : Searchable T v) (fuel : Nat)
    (hf : s.heap.length ≤ fuel) :
    ∃ out, traversal fuel s = some out ∧
      ((out.filter fun e => decide (e.value = v)).length ≤ 1 →
        ∃ s1, erase T fuel s v = some s1 ∧ find T fuel s1 v = some none) := by
  obtain ⟨L, wf⟩ := reachable_wf T s h
  have hlen := wf_length wf
  refine ⟨entries s L, traversal_spec wf fuel (by omega), fun hcount => ?_⟩
  obtain ⟨s1, e0, e1, e2⟩ := erase_spec wf v hs fuel (by omega)
  refine ⟨s1, e0, ?_⟩
  cases hv : victim s (mHasher T v) v L with
  | none =>
    have := e1 hv
    subst this
    rw [find_victim wf v hs fuel (by omega), hv]
    rfl
  | some b =>
    obtain ⟨wf1, hinfo1⟩ := e2 b hv
    obtain ⟨B, k, l, hB, hL, hinfo⟩ := victim_some hv
    have hnd := wf.nodup
    rw [← hL] at hnd
    have hnd1 := List.nodup_middle.mp hnd
    have hnb : ∀ a ∈ (locate s (mHasher T v) v L).1 ++ B, a ≠ b := fun a ha hc =>
      (List.nodup_cons.mp hnd1).1 (hc ▸ ha)
    have herase : L.erase b = (locate s (mHasher T v) v L).1 ++ B := by
      have h6 : ((locate s (mHasher T v) v L).1 ++ b :: B).erase b
          = (locate s (mHasher T v) v L).1 ++ B := by
        rw [List.erase_append_right _ (fun hc => hnb b (List.mem_append_left _ hc) rfl),
          List.erase_cons_head]
      rwa [hL] at h6
    have hlen1 : (L.erase b).length < fuel := by
      have := List.length_erase_le b L; omega
    have hsplit : entries s L = entries s (locate s (mHasher T v) v L).1 ++
        ⟨k, v, l⟩ :: entries s B := by
      conv_lhs => rw [← hL]
      rw [entries_append, entries_cons s b B k l v hinfo]
    have hrest : entries s1 (L.erase b) = entries s (locate s (mHasher T v) v L).1 ++
        entries s B := by
      rw [herase, entries_congr s s1 _ (fun a ha => by rw [hinfo1, if_neg (hnb a ha)]),
        entries_append]
    rw [find_victim wf1 v hs fuel hlen1, victim_none_of_not_stored _ v]
    · rfl
    · intro e he hev
      rw [hrest] at he
      rw [hsplit, List.filter_append, List.filter_cons_of_pos (by simp), List.length_append,
        List.length_cons] at hcount
      have hpos : 0 < ((entries s (locate s (mHasher T v) v L).1).filter
          fun e => decide (e.value = v)).length +
          ((entries s B).filter fun e => decide (e.value = v)).length := by
        rcases List.mem_append.mp he with h1 | h1
        · have : e ∈ (entries s (locate s (mHasher T v) v L).1).filter
              fun e => decide (e.value = v) := List.mem_filter.mpr ⟨h1, by simpa using hev⟩
          have := List.length_pos_of_mem this
          omega
        · have : e ∈ (entries s B).filter fun e => decide (e.value = v) :=
            List.mem_filter.mpr ⟨h1, by simpa using hev⟩
          have := List.length_pos_of_mem this
          omega
      omega

/-- On every reachable state, `insert` of a searchable value with a level between 1 and
`mMaxLevel` succeeds and `find` of the value right afterwards returns it. -/
theorem find_after_insert {V : Type} [DecidableEq V] (T : ValueTraits V) (s : State V)
    (h : Reachable T s) (v : V) (hs : Searchable T v) (level : Nat) (h1 : 1 ≤ level)
    (h2 : level ≤ mMaxLevel) (fuel : Nat) (hf : s.heap.length ≤ fuel) :
    ∃ s1, insert T fuel s v level = some s1 ∧ find T fuel s1 v = some (some v) := by
  obtain ⟨L, wf⟩ := reachable_wf T s h
  have hlen := wf_length wf
  obtain ⟨s1, e0, e1, e2, e3⟩ := insert_spec wf v hs fuel (by omega) level h2
  rw [if_neg (by omega)] at e1
  refine ⟨s1, e0, ?_⟩
  have hloc := (locate_spec s (mHasher T v) v L).1
  have hlen1 : ((locate s (mHasher T v) v L).1 ++
      s.heap.length :: (locate s (mHasher T v) v L).2).length = L.length + 1 := by
    conv_rhs => rw [← hloc]
    simp only [List.length_append, List.length_cons]
    omega
  rw [find_spec e1 v hs fuel (by omega), locate_insert wf v level e3]
  simp only [List.head?_cons, Option.some_bind]
  rw [e3, if_pos rfl]
  simp

/-- On every reachable state, `insert` of a searchable value adds one entry to the
traversal when the drawn level is positive and none when it is 0. -/
theorem insert_traversal_length {V : Type} [DecidableEq V] (T : ValueTraits V) (s : State V)
    (h : Reachable T s) (v : V) (hs : Searchable T v) (level : Nat)
    (h2 : level ≤ mMaxLevel) (fuel : Nat) (hf : s.heap.length ≤ fuel) :
    ∃ s1 out out1, insert T fuel s v level = some s1 ∧ traversal fuel s = some out ∧
      traversal fuel s1 = some out1 ∧
      out1.length = out.length + (if level = 0 then 0 else 1) := by
  obtain ⟨L, wf⟩ := reachable_wf T s h
  have hlen := wf_length wf
  obtain ⟨s1, e0, e1, e2, e3⟩ := insert_spec wf v hs fuel (by omega) level h2
  have hloc := (locate_spec s (mHasher T v) v L).1
  have hlen1 : ((locate s (mHasher T v) v L).1 ++
      s.heap.length :: (locate s (mHasher T v) v L).2).length = L.length + 1 := by
    conv_rhs => rw [← hloc]
    simp only [List.length_append, List.length_cons]
    omega
  by_cases h0 : level = 0
  · rw [if_pos h0] at e1
    refine ⟨s1, entries s L, entries s1 L, e0, traversal_spec wf fuel (by omega),
      traversal_spec e1 fuel (by omega), ?_⟩
    rw [if_pos h0, entries_length wf, entries_length e1]
    rfl
  · rw [if_neg h0] at e1
    refine ⟨s1, entries s L, _, e0, traversal_spec wf fuel (by omega),
      traversal_spec e1 fuel (by omega), ?_⟩
    rw [if_neg h0, entries_length wf, entries_length e1, hlen1]

/-- On every reachable state, `insert` of a searchable value that no entry of the traversal
stores, followed by `erase` of that value, gives back the traversal. -/
theorem insert_erase_traversal {V : Type} [DecidableEq V] (T : ValueTraits V) (s : State V)
    (h : Reachable T s) (v : V) (hs : Searchable T v) (level : Nat)
    (h2 : level ≤ mMaxLevel) (fuel : Nat) (hf : s.heap.length ≤ fuel) :
    ∃ out, traversal fuel s = some out ∧
      ((∀ e ∈ out, e.value ≠ v) →
        ∃ s1 s2, insert T fuel s v level = some s1 ∧ erase T fuel s1 v = some s2 ∧
          traversal fuel s2 = some out) := by
  obtain ⟨L, wf⟩ := reachable_wf T s h
  have hlen := wf_length wf
  refine ⟨entries s L, traversal_spec wf fuel (by omega), fun hv => ?_⟩
  obtain ⟨s1, e0, e1, e2, e3⟩ := insert_spec wf v hs fuel (by omega) level h2
  have hloc := (locate_spec s (mHasher T v) v L).1
  have hsame : ∀ a ∈ L, s1.info a = s.info a := fun a ha => by
    rw [e3, if_neg (Nat.ne_of_lt (wf_lt wf a (by simp [ha])))]
  by_cases h0 : level = 0
  · rw [if_pos h0] at e1
    obtain ⟨s2, d0, d1, -⟩ := erase_spec e1 v hs fuel (by omega)
    have hv1 : ∀ e ∈ entries s1 L, e.value ≠ v := by
      rw [entries_congr s s1 L hsame]; exact hv
    have := d1 (victim_none_of_not_stored _ v hv1)
    subst this
    refine ⟨s2, s2, e0, d0, ?_⟩
    rw [traversal_spec e1 fuel (by omega), entries_congr s s2 L hsame]
  · rw [if_neg h0] at e1
    have hlen1 : ((locate s (mHasher T v) v L).1 ++
        s.heap.length :: (locate s (mHasher T v) v L).2).length = L.length + 1 := by
      conv_rhs => rw [← hloc]
      simp only [List.length_append, List.length_cons]
      omega
    obtain ⟨s2, d0, -, d2⟩ := erase_spec e1 v hs fuel (by omega)
    have hvic : victim s1 (mHasher T v) v
        ((locate s (mHasher T v) v L).1 ++ s.heap.length :: (locate s (mHasher T v) v L).2)
        = some s.heap.length := by
      unfold victim
      rw [locate_insert wf v level e3]
      simp only [List.head?_cons, Option.some_bind]
      rw [e3, if_pos rfl]
      simp
    obtain ⟨wf2, hinfo2⟩ := d2 _ hvic
    have hnotin : s.heap.length ∉ (locate s (mHasher T v) v L).1 := fun hc =>
      Nat.lt_irrefl _ (wf_lt wf _ (by
        have := List.mem_append_left (locate s (mHasher T v) v L).2 hc
        rw [hloc] at this
        simp [this]))
    have herase : ((locate s (mHasher T v) v L).1 ++
        s.heap.length :: (locate s (mHasher T v) v L).2).erase s.heap.length = L := by
      rw [List.erase_append_right _ hnotin, List.erase_cons_head, hloc]
    rw [herase] at wf2
    refine ⟨s1, s2, e0, d0, ?_⟩
    rw [traversal_spec wf2 fuel (by omega)]
    congr 1
    apply entries_congr
    intro a ha
    rw [hinfo2, if_neg (Nat.ne_of_lt (wf_lt wf a (by simp [ha]))), hsame a ha]

/-- On every reachable state, the node that `insert` of a searchable value creates has as
many forward pointers as the level drawn: at most `mMaxLevel - 1`, and none when 0 is
drawn. -/
theorem insert_node_level {V : Type} [DecidableEq V] (T : ValueTraits V) (s : State V)
    (h : Reachable T s) (v : V) (hs : Searchable T v) (level : Nat)
    (h2 : isRandomLevel level) (fuel : Nat) (hf : s.heap.length ≤ fuel) :
    ∃ s1, insert T fuel s v level = some s1 ∧
      getNodeLevel s1 s.heap.length = some level ∧ level ≤ mMaxLevel - 1 := by
  obtain ⟨L, wf⟩ := reachable_wf T s h
  have hlen := wf_length wf
  have h3 : level ≤ mMaxLevel := Nat.le_trans h2 (Nat.sub_le _ _)
  obtain ⟨s1, e0, -, -, e3⟩ := insert_spec wf v hs fuel (by omega) level h3
  have hi := e3 s.heap.length
  rw [if_pos rfl] at hi
  obtain ⟨n, hn, -, -, hl⟩ := info_eq_some hi
  exact ⟨s1, e0, by simp [getNodeLevel, hn, hl], h2⟩

/-! ## The claims, on concrete inputs -/

/-- C1: in a `SkipList<int>`, `insert(7)` with drawn level 0 (a value the binomial sample can
take) followed by `find(7)` gives `std::nullopt`, not a present result. -/
theorem find_after_insert_level_zero : isRandomLevel 0 ∧
    ∀ fuel : Nat, (insert intTraits (fuel + 1) (empty intTraits) 7 0).bind
      (fun s => find intTraits (fuel + 1) s 7) = some none :=
  ⟨by decide, fun _ => rfl⟩

/-- C2: in an empty `SkipList<int>`, `find(-1)` (never inserted; its key is the key of `mNil`)
steps onto `mNil` and dereferences its null forward pointer: no result for any fuel. -/
theorem find_tail_key_undefined :
    mHasher intTraits (-1) = keyMax ∧ ∀ fuel : Nat, find intTraits fuel (empty intTraits) (-1) = none := by
  refine ⟨by decide, fun fuel => ?_⟩
  rcases fuel with _ | _ | _ <;> rfl

/-- C3: with the colliding values `-3333` and `std::nullopt` of `std::optional<int>`,
`insert(-3333)` at level 1 then `insert(std::nullopt)` at level 2 leaves both nodes in the
list, yet `find(-3333)` gives `std::nullopt` (no match) while `find(std::nullopt)` gives a
match. -/
theorem find_hidden_by_collision :
    mHasher optionalIntTraits (some (-3333)) = mHasher optionalIntTraits none ∧
    ∀ fuel : Nat,
      (insertAll optionalIntTraits (fuel + 2) (empty optionalIntTraits)
          [(some (-3333), 1), (none, 2)]).bind
        (fun s => (traversal (fuel + 3) s).bind fun out =>
          (find optionalIntTraits (fuel + 2) s (some (-3333))).bind fun r =>
            (find optionalIntTraits (fuel + 2) s none).map fun r1 =>
              (out.map Entry.value, r.isSome, r1.isSome))
      = some ([some (-3333), none], false, true) :=
  ⟨by decide, fun _ => rfl⟩

/-- C4: `insert(7)` with drawn level 0 creates a node (at address 2) whose level count,
`getNodeLevel`, is 0: below the claimed lower bound 1. -/
theorem insert_level_zero_node : isRandomLevel 0 ∧
    ∀ fuel : Nat, (insert intTraits (fuel + 1) (empty intTraits) 7 0).bind
      (fun s => getNodeLevel s 2) = some 0 :=
  ⟨by decide, fun _ => rfl⟩

/-- C5: in a `SkipList<int>`, the one-value sequence `-1` cannot be inserted at all: whatever
level is drawn, `insert(-1)` runs into the null forward pointer of `mNil`, so no traversal
follows. -/
theorem insert_tail_key_undefined :
    ∀ fuel level : Nat, insertAll intTraits fuel (empty intTraits) [(-1, level)] = none := by
  intro fuel level
  rcases fuel with _ | _ | _ <;> rfl

/-- C6: `insert(7)` with drawn level 0 leaves the traversal as it was (empty before and
after): the number of entries does not grow. -/
theorem traversal_after_insert_level_zero : isRandomLevel 0 ∧
    ∀ fuel : Nat, traversal (fuel + 1) (empty intTraits) = some [] ∧
      (insert intTraits (fuel + 1) (empty intTraits) 7 0).bind (traversal (fuel + 1))
        = some [] :=
  ⟨by decide, fun _ => ⟨rfl, rfl⟩⟩

/-- C7: on the list of `main` (values 1 to 5), `insert(-1)` has no defined outcome, so
`insert(-1); erase(-1)` does not bring the traversal back. -/
theorem insert_erase_tail_key_undefined :
    sample.bind (traversal 8) =
      some [⟨1, 1, 1⟩, ⟨2, 2, 3⟩, ⟨3, 3, 1⟩, ⟨4, 4, 2⟩, ⟨5, 5, 1⟩] ∧
    ∀ fuel level : Nat, sample.bind (fun s => (insert intTraits fuel s (-1) level).bind
      fun s1 => erase intTraits fuel s1 (-1)) = none := by
  refine ⟨by decide, fun fuel level => ?_⟩
  rcases fuel with _ | _ | _ <;> rfl

/-- C8: on the list of `main`, where no node stores `-1`, `erase(-1)` followed by `find(-1)`
yields no result at all (not `std::nullopt`). -/
theorem erase_find_tail_key_undefined :
    sample.bind (traversal 8) =
      some [⟨1, 1, 1⟩, ⟨2, 2, 3⟩, ⟨3, 3, 1⟩, ⟨4, 4, 2⟩, ⟨5, 5, 1⟩] ∧
    ∀ fuel : Nat, sample.bind (fun s => (erase intTraits fuel s (-1)).bind
      fun s1 => find intTraits fuel s1 (-1)) = none := by
  refine ⟨by decide, fun fuel => ?_⟩
  rcases fuel with _ | _ | _ <;> rfl

/-- C9: on an empty `SkipList<int>` (nothing stored), `erase(-1)` is not a no-op: it
dereferences the null forward pointer of `mNil`. -/
theorem erase_tail_key_undefined :
    traversal 1 (empty intTraits) = some [] ∧
    ∀ fuel : Nat, erase intTraits fuel (empty intTraits) (-1) = none := by
  refine ⟨rfl, fun fuel => ?_⟩
  rcases fuel with _ | _ | _ <;> rfl

/-- C10: on the list of `main`, `erase(-1)` reaches no state from which a traversal could be
taken. -/
theorem traversal_after_erase_tail_key_undefined :
    sample.bind (traversal 8) =
      some [⟨1, 1, 1⟩, ⟨2, 2, 3⟩, ⟨3, 3, 1⟩, ⟨4, 4, 2⟩, ⟨5, 5, 1⟩] ∧
    ∀ fuel fuel1 : Nat, sample.bind (fun s => (erase intTraits fuel s (-1)).bind
      (traversal fuel1)) = none := by
  refine ⟨by decide, fun fuel fuel1 => ?_⟩
  rcases fuel with _ | _ | _ <;> rfl

/-! ## Further lemmas on well-formed states -/

/-- What a call of `getPredecessor` that has an outcome returns on a well-formed state. -/
theorem getPredecessor_some_wf {V : Type} [DecidableEq V] {T : ValueTraits V} {s : State V}
    {L : List Nat} (wf : WF T s L) (v : V) (fuel : Nat) (preds : List (Option Nat))
    (h : getPredecessor T fuel s v = some preds) :
    Searchable T v ∧ preds.length = mMaxLevel ∧
      ∀ j, j < mMaxLevel → preds.get? j = some (some (lastFrom 0
        ((locate s (mHasher T v) v L).1.filter (above s j)))) := by
  have hs : Searchable T v := by
    by_contra hc
    rw [getPredecessor_unsearchable wf v hc fuel] at h
    exact Option.noConfusion h
  have hmono := getPredecessor_mono T s v fuel (L.length + 1) preds h
  obtain ⟨preds1, e0, e1, e2⟩ := getPredecessor_spec wf v hs (fuel + (L.length + 1)) (by omega)
  rw [hmono] at e0
  cases e0
  exact ⟨hs, e1, e2⟩

theorem linked_onChain {V : Type} (s : State V) (i : Nat) :
    ∀ (Y : List Nat) (c : Nat), Linked s i c Y → OnChain s i c → ∀ y ∈ c :: Y, OnChain s i y := by
  intro Y
  induction Y with
  | nil =>
    intro c _ hc y hy
    rw [List.mem_singleton] at hy
    rw [hy]; exact hc
  | cons b bs ih =>
    intro c hl hc y hy
    rcases List.mem_cons.mp hy with h | h
    · rw [h]; exact hc
    · exact ih b hl.2 (OnChain.next c b hc hl.1) y h

theorem mem_entries_iff {V : Type} (s : State V) (X : List Nat) (e : Entry V) :
    e ∈ entries s X ↔ ∃ a ∈ X, s.info a = some (e.key, e.value, e.level) := by
  unfold entries
  rw [List.mem_filterMap]
  constructor
  · rintro ⟨a, ha, h⟩
    refine ⟨a, ha, ?_⟩
    cases hi : s.info a with
    | none => rw [hi] at h; exact Option.noConfusion h
    | some x =>
      rw [hi] at h
      simp only [Option.map_some', Option.some.injEq] at h
      rw [← h]
  · rintro ⟨a, ha, h⟩
    exact ⟨a, ha, by rw [h]; rfl⟩

/-- When no stored node shares the key looked for with another value, every node behind
the final position of the search has a smaller key. -/
theorem locate_behind_lt {V : Type} [DecidableEq V] {T : ValueTraits V} {s : State V}
    {L : List Nat} (wf : WF T s L) (key : Nat) (v : V)
    (hinj : ∀ a ∈ L, ∀ k w l, s.info a = some (k, w, l) → k = key → w = v) :
    ∀ a ∈ (locate s key v L).1, s.keyOf a < key := by
  intro a ha
  obtain ⟨hloc, -⟩ := locate_spec s key v L
  have hlast : (locate s key v L).1 = [] ∨
      passes s key v (lastFrom 0 (locate s key v L).1) = true := by
    unfold locate
    exact descend_last (above s) (passes s key v) mMaxLevel [] L (Or.inl rfl)
  rcases hlast with h | h
  · rw [h] at ha; simp at ha
  · have hmemA : lastFrom 0 (locate s key v L).1 ∈ (locate s key v L).1 := by
      rcases lastFrom_mem 0 (locate s key v L).1 with h1 | h1
      · rw [h1.2] at ha; simp at ha
      · exact h1
    have hmemL : lastFrom 0 (locate s key v L).1 ∈ L := by
      have := List.mem_append_left (locate s key v L).2 hmemA
      rwa [hloc] at this
    have hlt : s.keyOf (lastFrom 0 (locate s key v L).1) < key := by
      obtain ⟨-, k, w, l, hinfo, -⟩ := wf.nodes _ hmemL
      unfold passes at h
      unfold State.keyOf
      rw [hinfo] at h ⊢
      simp only [decide_eq_true_eq] at h
      rcases h with h1 | h1
      · exact h1
      · exact absurd (hinj _ hmemL k w l hinfo h1.1) h1.2
    have hs := wf.sorted
    rw [← hloc] at hs
    rcases pairwise_le_last _ 0 _ (List.pairwise_append.mp hs).1 a ha with h1 | h1
    · rw [h1]; exact hlt
    · exact Nat.lt_of_le_of_lt h1 hlt

theorem index_lt_level {V : Type} {s : State V} {a j : Nat} {q : Option Nat}
    (h : s.index a j = some q) : j < s.level a := by
  obtain ⟨n, hn, -, hj⟩ := index_eq_some h
  unfold State.level State.info
  rw [hn]
  exact hj

/-- In every reachable state `mNil` has `mMaxLevel` forward pointers. -/
theorem reachable_wf_nil {V : Type} [DecidableEq V] (T : ValueTraits V) (s : State V)
    (h : Reachable T s) : ∃ L, WF T s L ∧ s.level 1 = mMaxLevel := by
  induction h with
  | empty => exact ⟨[], empty_wf T, rfl⟩
  | insert s s1 fuel value level _ _ hins ih =>
    obtain ⟨L, wf, hl⟩ := ih
    obtain ⟨-, -, wf1, -, hinfo⟩ := insert_some_wf wf value fuel level hins
    refine ⟨_, wf1, ?_⟩
    unfold State.level at hl ⊢
    rw [hinfo, if_neg (Nat.ne_of_lt (wf_lt wf 1 (by simp)))]
    exact hl
  | erase s s1 fuel value _ her ih =>
    obtain ⟨L, wf, hl⟩ := ih
    obtain ⟨-, e1, e2⟩ := erase_some_wf wf value fuel her
    cases hv : victim s (mHasher T value) value L with
    | none => rw [e1 hv]; exact ⟨L, wf, hl⟩
    | some b =>
      obtain ⟨wf1, hinfo⟩ := e2 b hv
      refine ⟨_, wf1, ?_⟩
      obtain ⟨B, k, l, -, hL, -⟩ := victim_some hv
      have hb2 := (wf.nodes b (by rw [← hL]; simp)).1
      unfold State.level at hl ⊢
      rw [hinfo, if_neg (by omega)]
      exact hl

theorem linked_succ {V : Type} (s : State V) (j : Nat) :
    ∀ (Y : List Nat) (c : Nat), Linked s j c Y →
      ∀ a ∈ c :: Y, ∃ b, s.index a j = some (some b) ∧ b ∈ 1 :: Y := by
  intro Y
  induction Y with
  | nil =>
    intro c hl a ha
    rw [List.mem_singleton] at ha
    subst ha
    exact ⟨1, hl, List.mem_cons_self _ _⟩
  | cons y ys ih =>
    intro c hl a ha
    rcases List.mem_cons.mp ha with h | h
    · subst h
      exact ⟨y, hl.1, by simp⟩
    · obtain ⟨b, hb1, hb2⟩ := ih y hl.2 a h
      refine ⟨b, hb1, ?_⟩
      rcases List.mem_cons.mp hb2 with h1 | h1
      · rw [h1]; simp
      · simp [h1]

/-- On a well-formed state a non-null forward pointer of a sentinel or stored node leads
to a stored node of that level or to `mNil`, and its owner is `mHead` or a stored node of
that level. -/
theorem wf_link {V : Type} {T : ValueTraits V} {s : State V} {L : List Nat}
    (wf : WF T s L) (hnil : s.level 1 = mMaxLevel) (a j b : Nat) (ha : a ∈ 0 :: 1 :: L)
    (h : s.index a j = some (some b)) :
    j < mMaxLevel ∧ a ∈ 0 :: L.filter (above s j) ∧ b ∈ 1 :: L.filter (above s j) := by
  have hlev := index_lt_level h
  have hj : j < mMaxLevel := by
    rcases List.mem_cons.mp ha with h0 | h0
    · rw [h0, level_head wf] at hlev; exact hlev
    · rcases List.mem_cons.mp h0 with h1 | h1
      · rw [h1, hnil] at hlev; exact hlev
      · obtain ⟨-, k, w, l, hinfo, -, hl, -⟩ := wf.nodes a h1
        rw [level_of_info hinfo] at hlev
        omega
  have ha1 : a ≠ 1 := by
    rintro rfl
    rw [wf.nilLinks j hj] at h
    simp at h
  have hmem : a ∈ 0 :: L.filter (above s j) := by
    rcases List.mem_cons.mp ha with h0 | h0
    · rw [h0]; simp
    · rcases List.mem_cons.mp h0 with h1 | h1
      · exact absurd h1 ha1
      · exact List.mem_cons_of_mem _ (List.mem_filter.mpr ⟨h1, by simpa [above] using hlev⟩)
  obtain ⟨b1, hb1, hb2⟩ := linked_succ s j _ 0 (wf.linked j hj) a hmem
  rw [h] at hb1
  simp only [Option.some.injEq] at hb1
  rw [hb1]
  exact ⟨hj, hmem, hb2⟩

/-- On a well-formed state everything reachable from `mHead` is a sentinel or a stored
node. -/
theorem reaches_mem {V : Type} {T : ValueTraits V} {s : State V} {L : List Nat}
    (wf : WF T s L) (hnil : s.level 1 = mMaxLevel) (a : Nat) (h : Reaches s a) :
    a ∈ 0 :: 1 :: L := by
  induction h with
  | head a ha =>
    rw [wf.head] at ha
    cases ha
    simp
  | step a b j _ hidx ih =>
    obtain ⟨-, -, hb⟩ := wf_link wf hnil a j b ih hidx
    rcases List.mem_cons.mp hb with h1 | h1
    · rw [h1]; simp
    · exact List.mem_cons_of_mem _ (List.mem_cons_of_mem _ (List.mem_of_mem_filter h1))

/-- On a chain without repetition the only node whose pointer leads to `b` is the one
right before `b`. -/
theorem linked_pred_unique {V : Type} (s : State V) (i b : Nat) (Y : List Nat)
    (hb1 : b ≠ 1) :
    ∀ (X : List Nat) (c : Nat), Linked s i c (X ++ b :: Y) → (c :: (X ++ b :: Y)).Nodup →
      ∀ a ∈ c :: (X ++ b :: Y), s.index a i = some (some b) → a = lastFrom c X := by
  intro X
  induction X with
  | nil =>
    intro c hl hnd a ha hidx
    simp only [List.nil_append] at hl hnd ha
    rcases List.mem_cons.mp ha with h | h
    · exact h
    · exfalso
      obtain ⟨b1, e1, e2⟩ := linked_succ s i Y b hl.2 a h
      rw [hidx] at e1
      simp only [Option.some.injEq] at e1
      rw [← e1] at e2
      rcases List.mem_cons.mp e2 with h1 | h1
      · exact hb1 h1
      · exact (List.nodup_cons.mp (List.nodup_cons.mp hnd).2).1 h1
  | cons x xs ih =>
    intro c hl hnd a ha hidx
    simp only [List.cons_append] at hl hnd ha
    have hnd1 := List.nodup_cons.mp hnd
    rcases List.mem_cons.mp ha with h | h
    · exfalso
      subst h
      have h1 := hl.1
      rw [hidx] at h1
      simp only [Option.some.injEq] at h1
      have hnd2 := List.nodup_cons.mp hnd1.2
      apply hnd2.1
      rw [← h1]
      simp
    · exact ih x hl.2 hnd1.2 a h hidx
/-- The loop with the unsigned counter made explicit is the loop of `getPredecessor`, and
it uses the indices `i-1, ..., 0` in this order, each once. -/
theorem getPredecessorTrace_eq {V : Type} [DecidableEq V] (s : State V) (key : Nat)
    (value : V) (fuel : Nat) :
    ∀ (i rounds node : Nat) (result : List (Option Nat)) (used : List Nat),
      i < rounds → i < 2 ^ 32 →
      getPredecessorTrace s key value fuel rounds i node result used
        = (getPredecessorLoop s key value fuel i node result).map
            fun preds => (preds, used ++ (List.range i).reverse) := by
  intro i
  induction i with
  | zero =>
    intro rounds node result used hr _
    obtain ⟨r, rfl⟩ : ∃ r, rounds = r + 1 := ⟨rounds - 1, by omega⟩
    rw [getPredecessorTrace, if_neg (Nat.lt_irrefl 0), getPredecessorLoop]
    simp
  | succ i ih =>
    intro rounds node result used hr hi
    obtain ⟨r, rfl⟩ : ∃ r, rounds = r + 1 := ⟨rounds - 1, by omega⟩
    have hidx : decrement (i + 1) = i := by unfold decrement; omega
    rw [getPredecessorTrace, if_pos (Nat.succ_pos i), hidx, getPredecessorLoop]
    cases ha : advance s key value i fuel node with
    | none => rfl
    | some node1 =>
      simp only [Option.some_bind]
      by_cases hlen : i < result.length
      · have hr1 : i < r := by omega
        have hi1 : i < 2 ^ 32 := Nat.lt_of_succ_lt hi
        have hrec := ih r node1 (result.set i (some node1)) (used ++ [i]) hr1 hi1
        have hrange : ∀ preds : List (Option Nat),
            (preds, (used ++ [i]) ++ (List.range i).reverse)
              = (preds, used ++ (List.range (i + 1)).reverse) := by
          intro preds
          rw [List.range_succ, List.reverse_append, List.append_assoc]
          rfl
        rw [if_pos hlen, if_pos hlen, hrec]
        simp only [hrange]
      · rw [if_neg hlen, if_neg hlen]
        rfl

/-- The state `listOfSeven` comes from `insert(7)` with drawn level 2 on the empty list. -/
theorem listOfSeven_insert : insert intTraits 1 (empty intTraits) 7 2 = some listOfSeven := by
  decide

theorem listOfSeven_reachable : Reachable intTraits listOfSeven :=
  Reachable.insert (empty intTraits) listOfSeven 1 7 2 Reachable.empty (by decide)
    listOfSeven_insert

theorem listOfSeven_erase : erase intTraits 2 listOfSeven 7 = some listOfSevenErased := by
  decide

theorem listOfSeven_preds :
    getPredecessor intTraits 2 listOfSeven 7 = some (List.replicate 16 (some 0)) := by
  decide
/-! ## The claims about moves, links and the search -/

/-- C12: move construction hands the whole state over.  The new object prints what the
source printed before the move; the source keeps neither `mHead` nor `mNil`; and its
destructor then releases nothing: the free store, and with it the traversal of the new
object, stays as it was. -/
theorem move_transfers {V : Type} (s : State V) (fuel : Nat) :
    traversal fuel (moveConstruct s).1 = traversal fuel s ∧
    (moveConstruct s).2.mHead = none ∧ (moveConstruct s).2.mNil = none ∧
    destroy (fuel + 1) (moveConstruct s).2 = some (moveConstruct s).2 ∧
    (moveConstruct s).2.heap = (moveConstruct s).1.heap ∧
    ((destroy (fuel + 1) (moveConstruct s).2).bind fun s1 =>
      traversal fuel { (moveConstruct s).1 with heap := s1.heap }) = traversal fuel s :=
  ⟨rfl, rfl, rfl, rfl, rfl, rfl⟩

/-- C14: in an empty `SkipList<int>` the search for `-1` advances onto the tail: the top
link of `mHead` leads to `mNil`, the loop test holds for `mNil` (equal key, other value),
the forward pointer of `mNil` read next is null, and so neither `getPredecessor(-1)` nor
`find(-1)` has an outcome, whatever the fuel. -/
theorem search_advances_onto_tail :
    (empty intTraits).index 0 (mMaxLevel - 1) = some (some 1) ∧
    (empty intTraits).mNil = some 1 ∧
    passes (empty intTraits) (mHasher intTraits (-1)) (-1) 1 = true ∧
    (empty intTraits).index 1 (mMaxLevel - 1) = some none ∧
    (∀ fuel : Nat, getPredecessor intTraits fuel (empty intTraits) (-1) = none) ∧
    (∀ fuel : Nat, find intTraits fuel (empty intTraits) (-1) = none) := by
  refine ⟨by decide, rfl, by decide, by decide, fun fuel => ?_, fun fuel => ?_⟩
  · rcases fuel with _ | _ | _ <;> rfl
  · rcases fuel with _ | _ | _ <;> rfl

/-- The constructor from an initializer list leads from a reachable state to a reachable
state. -/
theorem reachable_insertAll {V : Type} [DecidableEq V] (T : ValueTraits V) (fuel : Nat) :
    ∀ (ops : List (V × Nat)) (s s1 : State V), Reachable T s →
      (∀ op ∈ ops, isRandomLevel op.2) → insertAll T fuel s ops = some s1 →
      Reachable T s1 := by
  intro ops
  induction ops with
  | nil =>
    intro s s1 hs _ h
    simp only [insertAll, Option.some.injEq] at h
    rw [← h]; exact hs
  | cons op ops ih =>
    intro s s1 hs hlev h
    obtain ⟨value, level⟩ := op
    rw [insertAll] at h
    cases hi : insert T fuel s value level with
    | none => rw [hi] at h; exact Option.noConfusion h
    | some s2 =>
      rw [hi, Option.some_bind] at h
      exact ih s2 s1
        (Reachable.insert s s2 fuel value level hs (hlev (value, level) (List.mem_cons_self _ _))
          hi)
        (fun o ho => hlev o (List.mem_cons_of_mem _ ho)) h

theorem sample_eq : sample = some sampleState := by decide

theorem sampleState_reachable : Reachable intTraits sampleState :=
  reachable_insertAll intTraits 8 _ (empty intTraits) sampleState Reachable.empty
    (by decide) sample_eq

theorem sampleErased_eq : erase intTraits 8 sampleState 2 = some sampleErased := by decide

/-- The state `sampleErased` is reached by five `insert` calls and one `erase` call. -/
theorem sampleErased_reachable : Reachable intTraits sampleErased :=
  Reachable.erase sampleState sampleErased 8 2 sampleState_reachable sampleErased_eq

/-- The state `sampleErased` holds four nodes, of the levels 1, 1, 2 and 1. -/
theorem sampleErased_traversal :
    traversal 8 sampleErased = some [⟨1, 1, 1⟩, ⟨3, 3, 1⟩, ⟨4, 4, 2⟩, ⟨5, 5, 1⟩] := by
  decide

/-- C18: in every reachable state the sentinels are in place and, at every level, the
forward pointers lead from `mHead` through a finite list of nodes, none of them twice, to
`mNil`; the list of level `i+1` is a sublist of the list of level `i`: it holds no other
nodes, and holds them in the same order. -/
theorem chains_nested {V : Type} [DecidableEq V] (T : ValueTraits V) (s : State V)
    (h : Reachable T s) :
    s.mHead = some 0 ∧ s.mNil = some 1 ∧
    ∃ chain : Nat → List Nat, ∀ i, i < mMaxLevel →
      Linked s i 0 (chain i) ∧ (0 :: chain i).Nodup ∧ 1 ∉ chain i ∧
      (i + 1 < mMaxLevel → (chain (i + 1)).Sublist (chain i)) := by
  obtain ⟨L, wf⟩ := reachable_wf T s h
  refine ⟨wf.head, wf.nil, fun i => L.filter (above s i), fun i hi => ⟨wf.linked i hi, ?_, ?_, ?_⟩⟩
  · exact (wf_nodup_head wf).sublist (List.Sublist.cons₂ _ (List.filter_sublist _))
  · intro hc
    have := (wf.nodes 1 (List.mem_of_mem_filter hc)).1
    omega
  · intro _
    have : L.filter (above s (i + 1)) = (L.filter (above s i)).filter (above s (i + 1)) := by
      rw [List.filter_filter]
      apply List.filter_congr
      intro x _
      cases h1 : above s (i + 1) x with
      | false => simp
      | true => simp [above_mono s i (i + 1) x (by omega) h1]
    show (L.filter (above s (i + 1))).Sublist (L.filter (above s i))
    rw [this]
    exact List.filter_sublist _

theorem chains_nested_witness :
    Reachable intTraits sampleErased ∧
    (sampleErased.mHead = some 0 ∧ sampleErased.mNil = some 1 ∧
    ∃ chain : Nat → List Nat, ∀ i, i < mMaxLevel →
      Linked sampleErased i 0 (chain i) ∧ (0 :: chain i).Nodup ∧ 1 ∉ chain i ∧
      (i + 1 < mMaxLevel → (chain (i + 1)).Sublist (chain i))) :=
  ⟨sampleErased_reachable, chains_nested intTraits sampleErased sampleErased_reachable⟩

/-- C17: an `insert` with drawn level `level` changes, among the nodes that existed before
the call, only forward pointers, and only the level-`j` pointer of the level-`j`
predecessor `preds[j]` for `j < level`: key, value and level count of every existing node
(the sentinels among them) and all other forward pointers stay as they were, and so do
`mHead` and `mNil`. -/
theorem insert_frame {V : Type} [DecidableEq V] (T : ValueTraits V) (s : State V)
    (h : Reachable T s) (v : V) (fuel level : Nat) (s1 : State V)
    (hins : insert T fuel s v level = some s1) :
    ∃ preds, getPredecessor T fuel s v = some preds ∧
      (∀ b, (s.node b).isSome → s1.info b = s.info b) ∧
      (∀ b j, (s.node b).isSome → s1.index b j ≠ s.index b j →
        j < level ∧ preds.get? j = some (some b)) ∧
      s1.mHead = s.mHead ∧ s1.mNil = s.mNil := by
  obtain ⟨L, wf⟩ := reachable_wf T s h
  obtain ⟨hs, hlev, -, -, -⟩ := insert_some_wf wf v fuel level hins
  have hmono := insert_mono T s s1 v level fuel (L.length + 1) hins
  obtain ⟨s2, e0, e1, e2, e3, e4, e5⟩ := insert_run wf v hs (fuel + (L.length + 1))
    (by omega) level hlev
  rw [hmono] at e0
  cases e0
  cases hp : getPredecessor T fuel s v with
  | none =>
    unfold insert at hins
    rw [hp] at hins
    exact Option.noConfusion hins
  | some preds =>
    obtain ⟨-, -, hget⟩ := getPredecessor_some_wf wf v fuel preds hp
    refine ⟨preds, rfl, ?_, ?_, e1, e2⟩
    · intro b hb
      obtain ⟨n, hn⟩ := Option.isSome_iff_exists.mp hb
      rw [e4, if_neg (Nat.ne_of_lt (node_lt hn))]
    · intro b j hb hne
      obtain ⟨n, hn⟩ := Option.isSome_iff_exists.mp hb
      have hbl : b ≠ s.heap.length := Nat.ne_of_lt (node_lt hn)
      rw [e5] at hne
      by_cases hj : j < level
      · rw [if_pos hj] at hne
        by_cases hb2 : b = lastFrom 0 ((locate s (mHasher T v) v L).1.filter (above s j))
        · exact ⟨hj, by rw [hget j (by omega), hb2]⟩
        · rw [if_neg hb2, if_neg hbl] at hne
          exact absurd rfl hne
      · rw [if_neg hj, if_neg hbl] at hne
        exact absurd rfl hne

theorem insert_frame_witness :
    Reachable intTraits (empty intTraits) ∧
    insert intTraits 1 (empty intTraits) 7 2 = some listOfSeven ∧
    ∃ preds, getPredecessor intTraits 1 (empty intTraits) 7 = some preds ∧
      (∀ b, ((empty intTraits).node b).isSome → listOfSeven.info b = (empty intTraits).info b) ∧
      (∀ b j, ((empty intTraits).node b).isSome →
        listOfSeven.index b j ≠ (empty intTraits).index b j →
        j < 2 ∧ preds.get? j = some (some b)) ∧
      listOfSeven.mHead = (empty intTraits).mHead ∧ listOfSeven.mNil = (empty intTraits).mNil :=
  ⟨Reachable.empty, listOfSeven_insert,
    insert_frame intTraits (empty intTraits) Reachable.empty 7 1 2 listOfSeven listOfSeven_insert⟩


/-- C15: each predecessor `preds[i]` that `getPredecessor(v)` returns lies on the level-`i`
chain, is `mHead` or has a key of at most the key `k` of `v`, and its level-`i` successor
is `mNil`, or has a key greater than `k`, or has the key `k` and the value `v`. -/
theorem getPredecessor_post {V : Type} [DecidableEq V] (T : ValueTraits V) (s : State V)
    (h : Reachable T s) (v : V) (fuel : Nat) (preds : List (Option Nat))
    (hp : getPredecessor T fuel s v = some preds) :
    ∀ i, i < mMaxLevel → ∃ p, preds.get? i = some (some p) ∧ OnChain s i p ∧
      (s.mHead = some p ∨ s.keyOf p ≤ mHasher T v) ∧
      ∃ q, s.index p i = some (some q) ∧
        (s.mNil = some q ∨ ∃ k w l, s.info q = some (k, w, l) ∧
          (mHasher T v < k ∨ (k = mHasher T v ∧ w = v))) := by
  obtain ⟨L, wf⟩ := reachable_wf T s h
  obtain ⟨hs, -, hget⟩ := getPredecessor_some_wf wf v fuel preds hp
  obtain ⟨hloc, hstop⟩ := locate_spec s (mHasher T v) v L
  intro i hi
  have hnext := next_level wf _ _ hloc.symm i hi
  refine ⟨_, hget i hi, ?_, ?_, _, linked_head s i _ _ hnext, ?_⟩
  · have hl := wf.linked i hi
    apply linked_onChain s i _ 0 hl (OnChain.head 0 wf.head)
    rcases List.mem_cons.mp (lastFrom_mem_cons 0
      ((locate s (mHasher T v) v L).1.filter (above s i))) with h1 | h1
    · rw [h1]; exact List.mem_cons_self _ _
    · apply List.mem_cons_of_mem
      rw [List.mem_filter] at h1 ⊢
      refine ⟨?_, h1.2⟩
      have := List.mem_append_left (locate s (mHasher T v) v L).2 h1.1
      rwa [hloc] at this
  · rcases List.mem_cons.mp (pred_mem s (mHasher T v) v L i) with h1 | h1
    · left; rw [h1]; exact wf.head
    · right; exact locate_behind wf _ v _ h1
  · cases hB : (locate s (mHasher T v) v L).2.filter (above s i) with
    | nil => left; exact wf.nil
    | cons y ys =>
      right
      have hy : y ∈ (locate s (mHasher T v) v L).2.filter (above s i) := by rw [hB]; simp
      have hyL : y ∈ L := by
        have := List.mem_append_right (locate s (mHasher T v) v L).1 (List.mem_of_mem_filter hy)
        rwa [hloc] at this
      obtain ⟨-, k, w, l, hinfo, -⟩ := wf.nodes y hyL
      have hpass := hstop i hi y (by rw [hB]; rfl)
      unfold passes at hpass
      rw [hinfo] at hpass
      simp only [decide_eq_false_iff_not, not_or, not_and, not_not] at hpass
      refine ⟨k, w, l, hinfo, ?_⟩
      rcases Nat.lt_or_ge (mHasher T v) k with h1 | h1
      · exact Or.inl h1
      · have hk : k = mHasher T v := by omega
        exact Or.inr ⟨hk, hpass.2 hk⟩

theorem getPredecessor_post_witness :
    Reachable intTraits listOfSeven ∧
    getPredecessor intTraits 2 listOfSeven 7 = some (List.replicate 16 (some 0)) ∧
    ∀ i, i < mMaxLevel → ∃ p, (List.replicate 16 (some 0)).get? i = some (some p) ∧
      OnChain listOfSeven i p ∧
      (listOfSeven.mHead = some p ∨ listOfSeven.keyOf p ≤ mHasher intTraits 7) ∧
      ∃ q, listOfSeven.index p i = some (some q) ∧
        (listOfSeven.mNil = some q ∨ ∃ k w l, listOfSeven.info q = some (k, w, l) ∧
          (mHasher intTraits 7 < k ∨ (k = mHasher intTraits 7 ∧ w = 7))) :=
  ⟨listOfSeven_reachable, listOfSeven_preds,
    getPredecessor_post intTraits listOfSeven listOfSeven_reachable 7 2 _ listOfSeven_preds⟩


/-- C19: when no stored node shares the key of `v` with another value, and the key of `v`
is not the key of `mNil`, `find(v)` returns, and returns a match exactly when some entry of
the level-0 traversal stores `v`. -/
theorem find_iff_stored {V : Type} [DecidableEq V] (T : ValueTraits V) (s : State V)
    (h : Reachable T s) (v : V) (hkey : mHasher T v ≠ keyMax) (fuel : Nat)
    (hf : s.heap.length ≤ fuel) :
    ∃ out, traversal fuel s = some out ∧
      ((∀ e ∈ out, e.key = mHasher T v → e.value = v) →
        ∃ r, find T fuel s v = some r ∧ (r.isSome = true ↔ ∃ e ∈ out, e.value = v)) := by
  obtain ⟨L, wf⟩ := reachable_wf T s h
  have hlen := wf_length wf
  refine ⟨entries s L, traversal_spec wf fuel (by omega), fun hinj => ?_⟩
  refine ⟨_, find_victim wf v (Or.inl hkey) fuel (by omega), ?_⟩
  obtain ⟨hloc, -⟩ := locate_spec s (mHasher T v) v L
  constructor
  · intro hr
    cases hv : victim s (mHasher T v) v L with
    | none => rw [hv] at hr; exact Bool.noConfusion hr
    | some b =>
      obtain ⟨B, k, l, -, hL, hinfo⟩ := victim_some hv
      exact ⟨⟨k, v, l⟩, mem_entries s L b k l v (by rw [← hL]; simp) hinfo, rfl⟩
  · rintro ⟨e, he, hev⟩
    obtain ⟨a, haL, hinfo⟩ := (mem_entries_iff s L e).mp he
    have hinjL : ∀ a ∈ L, ∀ k w l, s.info a = some (k, w, l) → k = mHasher T v → w = v := by
      intro a ha k w l hi hk
      exact hinj ⟨k, w, l⟩ (mem_entries s L a k l w ha hi) hk
    obtain ⟨-, k, w, l, hinfo2, -, -, hkw, -⟩ := wf.nodes a haL
    rw [hinfo] at hinfo2
    simp only [Option.some.injEq, Prod.mk.injEq] at hinfo2
    have hka : s.keyOf a = mHasher T v := by
      unfold State.keyOf
      rw [hinfo, hinfo2.1, hkw, ← hinfo2.2.1, hev]
    have hnotA : a ∉ (locate s (mHasher T v) v L).1 := fun hc => by
      have := locate_behind_lt wf _ v hinjL a hc
      omega
    have haB : a ∈ (locate s (mHasher T v) v L).2 := by
      rw [← hloc] at haL
      rcases List.mem_append.mp haL with h1 | h1
      · exact absurd h1 hnotA
      · exact h1
    cases hB : (locate s (mHasher T v) v L).2 with
    | nil => rw [hB] at haB; simp at haB
    | cons y ys =>
      have hyB : y ∈ (locate s (mHasher T v) v L).2 := by rw [hB]; simp
      have hyL : y ∈ L := by
        have := List.mem_append_right (locate s (mHasher T v) v L).1 hyB
        rwa [hloc] at this
      have hge := locate_ahead wf (mHasher T v) v y hyB
      have hle : s.keyOf y ≤ s.keyOf a := by
        have hs := wf.sorted
        rw [← hloc, hB] at hs
        have hs2 := (List.pairwise_append.mp hs).2.1
        rw [hB] at haB
        rcases List.mem_cons.mp haB with h1 | h1
        · rw [h1]
        · exact (List.pairwise_cons.mp hs2).1 a h1
      obtain ⟨-, ky, wy, ly, hinfoy, -⟩ := wf.nodes y hyL
      have hky : ky = mHasher T v := by
        unfold State.keyOf at hge hle
        rw [hinfoy] at hge hle
        rw [hinfo] at hle
        simp only at hge hle
        unfold State.keyOf at hka
        rw [hinfo] at hka
        simp only at hka
        omega
      have hwy : wy = v := hinjL y hyL ky wy ly hinfoy hky
      have hvic : victim s (mHasher T v) v L = some y := by
        unfold victim
        rw [hB]
        simp only [List.head?_cons, Option.some_bind, hinfoy]
        rw [if_pos hwy]
      rw [hvic]
      rfl

theorem find_iff_stored_witness :
    Reachable intTraits listOfSeven ∧ mHasher intTraits 7 ≠ keyMax ∧
    listOfSeven.heap.length ≤ 3 ∧
    ∃ out, traversal 3 listOfSeven = some out ∧
      ((∀ e ∈ out, e.key = mHasher intTraits 7 → e.value = 7) →
        ∃ r, find intTraits 3 listOfSeven 7 = some r ∧
          (r.isSome = true ↔ ∃ e ∈ out, e.value = 7)) :=
  ⟨listOfSeven_reachable, by decide, by decide,
    find_iff_stored intTraits listOfSeven listOfSeven_reachable 7 (by decide) 3 (by decide)⟩


/-- C13: when `erase(v)` removes the node at `b`, afterwards no forward pointer, at any
level, of any node reachable from `mHead` leads to `b`; and for every level `i` below the
level count of `b` the predecessor `preds[i]` recorded by `getPredecessor` is the one node
reachable from `mHead` whose level-`i` pointer led to `b`. -/
theorem erase_detaches {V : Type} [DecidableEq V] (T : ValueTraits V) (s : State V)
    (h : Reachable T s) (v : V) (fuel : Nat) (s1 : State V)
    (her : erase T fuel s v = some s1) (b : Nat) (hb : (s.node b).isSome)
    (hgone : s1.node b = none) :
    (∀ a j, Reaches s1 a → s1.index a j ≠ some (some b)) ∧
    ∃ preds, getPredecessor T fuel s v = some preds ∧
      ∀ i, i < s.level b → ∃ p, preds.get? i = some (some p) ∧
        s.index p i = some (some b) ∧
        ∀ a, Reaches s a → s.index a i = some (some b) → a = p := by
  obtain ⟨L, wf, hnil⟩ := reachable_wf_nil T s h
  obtain ⟨L1, wf1, hnil1⟩ := reachable_wf_nil T s1 (Reachable.erase s s1 fuel v h her)
  obtain ⟨hs, e1, e2⟩ := erase_some_wf wf v fuel her
  obtain ⟨n, hn⟩ := Option.isSome_iff_exists.mp hb
  cases hv : victim s (mHasher T v) v L with
  | none =>
    rw [e1 hv, hn] at hgone
    exact Option.noConfusion hgone
  | some b1 =>
    obtain ⟨wfe, hinfo1⟩ := e2 b1 hv
    obtain ⟨B, k, l, hB, hL, hinfo⟩ := victim_some hv
    have hbb : b = b1 := by
      by_contra hne
      have h1 := hinfo1 b
      rw [if_neg hne] at h1
      unfold State.info at h1
      rw [hgone, hn] at h1
      exact Option.noConfusion h1
    subst hbb
    have hbL : b ∈ L := by rw [← hL]; simp
    have hb2 := (wf.nodes b hbL).1
    have hnotin : b ∉ L.erase b := fun hc => (wf.nodup.mem_erase_iff.mp hc).1 rfl
    constructor
    · intro a j hreach hidx
      have ha := reaches_mem wfe hnil1 a hreach
      obtain ⟨-, -, hmem⟩ := wf_link wfe hnil1 a j b ha hidx
      rcases List.mem_cons.mp hmem with h1 | h1
      · omega
      · exact hnotin (List.mem_of_mem_filter h1)
    · cases hp : getPredecessor T fuel s v with
      | none =>
        unfold erase at her
        rw [hp] at her
        exact Option.noConfusion her
      | some preds =>
        obtain ⟨-, -, hget⟩ := getPredecessor_some_wf wf v fuel preds hp
        refine ⟨preds, rfl, fun i hi => ?_⟩
        have hlev : s.level b = l := level_of_info hinfo
        have hl2 : l ≤ mMaxLevel := by
          obtain ⟨-, k2, w2, l2, hinfo2, -, hle, -⟩ := wf.nodes b hbL
          rw [hinfo] at hinfo2
          simp only [Option.some.injEq, Prod.mk.injEq] at hinfo2
          omega
        have hi2 : i < mMaxLevel := by omega
        have hab : above s i b = true := by simpa [above] using hi
        have hnext := next_level wf (locate s (mHasher T v) v L).1 (b :: B) hL.symm i hi2
        rw [List.filter_cons_of_pos hab] at hnext
        refine ⟨_, hget i hi2, hnext.1, fun a hreach hidx => ?_⟩
        have ha := reaches_mem wf hnil a hreach
        obtain ⟨-, hmem, -⟩ := wf_link wf hnil a i b ha hidx
        have hlink := wf.linked i hi2
        have hsplit : L.filter (above s i) = (locate s (mHasher T v) v L).1.filter (above s i)
            ++ b :: B.filter (above s i) := by
          conv_lhs => rw [← hL]
          rw [List.filter_append, List.filter_cons_of_pos hab]
        rw [hsplit] at hlink hmem
        have hnd : (0 :: ((locate s (mHasher T v) v L).1.filter (above s i)
            ++ b :: B.filter (above s i))).Nodup := by
          rw [← hsplit]
          exact (wf_nodup_head wf).sublist (List.Sublist.cons₂ _ (List.filter_sublist _))
        exact linked_pred_unique s i b _ (by omega) _ 0 hlink hnd a hmem hidx

theorem erase_detaches_witness :
    Reachable intTraits listOfSeven ∧
    erase intTraits 2 listOfSeven 7 = some listOfSevenErased ∧
    (listOfSeven.node 2).isSome = true ∧ listOfSevenErased.node 2 = none ∧
    ((∀ a j, Reaches listOfSevenErased a → listOfSevenErased.index a j ≠ some (some 2)) ∧
    ∃ preds, getPredecessor intTraits 2 listOfSeven 7 = some preds ∧
      ∀ i, i < listOfSeven.level 2 → ∃ p, preds.get? i = some (some p) ∧
        listOfSeven.index p i = some (some 2) ∧
        ∀ a, Reaches listOfSeven a → listOfSeven.index a i = some (some 2) → a = p) :=
  ⟨listOfSeven_reachable, listOfSeven_erase, by decide, by decide,
    erase_detaches intTraits listOfSeven listOfSeven_reachable 7 2 listOfSevenErased
      listOfSeven_erase 2 (by decide) (by decide)⟩


/-- C16: for a value whose key is below the key of `mNil`, `getPredecessor` terminates (any
fuel from the size of the free store on is enough): its loop uses the level indices
`mMaxLevel-1, ..., 0`, each exactly once and in this order, its unsigned counter never
passing below 0, stops after level 0, and returns `mMaxLevel` predecessors, none of them
null. -/
theorem getPredecessor_terminates {V : Type} [DecidableEq V] (T : ValueTraits V)
    (s : State V) (h : Reachable T s) (v : V) (hkey : mHasher T v < keyMax) (fuel : Nat)
    (hf : s.heap.length ≤ fuel) (rounds : Nat) (hr : mMaxLevel < rounds) :
    ∃ preds, getPredecessor T fuel s v = some preds ∧
      getPredecessorTraced T fuel rounds s v = some (preds, (List.range mMaxLevel).reverse) ∧
      preds.length = mMaxLevel ∧ ∀ i, i < mMaxLevel → ∃ p, preds.get? i = some (some p) := by
  obtain ⟨L, wf⟩ := reachable_wf T s h
  have hlen := wf_length wf
  obtain ⟨preds, e0, e1, e2⟩ := getPredecessor_spec wf v (Or.inl (Nat.ne_of_lt hkey)) fuel
    (by omega)
  refine ⟨preds, e0, ?_, e1, fun i hi => ⟨_, e2 i hi⟩⟩
  obtain ⟨w, hhead⟩ := wf.headNode
  obtain ⟨hd, hn0, -, -, hl⟩ := info_eq_some hhead
  unfold getPredecessor at e0
  unfold getPredecessorTraced
  rw [wf.head, Option.some_bind] at e0 ⊢
  simp only [getNodeLevel, hn0, Option.map_some', Option.some_bind, hl] at e0 ⊢
  rw [getPredecessorTrace_eq s _ v fuel mMaxLevel rounds 0 _ [] hr (by decide), e0]
  rfl

theorem getPredecessor_terminates_witness :
    Reachable intTraits listOfSeven ∧ mHasher intTraits 7 < keyMax ∧
    listOfSeven.heap.length ≤ 3 ∧ mMaxLevel < 17 ∧
    ∃ preds, getPredecessor intTraits 3 listOfSeven 7 = some preds ∧
      getPredecessorTraced intTraits 3 17 listOfSeven 7
        = some (preds, (List.range mMaxLevel).reverse) ∧
      preds.length = mMaxLevel ∧ ∀ i, i < mMaxLevel → ∃ p, preds.get? i = some (some p) :=
  ⟨listOfSeven_reachable, by decide, by decide, by decide,
    getPredecessor_terminates intTraits listOfSeven listOfSeven_reachable 7 (by decide) 3
      (by decide) 17 (by decide)⟩

end SkipList

namespace ClimbingStairs

/-! ## The two loops compute the same numbers -/


theorem wrap32_id (x : Int) (h1 : -2 ^ 31 ≤ x) (h2 : x < 2 ^ 31) : wrap32 x = x := by
  unfold wrap32
  omega

theorem wrap32_range (x : Int) : -2 ^ 31 ≤ wrap32 x ∧ wrap32 x < 2 ^ 31 := by
  unfold wrap32
  omega

theorem ways_add_two (n : Nat) : ways (n + 2) = wrap32 (ways (n + 1) + ways n) := rfl

theorem ways_one : ways 1 = 1 := rfl

theorem ways_two : ways 2 = 2 := by decide

/-- The rolling-variable loop, entered at `i` with the numbers for `i-1` and `i-2`, ends with
the number for `n`. -/
theorem scanLoop_spec (n : Nat) (hn : (n : Int) < 2 ^ 31 - 1) :
    ∀ (d fuel i : Nat), 3 ≤ i → i + d = n + 1 → d < fuel → ∀ w : Int,
      (d = 0 → w = ways n) →
      scanLoop n fuel i (ways (i - 1)) (ways (i - 2)) w = some (ways n) := by
  intro d
  induction d with
  | zero =>
    intro fuel i hi hd hf w hw
    obtain ⟨f, rfl⟩ : ∃ f, fuel = f + 1 := ⟨fuel - 1, by omega⟩
    rw [scanLoop, if_neg (by omega), hw rfl]
  | succ d ih =>
    intro fuel i hi hd hf w _
    obtain ⟨f, rfl⟩ : ∃ f, fuel = f + 1 := ⟨fuel - 1, by omega⟩
    obtain ⟨k, rfl⟩ : ∃ k, i = k + 2 := ⟨i - 2, by omega⟩
    have hstep : wrap32 (((k + 2 : Nat) : Int) + 1) = ((k + 3 : Nat) : Int) := by
      rw [wrap32_id] <;> push_cast <;> omega
    have hw2 : wrap32 (ways (k + 2 - 1) + ways (k + 2 - 2)) = ways (k + 2) := by
      rw [ways_add_two]; rfl
    rw [scanLoop, if_pos (by push_cast; omega), hstep, hw2]
    have := ih f (k + 3) (by omega) (by omega) (by omega) (ways (k + 2))
      (fun h0 => by
        have : k + 2 = n := by omega
        rw [this])
    exact this
theorem readStep_nat (steps : List Int) (j : Nat) : readStep steps (j : Int) = steps.get? j := by
  unfold readStep
  rw [if_pos (Int.ofNat_nonneg j), Int.toNat_ofNat]

theorem writeStep_nat (steps : List Int) (j : Nat) (x : Int) (h : j < steps.length) :
    writeStep steps (j : Int) x = some (steps.set j x) := by
  unfold writeStep
  rw [if_pos ⟨Int.ofNat_nonneg j, by rw [Int.toNat_ofNat]; exact h⟩, Int.toNat_ofNat]

/-- The table loop, entered at `i` with the entries `1 .. i-1` filled, ends with the
entries `1 .. n` filled. -/
theorem tableLoop_spec (n : Nat) (hn : (n : Int) < 2 ^ 31 - 1) :
    ∀ (d fuel i : Nat) (steps : List Int), 3 ≤ i → i + d = n + 1 → d < fuel →
      steps.length = n + 1 → (∀ j, 1 ≤ j → j < i → steps.get? j = some (ways j)) →
      ∃ steps1, tableLoop n fuel i steps = some steps1 ∧ steps1.length = n + 1 ∧
        ∀ j, 1 ≤ j → j ≤ n → steps1.get? j = some (ways j) := by
  intro d
  induction d with
  | zero =>
    intro fuel i steps hi hd hf hlen hfill
    obtain ⟨f, rfl⟩ : ∃ f, fuel = f + 1 := ⟨fuel - 1, by omega⟩
    refine ⟨steps, ?_, hlen, fun j h1 h2 => hfill j h1 (by omega)⟩
    rw [tableLoop, if_neg (by omega)]
  | succ d ih =>
    intro fuel i steps hi hd hf hlen hfill
    obtain ⟨f, rfl⟩ : ∃ f, fuel = f + 1 := ⟨fuel - 1, by omega⟩
    obtain ⟨k, rfl⟩ : ∃ k, i = k + 2 := ⟨i - 2, by omega⟩
    have hstep : wrap32 (((k + 2 : Nat) : Int) + 1) = ((k + 3 : Nat) : Int) := by
      rw [wrap32_id] <;> push_cast <;> omega
    have e1 : ((k + 2 : Nat) : Int) - 1 = ((k + 1 : Nat) : Int) := by push_cast; omega
    have e2 : ((k + 2 : Nat) : Int) - 2 = ((k : Nat) : Int) := by push_cast; omega
    have r1 : readStep steps (((k + 2 : Nat) : Int) - 1) = some (ways (k + 1)) := by
      rw [e1, readStep_nat]; exact hfill (k + 1) (by omega) (by omega)
    have r2 : readStep steps (((k + 2 : Nat) : Int) - 2) = some (ways k) := by
      rw [e2, readStep_nat]; exact hfill k (by omega) (by omega)
    obtain ⟨steps1, h1, h2, h3⟩ := ih f (k + 3)
      (steps.set (k + 2) (wrap32 (ways (k + 1) + ways k))) (by omega) (by omega) (by omega)
      (by rw [List.length_set]; exact hlen)
      (by
        intro j hj1 hj2
        by_cases hj : j = k + 2
        · subst hj
          rw [List.get?_eq_getElem?, List.getElem?_set_self (by omega), ways_add_two]
        · rw [List.get?_eq_getElem?, List.getElem?_set_ne (by omega), ← List.get?_eq_getElem?]
          exact hfill j hj1 (by omega))
    refine ⟨steps1, ?_, h2, h3⟩
    rw [tableLoop, if_pos (by push_cast; omega), r1, Option.some_bind, r2, Option.some_bind,
      writeStep_nat _ _ _ (by omega), Option.some_bind, hstep]
    exact h1

theorem climbStairs_ways (n : Nat) (h3 : 3 ≤ n) (hn : (n : Int) < 2 ^ 31 - 1) (fuel : Nat)
    (hf : n ≤ fuel) : climbStairs fuel n = some (ways n) := by
  unfold climbStairs
  rw [if_neg (by omega), if_neg (by omega), if_neg (by omega)]
  exact scanLoop_spec n hn (n - 2) fuel 3 (le_refl _) (by omega) (by omega) 0
    (fun h => absurd h (by omega))

theorem climbStairsTable_ways (n : Nat) (h3 : 3 ≤ n) (hn : (n : Int) < 2 ^ 31 - 1)
    (fuel : Nat) (hf : n ≤ fuel) : climbStairsTable fuel n = some (ways n) := by
  have hmk : makeSteps (wrap32 ((n : Int) + 1)) = some (List.replicate (n + 1) 0) := by
    rw [wrap32_id _ (by omega) (by omega)]
    unfold makeSteps
    rw [if_pos (by omega)]
    have : ((n : Int) + 1).toNat = n + 1 := by omega
    rw [this]
  have hw1 : writeStep (List.replicate (n + 1) (0 : Int)) 1 1
      = some ((List.replicate (n + 1) (0 : Int)).set 1 1) :=
    writeStep_nat _ 1 1 (by simp; omega)
  have hw2 : writeStep ((List.replicate (n + 1) (0 : Int)).set 1 1) 2 2
      = some (((List.replicate (n + 1) (0 : Int)).set 1 1).set 2 2) :=
    writeStep_nat _ 2 2 (by simp; omega)
  obtain ⟨steps, e1, e2, e3⟩ := tableLoop_spec n hn (n - 2) fuel 3
    (((List.replicate (n + 1) (0 : Int)).set 1 1).set 2 2) (le_refl _) (by omega) (by omega)
    (by simp)
    (by
      intro j hj1 hj2
      have hj : j = 1 ∨ j = 2 := by omega
      rcases hj with rfl | rfl
      · rw [List.get?_eq_getElem?, List.getElem?_set_ne (by omega),
          List.getElem?_set_self (by simp; omega)]
        rfl
      · rw [List.get?_eq_getElem?, List.getElem?_set_self (by simp; omega)]
        rfl)
  unfold climbStairsTable
  rw [if_neg (by omega), if_neg (by omega), if_neg (by omega), hmk, Option.some_bind, hw1,
    Option.some_bind, hw2, Option.some_bind]
  have e1c : tableLoop (n : Int) fuel ((3 : Nat) : Int)
      (((List.replicate (n + 1) (0 : Int)).set 1 1).set 2 2) = some steps := e1
  rw [show (3 : Int) = ((3 : Nat) : Int) from rfl, e1c, Option.some_bind, readStep_nat]
  exact e3 n (by omega) (le_refl _)

/-- What both functions return for an `int` below `INT_MAX`: 0 for `n <= 0`, and the
number `ways n` otherwise. -/
theorem climbStairs_both (n : Int) (h2 : n < INT_MAX) (fuel : Nat)
    (hf : n.toNat ≤ fuel) :
    climbStairs fuel n = some (if n ≤ 0 then 0 else ways n.toNat) ∧
    climbStairsTable fuel n = some (if n ≤ 0 then 0 else ways n.toNat) := by
  unfold INT_MAX at h2
  by_cases h0 : n ≤ 0
  · simp [climbStairs, climbStairsTable, h0]
  · obtain ⟨m, rfl⟩ : ∃ m : Nat, n = m := ⟨n.toNat, by omega⟩
    rw [if_neg h0, Int.toNat_ofNat] at *
    by_cases h1 : m = 1
    · subst h1; exact ⟨rfl, rfl⟩
    · by_cases h2' : m = 2
      · subst h2'; exact ⟨rfl, rfl⟩
      · exact ⟨climbStairs_ways m (by omega) (by omega) fuel hf,
          climbStairsTable_ways m (by omega) (by omega) fuel hf⟩

/-- With `n = INT_MAX` the test `i <= n` holds for every `int`, so the rolling-variable
loop never ends. -/
theorem scanLoop_int_max : ∀ (fuel : Nat) (i a b w : Int),
    scanLoop INT_MAX fuel (wrap32 i) a b w = none := by
  intro fuel
  induction fuel with
  | zero => intro i a b w; rfl
  | succ f ih =>
    intro i a b w
    have hr := (wrap32_range i).2
    rw [scanLoop, if_pos (by unfold INT_MAX; omega)]
    exact ih _ _ _ _

theorem ways_eq_fib : ∀ n : Nat, n + 1 ≤ 45 →
    ways n = (Nat.fib (n + 1) : Int) ∧ ways (n + 1) = (Nat.fib (n + 2) : Int) := by
  have h46 : Nat.fib 46 = 1836311903 := by norm_num
  intro n
  induction n with
  | zero => intro _; exact ⟨rfl, rfl⟩
  | succ n ih =>
    intro hn
    obtain ⟨e1, e2⟩ := ih (by omega)
    refine ⟨e2, ?_⟩
    have hmono : Nat.fib (n + 3) ≤ Nat.fib 46 := Nat.fib_mono (by omega)
    have hadd : Nat.fib (n + 3) = Nat.fib (n + 1) + Nat.fib (n + 2) := Nat.fib_add_two
    rw [ways_add_two, e1, e2, show n + 1 + 2 = n + 3 from rfl, wrap32_id] <;> omega

theorem mem_sequences : ∀ (n : Nat) (l : List Nat),
    l ∈ sequences n ↔ (∀ x ∈ l, x = 1 ∨ x = 2) ∧ l.sum = n := by
  intro n
  induction n using Nat.strong_induction_on with
  | _ n ih =>
    intro l
    match n with
    | 0 =>
      simp only [sequences, List.mem_singleton]
      constructor
      · rintro rfl; simp
      · rintro ⟨h1, h2⟩
        cases l with
        | nil => rfl
        | cons x xs =>
          rcases h1 x (List.mem_cons_self _ _) with h | h <;>
            · subst h; simp at h2
    | 1 =>
      simp only [sequences, List.mem_singleton]
      constructor
      · rintro rfl; simp
      · rintro ⟨h1, h2⟩
        cases l with
        | nil => simp at h2
        | cons x xs =>
          have hx := h1 x (List.mem_cons_self _ _)
          simp only [List.sum_cons] at h2
          rcases hx with h | h
          · subst h
            have hs : xs.sum = 0 := by omega
            have hxs := (ih 0 (by omega) xs).mpr ⟨fun y hy => h1 y (List.mem_cons_of_mem _ hy), hs⟩
            simp only [sequences, List.mem_singleton] at hxs
            rw [hxs]
          · subst h; omega
    | m + 2 =>
      simp only [sequences, List.mem_append, List.mem_map]
      constructor
      · rintro (⟨l1, hl1, rfl⟩ | ⟨l1, hl1, rfl⟩)
        · obtain ⟨a, b⟩ := (ih (m + 1) (by omega) l1).mp hl1
          refine ⟨fun x hx => ?_, by simp only [List.sum_cons]; omega⟩
          rcases List.mem_cons.mp hx with h | h
          · exact Or.inl h
          · exact a x h
        · obtain ⟨a, b⟩ := (ih m (by omega) l1).mp hl1
          refine ⟨fun x hx => ?_, by simp only [List.sum_cons]; omega⟩
          rcases List.mem_cons.mp hx with h | h
          · exact Or.inr h
          · exact a x h
      · rintro ⟨h1, h2⟩
        cases l with
        | nil => simp at h2
        | cons x xs =>
          have hx := h1 x (List.mem_cons_self _ _)
          have hxs : ∀ y ∈ xs, y = 1 ∨ y = 2 := fun y hy => h1 y (List.mem_cons_of_mem _ hy)
          simp only [List.sum_cons] at h2
          rcases hx with h | h
          · subst h
            exact Or.inl ⟨xs, (ih (m + 1) (by omega) xs).mpr ⟨hxs, by omega⟩, rfl⟩
          · subst h
            exact Or.inr ⟨xs, (ih m (by omega) xs).mpr ⟨hxs, by omega⟩, rfl⟩

theorem sequences_nodup : ∀ n : Nat, (sequences n).Nodup := by
  intro n
  induction n using Nat.strong_induction_on with
  | _ n ih =>
    match n with
    | 0 => simp [sequences]
    | 1 => simp [sequences]
    | m + 2 =>
      simp only [sequences]
      refine List.Nodup.append ((ih (m + 1) (by omega)).map (fun a b h => by simpa using h))
        ((ih m (by omega)).map (fun a b h => by simpa using h)) ?_
      intro l h1 h2
      simp only [List.mem_map] at h1 h2
      obtain ⟨a, -, rfl⟩ := h1
      obtain ⟨b, -, hb⟩ := h2
      simp at hb

theorem sequences_length : ∀ n : Nat, (sequences n).length = Nat.fib (n + 1) := by
  intro n
  induction n using Nat.strong_induction_on with
  | _ n ih =>
    match n with
    | 0 => rfl
    | 1 => rfl
    | m + 2 =>
      simp only [sequences, List.length_append, List.length_map]
      rw [ih (m + 1) (by omega), ih m (by omega), show m + 2 + 1 = (m + 1) + 2 from rfl,
        Nat.fib_add_two (n := m + 1)]
      omega

/-! ## The claims about `climbStairs` -/

/-- C11, as stated, fails at both ends: `climbStairs(0)` returns 0 although exactly one
sequence (the empty one) climbs 0 stairs, and `climbStairs(46)` returns `-1323752223`
although 2971215073 sequences climb 46 stairs, a number no `int` holds. -/
theorem climbStairs_not_count :
    (climbStairs 1 0 = some 0 ∧ sequences 0 = [[]]) ∧
    (climbStairs 46 46 = some (-1323752223) ∧ (sequences 46).length = 2971215073) := by
  refine ⟨⟨rfl, rfl⟩, ?_, ?_⟩
  · rw [show (46 : Int) = ((46 : Nat) : Int) from rfl,
      climbStairs_ways 46 (by decide) (by decide) 46 (le_refl _)]
    have e := ways_eq_fib 44 (by decide)
    have h45 : Nat.fib 45 = 1134903170 := by norm_num
    have h46 : Nat.fib 46 = 1836311903 := by norm_num
    rw [show ways 46 = wrap32 (ways 45 + ways 44) from rfl, e.1, e.2, h45, h46]
    decide
  · rw [sequences_length]
    norm_num

/-- C11, amended: for every step count `n` from 1 to 45, `climbStairs(n)` returns the
number of distinct sequences of steps of size 1 or 2 whose sizes sum to `n`. -/
theorem climbStairs_count (n : Nat) (h1 : 1 ≤ n) (h2 : n ≤ 45) (fuel : Nat) (hf : n ≤ fuel) :
    ∃ S : List (List Nat), S.Nodup ∧
      (∀ l, l ∈ S ↔ (∀ x ∈ l, x = 1 ∨ x = 2) ∧ l.sum = n) ∧
      climbStairs fuel n = some (S.length : Int) := by
  refine ⟨sequences n, sequences_nodup n, mem_sequences n, ?_⟩
  obtain ⟨m, rfl⟩ : ∃ m, n = m + 1 := ⟨n - 1, by omega⟩
  rw [sequences_length, ← (ways_eq_fib m (by omega)).2]
  have h := (climbStairs_both ((m + 1 : Nat) : Int) (by unfold INT_MAX; omega) fuel
    (by rw [Int.toNat_ofNat]; exact hf)).1
  rw [if_neg (by omega), Int.toNat_ofNat] at h
  exact h

theorem climbStairs_count_witness :
    1 ≤ 3 ∧ 3 ≤ 45 ∧ 3 ≤ 3 ∧ ∃ S : List (List Nat), S.Nodup ∧
      (∀ l, l ∈ S ↔ (∀ x ∈ l, x = 1 ∨ x = 2) ∧ l.sum = 3) ∧
      climbStairs 3 ((3 : Nat) : Int) = some (S.length : Int) :=
  ⟨by decide, by decide, by decide, climbStairs_count 3 (by decide) (by decide) 3 (by decide)⟩

/-- C20, as stated, fails at `n = INT_MAX`, where neither function returns: the loop of the
first never ends (its test `i <= n` cannot fail), and the second cannot construct its table
of `n+1` entries (`n+1` wraps to `INT_MIN`). -/
theorem climbStairs_int_max :
    (∀ fuel : Nat, climbStairs fuel INT_MAX = none) ∧
    (∀ fuel : Nat, climbStairsTable fuel INT_MAX = none) := by
  refine ⟨fun fuel => ?_, fun fuel => ?_⟩
  · have h := scanLoop_int_max fuel 3 2 1 0
    rw [show wrap32 3 = 3 from by decide] at h
    unfold climbStairs
    rw [if_neg (by decide), if_neg (by decide), if_neg (by decide)]
    exact h
  · unfold climbStairsTable
    rw [if_neg (by decide), if_neg (by decide), if_neg (by decide),
      show makeSteps (wrap32 (INT_MAX + 1)) = none from by decide]
    rfl

/-- C20, amended: for every `int` `n` below `INT_MAX` the rolling-variable scan and the
table version return the same result, with 32-bit addition taken modulo 2^32 in both. -/
theorem climbStairs_eq_table (n : Int) (h2 : n < INT_MAX) (fuel : Nat)
    (hf : n.toNat ≤ fuel) :
    ∃ r, climbStairs fuel n = some r ∧ climbStairsTable fuel n = some r :=
  ⟨_, climbStairs_both n h2 fuel hf⟩

theorem climbStairs_eq_table_witness :
    (5 : Int) < INT_MAX ∧ (5 : Int).toNat ≤ 5 ∧
      ∃ r, climbStairs 5 5 = some r ∧ climbStairsTable 5 5 = some r :=
  ⟨by decide, by decide, climbStairs_eq_table 5 (by decide) 5 (by decide)⟩

end ClimbingStairs
